import Mathlib

/-!
Shallow embedding of the maze generator and solver of `maze.py`
(repository sytallax/maze-solver).

The Python classes `Cell` and `Maze` are modelled as Lean structures; the
mutable cell matrix `Maze._cells` becomes an explicit `List (List Cell)`
threaded through every operation.  Python exceptions are modelled with
`Except Err`: `Err.indexError` is an out-of-range list subscript
(Python `IndexError`), `Err.valueError` is the explicit
`ValueError("cell has no coordinates")` raised by `Cell.draw_move`.
The two recursive algorithms (`Maze._break_walls_r` and `Maze._solve_r`)
are embedded with an explicit fuel parameter; exhausting the fuel yields
`Err.outOfFuel`, and fuel-sufficiency theorems below show that the
canonical fuel never runs out, so the fuel is only a presentation of the
call stack, not a change of semantics.  `random.choice` consumes a
seedable stream of naturals (`Rng`); theorems quantify over all streams,
which covers every possible seed.  The Tkinter rendering calls
(`Window.draw_line`, colors, `_animate`) have no effect on the logical
state and are dropped; the only observable effects of drawing retained
here are the ones the algorithms can see: `Cell.draw` stores the pixel
bounds on the cell when a window is attached, and `Cell.draw_move`
raises `ValueError` on Python-falsy bounds.  Leading underscores of
Python method names are dropped (`_break_walls_r` ↦
`Maze.break_walls_r`, and so on).
-/

/-- Errors a run can produce: `indexError` models a Python `IndexError`
from a bad list subscript, `valueError` models the
`ValueError("cell has no coordinates")` in `Cell.draw_move`, and
`outOfFuel` signals recursion-depth fuel exhaustion of the embedding
(never the Python program's own behaviour). -/
inductive Err : Type where
  | outOfFuel : Err
  | indexError : Err
  | valueError : Err
deriving DecidableEq, Repr

/-- A seedable random stream: the `n`-th draw of raw randomness.
`random.choice` consumes the head and leaves the tail. -/
def Rng : Type := Nat → Nat

/-- Head of the random stream. -/
def Rng.head (g : Rng) : Nat := g 0

/-- Tail of the random stream. -/
def Rng.tail (g : Rng) : Rng := fun n => g (n + 1)

/-- Python list subscript resolution: nonnegative indices are absolute,
negative indices count from the end, anything else is an `IndexError`
(`none`). -/
def pyIdx (len : Nat) (i : Int) : Option Nat :=
  if 0 ≤ i then
    if i.toNat < len then some i.toNat else none
  else
    if 0 ≤ i + len then some (i + (len : Int)).toNat else none

/-- Python `l[i]` (read). -/
def getListE (l : List α) (i : Int) : Except Err α :=
  match pyIdx l.length i with
  | some k =>
    match l[k]? with
    | some a => .ok a
    | none => .error .indexError
  | none => .error .indexError

/-- Python `l[i] = a` (write). -/
def setListE (l : List α) (i : Int) (a : α) : Except Err (List α) :=
  match pyIdx l.length i with
  | some k => .ok (l.set k a)
  | none => .error .indexError

/-- Python's `random.choice`: pick an element of the list using the head
of the random stream (reduced modulo the length, so that over all
streams every element is choosable, matching uniform choice support);
raises `IndexError` on an empty list exactly as `random.choice` does. -/
def randomChoice (g : Rng) (l : List α) : Except Err (α × Rng) :=
  match l[g.head % l.length]? with
  | some a => .ok (a, g.tail)
  | none => .error .indexError

/-- `Cell.__init__`: four wall flags (all present), optional pixel
bounds `_x1 _y1 _x2 _y2` (unset), a `visited` marker and the optional
window reference (modelled by its presence flag). -/
structure Cell : Type where
  has_left_wall : Bool := true
  has_right_wall : Bool := true
  has_top_wall : Bool := true
  has_bottom_wall : Bool := true
  x1 : Option Int := none
  y1 : Option Int := none
  x2 : Option Int := none
  y2 : Option Int := none
  visited : Bool := false
  win : Bool := false
deriving DecidableEq, Repr

/-- A fresh cell as produced by `Cell(self.win)`. -/
def Cell.init (win : Bool) : Cell :=
  { win := win }

/-- `Cell.draw`: with no window attached it returns immediately;
otherwise it stores the pixel bounds on the cell (the actual line
drawing has no logical effect). -/
def Cell.draw (c : Cell) (x1 y1 x2 y2 : Int) : Cell :=
  if c.win = false then c
  else { c with x1 := some x1, y1 := some y1, x2 := some x2, y2 := some y2 }

/-- Python truthiness of an optional integer field: `not self._x1` is
true when the field is `None` or `0`. -/
def pyFalsy (o : Option Int) : Bool :=
  match o with
  | none => true
  | some v => v = 0

/-- `Cell.draw_move`: returns immediately with no window; otherwise
raises `ValueError("cell has no coordinates")` when any of the eight
bounds of the two cells is Python-falsy (`None` or `0`), and otherwise
draws a line (no logical effect).  The `undo` flag only selects the
color. -/
def Cell.draw_move (c : Cell) (to_cell : Cell) (_undo : Bool) : Except Err Unit :=
  if c.win = false then .ok ()
  else if pyFalsy c.x1 || pyFalsy c.x2 || pyFalsy c.y1 || pyFalsy c.y2 then
    .error .valueError
  else if pyFalsy to_cell.x1 || pyFalsy to_cell.x2 || pyFalsy to_cell.y1 || pyFalsy to_cell.y2 then
    .error .valueError
  else .ok ()

/-- `Maze.__init__` fields: origin, dimensions, cell pixel sizes, the
optional window (as a presence flag) and the cell matrix `_cells`,
indexed `[col][row]`. -/
structure MazeState : Type where
  x1 : Int
  y1 : Int
  num_rows : Int
  num_cols : Int
  cell_size_x : Int
  cell_size_y : Int
  win : Bool
  cells : List (List Cell)
deriving DecidableEq, Repr

namespace Maze

/-- Read `self._cells[col][row]`. -/
def getCellE (s : MazeState) (col row : Int) : Except Err Cell :=
  match getListE s.cells col with
  | .error e => .error e
  | .ok colL => getListE colL row

/-- In-place update of `self._cells[col][row]` (Python cells are
mutated through the alias into the matrix). -/
def modifyCellE (s : MazeState) (col row : Int) (f : Cell → Cell) :
    Except Err MazeState :=
  match getListE s.cells col with
  | .error e => .error e
  | .ok colL =>
    match getListE colL row with
    | .error e => .error e
    | .ok cell =>
      match setListE colL row (f cell) with
      | .error e => .error e
      | .ok colL2 =>
        match setListE s.cells col colL2 with
        | .error e => .error e
        | .ok cells2 => .ok { s with cells := cells2 }

/-- `Maze._draw_cell`: compute the pixel bounds from the origin and the
cell sizes and let the cell draw itself (`_animate` has no logical
effect). -/
def draw_cell (s : MazeState) (col row : Int) : Except Err MazeState :=
  modifyCellE s col row (fun c =>
    Cell.draw c (s.x1 + s.cell_size_x * col) (s.y1 + s.cell_size_y * row)
      (s.x1 + s.cell_size_x * col + s.cell_size_x)
      (s.y1 + s.cell_size_y * row + s.cell_size_y))

/-- `Maze._break_wall`: clear the named wall flag of cell `(col,row)`
(an unrecognized name falls through the `if`/`elif` chain and clears
nothing), then redraw the cell. -/
def break_wall (s : MazeState) (col row : Int) (wall : String) :
    Except Err MazeState :=
  match
    (if wall = "top" then modifyCellE s col row (fun c => { c with has_top_wall := false })
     else if wall = "bottom" then modifyCellE s col row (fun c => { c with has_bottom_wall := false })
     else if wall = "left" then modifyCellE s col row (fun c => { c with has_left_wall := false })
     else if wall = "right" then modifyCellE s col row (fun c => { c with has_right_wall := false })
     else .ok s) with
  | .error e => .error e
  | .ok s2 => draw_cell s2 col row

/-- `Maze._break_entrance_and_exit`. -/
def break_entrance_and_exit (s : MazeState) : Except Err MazeState :=
  match break_wall s 0 0 "left" with
  | .error e => .error e
  | .ok s2 => break_wall s2 (s2.num_cols - 1) (s2.num_rows - 1) "right"

/-- `self._cells[col][row].visited = True` (first line of
`_break_walls_r`, also lines 297-298 of `_solve_r`). -/
def markVisitedE (s : MazeState) (col row : Int) : Except Err MazeState :=
  modifyCellE s col row (fun c => { c with visited := true })

/-- One guard-and-append step of the `possible_cells_to_visit`
computation: when the bound check `cond` passes, read the neighbor cell
(this is where Python would raise `IndexError`) and produce the
singleton candidate when it is unvisited. -/
def probeNeighbor (s : MazeState) (cond : Bool) (c r : Int) :
    Except Err (List (Int × Int)) :=
  if cond then
    match getCellE s c r with
    | .error e => .error e
    | .ok cell => .ok (if cell.visited = false then [(c, r)] else [])
  else .ok []

/-- The `possible_cells_to_visit` computation shared verbatim by
`_break_walls_r` (lines 245-256) and `_solve_r` (lines 302-314): the
in-bounds neighbors of `(col,row)` whose `visited` flag is `False`, in
the fixed order left, right, up, down. -/
def possibleToVisit (s : MazeState) (col row : Int) :
    Except Err (List (Int × Int)) :=
  match probeNeighbor s (decide (col - 1 ≥ 0)) (col - 1) row with
  | .error e => .error e
  | .ok l1 =>
  match probeNeighbor s (decide (col + 1 < s.num_cols)) (col + 1) row with
  | .error e => .error e
  | .ok l2 =>
  match probeNeighbor s (decide (row - 1 ≥ 0)) col (row - 1) with
  | .error e => .error e
  | .ok l3 =>
  match probeNeighbor s (decide (row + 1 < s.num_rows)) col (row + 1) with
  | .error e => .error e
  | .ok l4 => .ok (l1 ++ l2 ++ l3 ++ l4)

/-- One iteration of the allocation loop body of `_create_cells`:
`self._cells[col].append(Cell(self.win))` followed by
`self._draw_cell(col, row)`. -/
def alloc_step (s : MazeState) (col row : Int) : Except Err MazeState :=
  match getListE s.cells col with
  | .error e => .error e
  | .ok colL =>
    match setListE s.cells col (colL ++ [Cell.init s.win]) with
    | .error e => .error e
    | .ok cells2 => draw_cell { s with cells := cells2 } col row

/-- The inner `for row in range(self.num_rows)` allocation loop at a
fixed column. -/
def alloc_rows (s : MazeState) (col : Int) : List Nat → Except Err MazeState
  | [] => .ok s
  | row :: rest =>
    match alloc_step s col (row : Int) with
    | .error e => .error e
    | .ok s2 => alloc_rows s2 col rest

/-- The outer `for col in range(self.num_cols)` allocation loop. -/
def alloc_cols (s : MazeState) (m : Nat) : List Nat → Except Err MazeState
  | [] => .ok s
  | col :: rest =>
    match alloc_rows s (col : Int) (List.range m) with
    | .error e => .error e
    | .ok s2 => alloc_cols s2 m rest

/-- The allocation phase of `_create_cells` (lines 187-193): start from
`[[] * self.num_rows for _ in range(self.num_cols)]` (note `[] * n`
is `[]` in Python, so this is `num_cols` empty columns) and fill it
column by column, drawing each cell as it is appended.  This is the
grid state "before generation". -/
def allocPhase (s : MazeState) : Except Err MazeState :=
  alloc_cols { s with cells := List.replicate s.num_cols.toNat [] }
    s.num_rows.toNat (List.range s.num_cols.toNat)

/-- One oriented two-sided wall break of `_break_walls_r`: when the
direction predicate `cond` holds, break wall `w1` of the current cell
`(col,row)` and wall `w2` of the chosen neighbor `(nc,nr)`. -/
def breakPair (s : MazeState) (cond : Bool) (col row nc nr : Int)
    (w1 w2 : String) : Except Err MazeState :=
  if cond then
    match break_wall s col row w1 with
    | .error e => .error e
    | .ok sa => break_wall sa nc nr w2
  else .ok s

mutual

/-- `Maze._break_walls_r`: mark the cell visited, then run the carving
loop.  The first fuel argument bounds the recursion and decreases at
every nested call. -/
def break_walls_r : Nat → MazeState → Rng → Int → Int →
    Except Err (MazeState × Rng)
  | 0, _, _, _, _ => .error .outOfFuel
  | Nat.succ n, s, g, col, row =>
    match markVisitedE s col row with
    | .error e => .error e
    | .ok s2 => carve_loop n s2 g col row
termination_by n _ _ _ _ => n

/-- The `while True` loop body of `_break_walls_r` (lines 244-279):
recompute the unvisited in-bounds neighbors; if none are left return,
otherwise pick one at random, break the shared wall on both sides
(the orientation of the four `if`s selects which pair of flags), carve
recursively from the chosen neighbor, and loop again at the current
cell. -/
def carve_loop : Nat → MazeState → Rng → Int → Int →
    Except Err (MazeState × Rng)
  | 0, _, _, _, _ => .error .outOfFuel
  | Nat.succ n, s, g, col, row =>
    match possibleToVisit s col row with
    | .error e => .error e
    | .ok ps =>
      if ps.length = 0 then .ok (s, g)
      else
        match randomChoice g ps with
        | .error e => .error e
        | .ok ((nc, nr), g2) =>
          match breakPair s (decide (col < nc)) col row nc nr "right" "left" with
          | .error e => .error e
          | .ok sb =>
          match breakPair sb (decide (col > nc)) col row nc nr "left" "right" with
          | .error e => .error e
          | .ok sc =>
          match breakPair sc (decide (row < nr)) col row nc nr "bottom" "top" with
          | .error e => .error e
          | .ok sd =>
          match breakPair sd (decide (row > nr)) col row nc nr "top" "bottom" with
          | .error e => .error e
          | .ok se =>
            match break_walls_r n se g2 nc nr with
            | .error e => .error e
            | .ok (sf, g3) => carve_loop n sf g3 col row
termination_by n _ _ _ _ => n

end

/-- `Maze._reset_cells_visited`: set every cell's `visited` to
`False`. -/
def reset_cells_visited (s : MazeState) : MazeState :=
  { s with cells := s.cells.map (fun colL => colL.map (fun c => { c with visited := false })) }

/-- `Maze._create_cells` (and hence the whole of `Maze.__init__` after
the field assignments): allocate the matrix, break the entrance and
exit walls, carve from the grid's center cell
`(num_cols // 2, num_rows // 2)` and reset the `visited` flags. -/
def create_cells (s : MazeState) (g : Rng) (fuel : Nat) :
    Except Err (MazeState × Rng) :=
  match allocPhase s with
  | .error e => .error e
  | .ok s2 =>
    match break_entrance_and_exit s2 with
    | .error e => .error e
    | .ok s3 =>
      match break_walls_r fuel s3 g (s3.num_cols.fdiv 2) (s3.num_rows.fdiv 2) with
      | .error e => .error e
      | .ok (s4, g2) => .ok (reset_cells_visited s4, g2)

/-- `Maze.__init__(x1, y1, num_rows, num_cols, cell_size_x,
cell_size_y, win)`. -/
def init (x1 y1 num_rows num_cols cell_size_x cell_size_y : Int)
    (win : Bool) (g : Rng) (fuel : Nat) : Except Err (MazeState × Rng) :=
  create_cells
    { x1 := x1, y1 := y1, num_rows := num_rows, num_cols := num_cols,
      cell_size_x := cell_size_x, cell_size_y := cell_size_y, win := win,
      cells := [] } g fuel

mutual

/-- `Maze._solve_r`: mark the cell visited, succeed at the target cell
`(num_cols-1, num_rows-1)`, otherwise compute the unvisited in-bounds
neighbors once and iterate over them. -/
def solve_r : Nat → MazeState → Int → Int → Except Err (Bool × MazeState)
  | 0, _, _, _ => .error .outOfFuel
  | Nat.succ n, s, col, row =>
    match markVisitedE s col row with
    | .error e => .error e
    | .ok s2 =>
      if col = s2.num_cols - 1 ∧ row = s2.num_rows - 1 then .ok (true, s2)
      else
        match possibleToVisit s2 col row with
        | .error e => .error e
        | .ok ps =>
          if ps.length = 0 then .ok (false, s2)
          else solve_loop n s2 col row ps
termination_by n _ _ _ => (n, 0, 0)

/-- One of the four direction blocks of the `for` loop of `_solve_r`:
when the direction predicate and the two-sided wall check (the
precomputed `go`) hold, draw the forward move (`draw_move`, which can
raise `ValueError`), recurse into the candidate, propagate success
immediately, and on failure draw the undo move and fall through with
the state the recursion produced. -/
def attempt_move (n : Nat) (s : MazeState) (col row nc nr : Int)
    (go : Bool) : Except Err (Bool × MazeState) :=
  if go then
    match getCellE s col row with
    | .error e => .error e
    | .ok cur =>
    match getCellE s nc nr with
    | .error e => .error e
    | .ok next =>
    match Cell.draw_move cur next false with
    | .error e => .error e
    | .ok _ =>
      match solve_r n s nc nr with
      | .error e => .error e
      | .ok (true, s2) => .ok (true, s2)
      | .ok (false, s2) =>
        match getCellE s2 col row with
        | .error e => .error e
        | .ok cur2 =>
        match getCellE s2 nc nr with
        | .error e => .error e
        | .ok next2 =>
        match Cell.draw_move cur2 next2 true with
        | .error e => .error e
        | .ok _ => .ok (false, s2)
  else .ok (false, s)
termination_by (n, 1, 0)

/-- The `for next_col, next_row in possible_cells_to_visit` loop of
`_solve_r` (lines 319-354).  Each iteration runs through the four
sequential direction `if` blocks; the Python code reads `current_cell`
and `next_cell` through live aliases into the matrix, so the embedding
re-reads both cells before each block.  When all four blocks fall
through, the loop moves to the next candidate; when the list is
exhausted the iteration ends and the call returns `False` (line 354). -/
def solve_loop : Nat → MazeState → Int → Int → List (Int × Int) →
    Except Err (Bool × MazeState)
  | _, s, _, _, [] => .ok (false, s)
  | n, s, col, row, (nc, nr) :: rest =>
    match getCellE s col row with
    | .error e => .error e
    | .ok cur =>
    match getCellE s nc nr with
    | .error e => .error e
    | .ok next =>
    match attempt_move n s col row nc nr
      (decide (col < nc) && (!cur.has_right_wall && !next.has_left_wall)) with
    | .error e => .error e
    | .ok (true, s1) => .ok (true, s1)
    | .ok (false, s1) =>
    match getCellE s1 col row with
    | .error e => .error e
    | .ok cur1 =>
    match getCellE s1 nc nr with
    | .error e => .error e
    | .ok next1 =>
    match attempt_move n s1 col row nc nr
      (decide (col > nc) && (!cur1.has_left_wall && !next1.has_right_wall)) with
    | .error e => .error e
    | .ok (true, s2) => .ok (true, s2)
    | .ok (false, s2) =>
    match getCellE s2 col row with
    | .error e => .error e
    | .ok cur2 =>
    match getCellE s2 nc nr with
    | .error e => .error e
    | .ok next2 =>
    match attempt_move n s2 col row nc nr
      (decide (row < nr) && (!cur2.has_bottom_wall && !next2.has_top_wall)) with
    | .error e => .error e
    | .ok (true, s3) => .ok (true, s3)
    | .ok (false, s3) =>
    match getCellE s3 col row with
    | .error e => .error e
    | .ok cur3 =>
    match getCellE s3 nc nr with
    | .error e => .error e
    | .ok next3 =>
    match attempt_move n s3 col row nc nr
      (decide (row > nr) && (!cur3.has_top_wall && !next3.has_bottom_wall)) with
    | .error e => .error e
    | .ok (true, s4) => .ok (true, s4)
    | .ok (false, s4) => solve_loop n s4 col row rest
termination_by n _ _ _ l => (n, 2, l.length)

end

/-- `Maze.solve`: run `_solve_r` from `(0, 0)`. -/
def solve (fuel : Nat) (s : MazeState) : Except Err (Bool × MazeState) :=
  solve_r fuel s 0 0

/-- Fuel that always suffices for generation (proved below): two units
per cell plus slack. -/
def carveFuel (num_rows num_cols : Int) : Nat :=
  2 * (num_rows.toNat * num_cols.toNat) + 2

/-- Fuel that always suffices for solving (proved below): one unit per
cell plus one. -/
def solveFuel (s : MazeState) : Nat :=
  s.num_cols.toNat * s.num_rows.toNat + 1

end Maze

/-! ### Specification layer: views of a maze state

These definitions are not part of the translated program; they are the
vocabulary the theorems are stated in: wellformedness of the cell
matrix, the in-bounds position set, a total read of a cell, the set of
visited positions, the passage (broken-wall) edge set and the passage
graph. -/

/-- A grid position `(col, row)`. -/
abbrev Pos : Type := Int × Int

/-- The cell matrix has `num_cols` columns of `num_rows` cells each. -/
def WF (s : MazeState) : Prop :=
  s.cells.length = s.num_cols.toNat ∧
    ∀ colL ∈ s.cells, colL.length = s.num_rows.toNat

instance : DecidablePred WF := fun s => by
  unfold WF; infer_instance

/-- `(col, row)` is inside the grid. -/
def inB (s : MazeState) (p : Pos) : Prop :=
  0 ≤ p.1 ∧ p.1 < s.num_cols ∧ 0 ≤ p.2 ∧ p.2 < s.num_rows

instance (s : MazeState) : DecidablePred (inB s) := fun p => by
  unfold inB; infer_instance

/-- Total read of the cell at `p` (defaulting outside the matrix; all
uses are guarded by `inB`). -/
def cellAt (s : MazeState) (p : Pos) : Cell :=
  (s.cells[p.1.toNat]?.bind (fun colL => colL[p.2.toNat]?)).getD {}

/-- The finite set of all in-bounds positions. -/
def allPos (s : MazeState) : Finset Pos :=
  (Finset.range s.num_cols.toNat ×ˢ Finset.range s.num_rows.toNat).image
    (fun q => ((q.1 : Int), (q.2 : Int)))

/-- The set of visited in-bounds positions. -/
def vis (s : MazeState) : Finset Pos :=
  (allPos s).filter (fun p => (cellAt s p).visited = true)

/-- The number of unvisited in-bounds positions. -/
def unvis (s : MazeState) : Nat :=
  ((allPos s).filter (fun p => ¬ (cellAt s p).visited = true)).card

/-- The wall between `p` and its right neighbor is open on both facing
sides (and both cells are in bounds). -/
def openRight (s : MazeState) (p : Pos) : Prop :=
  inB s p ∧ inB s (p.1 + 1, p.2) ∧
    (cellAt s p).has_right_wall = false ∧
    (cellAt s (p.1 + 1, p.2)).has_left_wall = false

/-- The wall between `p` and its downward neighbor is open on both
facing sides (and both cells are in bounds). -/
def openDown (s : MazeState) (p : Pos) : Prop :=
  inB s p ∧ inB s (p.1, p.2 + 1) ∧
    (cellAt s p).has_bottom_wall = false ∧
    (cellAt s (p.1, p.2 + 1)).has_top_wall = false

instance (s : MazeState) : DecidablePred (openRight s) := fun p => by
  unfold openRight; infer_instance

instance (s : MazeState) : DecidablePred (openDown s) := fun p => by
  unfold openDown; infer_instance

/-- Canonically oriented open passage: rightward or downward. -/
def oriOpen (s : MazeState) (a b : Pos) : Prop :=
  (b = (a.1 + 1, a.2) ∧ openRight s a) ∨ (b = (a.1, a.2 + 1) ∧ openDown s a)

instance (s : MazeState) (a b : Pos) : Decidable (oriOpen s a b) := by
  unfold oriOpen; infer_instance

/-- The set of broken interior wall connections: canonically oriented
pairs of adjacent in-bounds cells whose shared wall is absent on both
facing sides.  The two boundary entrance/exit breaks have no second
facing side and are therefore not counted. -/
def passages (s : MazeState) : Finset (Pos × Pos) :=
  ((allPos s) ×ˢ (allPos s)).filter (fun q => oriOpen s q.1 q.2)

/-- The passage graph: two positions are adjacent when the wall between
them is absent on both facing sides. -/
def mazeGraph (s : MazeState) : SimpleGraph Pos where
  Adj a b := oriOpen s a b ∨ oriOpen s b a
  symm := by
    intro a b h
    exact h.symm
  loopless := by
    intro a h
    rcases h with h | h <;> rcases h with ⟨h1, -⟩ | ⟨h1, -⟩ <;>
      · have := congrArg Prod.fst h1
        have := congrArg Prod.snd h1
        omega

instance (s : MazeState) : DecidableRel (mazeGraph s).Adj := fun a b => by
  show Decidable (oriOpen s a b ∨ oriOpen s b a); infer_instance

/-- Transfer through reflexive-transitive closure of an oriented edge
set: the reachability relation generated by a set of oriented edges. -/
def adjE (E : Finset (Pos × Pos)) (a b : Pos) : Prop :=
  (a, b) ∈ E ∨ (b, a) ∈ E

/-- Reachability in an oriented edge set. -/
def ReachE (E : Finset (Pos × Pos)) : Pos → Pos → Prop :=
  Relation.ReflTransGen (adjE E)

/-- The wall flags of the cell at `p`, as one tuple (used to state
frame properties of the solver). -/
def wallView (s : MazeState) (p : Pos) : Bool × Bool × Bool × Bool :=
  ((cellAt s p).has_left_wall, (cellAt s p).has_right_wall,
   (cellAt s p).has_top_wall, (cellAt s p).has_bottom_wall)

/-- Adjacent cells carry mutually consistent wall flags: a right wall
agrees with the neighbor's left wall, a bottom wall with the
neighbor's top wall. -/
def Consistent (s : MazeState) : Prop :=
  ∀ p ∈ allPos s,
    (inB s (p.1 + 1, p.2) →
      (cellAt s p).has_right_wall = (cellAt s (p.1 + 1, p.2)).has_left_wall) ∧
    (inB s (p.1, p.2 + 1) →
      (cellAt s p).has_bottom_wall = (cellAt s (p.1, p.2 + 1)).has_top_wall)

instance : DecidablePred Consistent := fun s => by
  unfold Consistent; infer_instance

/-- Scalar fields (dimensions, geometry, window) of two states agree;
every maze operation preserves them. -/
def DimsEq (s t : MazeState) : Prop :=
  t.num_rows = s.num_rows ∧ t.num_cols = s.num_cols ∧ t.win = s.win ∧
    t.x1 = s.x1 ∧ t.y1 = s.y1 ∧ t.cell_size_x = s.cell_size_x ∧
    t.cell_size_y = s.cell_size_y

/-! ### Basic lemmas on the list primitives and cell accessors -/

theorem DimsEq.drefl (s : MazeState) : DimsEq s s :=
  ⟨rfl, rfl, rfl, rfl, rfl, rfl, rfl⟩

theorem DimsEq.dtrans {s t u : MazeState} (h1 : DimsEq s t) (h2 : DimsEq t u) :
    DimsEq s u := by
  obtain ⟨a1, a2, a3, a4, a5, a6, a7⟩ := h1
  obtain ⟨b1, b2, b3, b4, b5, b6, b7⟩ := h2
  exact ⟨b1.trans a1, b2.trans a2, b3.trans a3, b4.trans a4, b5.trans a5,
    b6.trans a6, b7.trans a7⟩

theorem allPos_eq_of_dims {s t : MazeState} (h : DimsEq s t) :
    allPos t = allPos s := by
  unfold allPos
  rw [h.1, h.2.1]

theorem inB_iff_of_dims {s t : MazeState} (h : DimsEq s t) (p : Pos) :
    inB t p ↔ inB s p := by
  unfold inB
  rw [h.1, h.2.1]

theorem mem_allPos {s : MazeState} {p : Pos} : p ∈ allPos s ↔ inB s p := by
  unfold allPos inB
  simp only [Finset.mem_image, Finset.mem_product, Finset.mem_range, Prod.exists]
  constructor
  · rintro ⟨a, b, ⟨ha, hb⟩, rfl⟩
    refine ⟨by positivity, ?_, by positivity, ?_⟩ <;> simp <;> omega
  · rintro ⟨h1, h2, h3, h4⟩
    refine ⟨p.1.toNat, p.2.toNat, ⟨by omega, by omega⟩, ?_⟩
    rw [Int.toNat_of_nonneg h1, Int.toNat_of_nonneg h3]

theorem pyIdx_of_nonneg {len : Nat} {i : Int} (h0 : 0 ≤ i)
    (h1 : i < (len : Int)) : pyIdx len i = some i.toNat := by
  unfold pyIdx
  rw [if_pos h0, if_pos (by omega)]

theorem getListE_ok {α : Type} {l : List α} {i : Int} {a : α} (h0 : 0 ≤ i)
    (h : l[i.toNat]? = some a) : getListE l i = .ok a := by
  have hlt : i.toNat < l.length := (List.getElem?_eq_some.mp h).1
  unfold getListE
  rw [pyIdx_of_nonneg h0 (by omega)]
  simp [h]

theorem setListE_ok {α : Type} {l : List α} {i : Int} (a : α) (h0 : 0 ≤ i)
    (hlt : i.toNat < l.length) : setListE l i a = .ok (l.set i.toNat a) := by
  unfold setListE
  rw [pyIdx_of_nonneg h0 (by omega)]

/-- From wellformedness, the column list at an in-bounds position. -/
theorem WF.col_get {s : MazeState} {p : Pos} (hwf : WF s) (hp : inB s p) :
    ∃ colL, s.cells[p.1.toNat]? = some colL ∧
      colL.length = s.num_rows.toNat := by
  obtain ⟨h1, h2, h3, h4⟩ := hp
  have hlt : p.1.toNat < s.cells.length := by rw [hwf.1]; omega
  refine ⟨s.cells[p.1.toNat], List.getElem?_eq_getElem hlt, ?_⟩
  exact hwf.2 _ (List.getElem_mem hlt)

theorem cellAt_get {s : MazeState} {p : Pos} (hwf : WF s) (hp : inB s p) :
    ∃ colL, s.cells[p.1.toNat]? = some colL ∧
      colL[p.2.toNat]? = some (cellAt s p) := by
  obtain ⟨h1, h2, h3, h4⟩ := hp
  obtain ⟨colL, hcol, hlen⟩ := hwf.col_get ⟨h1, h2, h3, h4⟩
  have hlt : p.2.toNat < colL.length := by omega
  obtain ⟨c, hc⟩ : ∃ c, colL[p.2.toNat]? = some c :=
    ⟨_, List.getElem?_eq_getElem hlt⟩
  refine ⟨colL, hcol, ?_⟩
  rw [hc]
  unfold cellAt
  rw [hcol]
  simp [hc]

theorem getCellE_ok {s : MazeState} {p : Pos} (hwf : WF s) (hp : inB s p) :
    Maze.getCellE s p.1 p.2 = .ok (cellAt s p) := by
  obtain ⟨colL, hcol, hcell⟩ := cellAt_get hwf hp
  unfold Maze.getCellE
  simp only [getListE_ok hp.1 hcol]
  exact getListE_ok hp.2.2.1 hcell

/-- The state produced by an in-place update of the cell at `p`. -/
def updCell (s : MazeState) (p : Pos) (f : Cell → Cell) : MazeState :=
  { s with
    cells := s.cells.set p.1.toNat
      ((s.cells[p.1.toNat]?.getD []).set p.2.toNat (f (cellAt s p))) }

theorem modifyCellE_ok {s : MazeState} {p : Pos} (f : Cell → Cell)
    (hwf : WF s) (hp : inB s p) :
    Maze.modifyCellE s p.1 p.2 f = .ok (updCell s p f) := by
  obtain ⟨colL, hcol, hcell⟩ := cellAt_get hwf hp
  have hlen2 : p.2.toNat < colL.length := (List.getElem?_eq_some.mp hcell).1
  have hlen1 : p.1.toNat < s.cells.length := (List.getElem?_eq_some.mp hcol).1
  unfold Maze.modifyCellE
  simp only [getListE_ok hp.1 hcol, getListE_ok hp.2.2.1 hcell,
    setListE_ok (f (cellAt s p)) hp.2.2.1 hlen2,
    setListE_ok (colL.set p.2.toNat (f (cellAt s p))) hp.1 hlen1]
  unfold updCell
  rw [hcol]
  rfl

theorem updCell_dims (s : MazeState) (p : Pos) (f : Cell → Cell) :
    DimsEq s (updCell s p f) :=
  ⟨rfl, rfl, rfl, rfl, rfl, rfl, rfl⟩

theorem updCell_WF {s : MazeState} {p : Pos} (f : Cell → Cell)
    (hwf : WF s) (hp : inB s p) : WF (updCell s p f) := by
  constructor
  · show (s.cells.set _ _).length = _
    rw [List.length_set]; exact hwf.1
  · intro colL hmem
    rcases List.mem_or_eq_of_mem_set hmem with h | h
    · exact hwf.2 _ h
    · subst h
      rw [List.length_set]
      cases hget : s.cells[p.1.toNat]? with
      | none =>
        obtain ⟨colL2, hcol2, -⟩ := hwf.col_get hp
        rw [hcol2] at hget
        cases hget
      | some colL0 =>
        simp only [hget, Option.getD_some]
        obtain ⟨hlt, heq⟩ := List.getElem?_eq_some.mp hget
        exact hwf.2 _ (heq ▸ List.getElem_mem hlt)

theorem cellAt_updCell_same {s : MazeState} {p : Pos} (f : Cell → Cell)
    (hwf : WF s) (hp : inB s p) :
    cellAt (updCell s p f) p = f (cellAt s p) := by
  obtain ⟨colL, hcol, hcell⟩ := cellAt_get hwf hp
  have hlen2 : p.2.toNat < colL.length := (List.getElem?_eq_some.mp hcell).1
  have hlen1 : p.1.toNat < s.cells.length := (List.getElem?_eq_some.mp hcol).1
  unfold cellAt updCell
  simp only
  rw [List.getElem?_set_eq_of_lt _ hlen1, hcol]
  simp only [Option.getD_some, Option.some_bind]
  rw [List.getElem?_set_eq_of_lt _ hlen2, hcell]
  rfl

/-- Equality of the algorithmically relevant cell fields (wall flags,
visited marker, window flag); the pixel bounds are left free because
`_draw_cell` rewrites them on every redraw. -/
def cellLogicEq (a b : Cell) : Prop :=
  a.has_left_wall = b.has_left_wall ∧ a.has_right_wall = b.has_right_wall ∧
  a.has_top_wall = b.has_top_wall ∧ a.has_bottom_wall = b.has_bottom_wall ∧
  a.visited = b.visited ∧ a.win = b.win

theorem cellLogicEq.lrefl (a : Cell) : cellLogicEq a a :=
  ⟨rfl, rfl, rfl, rfl, rfl, rfl⟩

theorem cellLogicEq.ltrans {a b c : Cell} (h1 : cellLogicEq a b)
    (h2 : cellLogicEq b c) : cellLogicEq a c := by
  obtain ⟨x1, x2, x3, x4, x5, x6⟩ := h1
  obtain ⟨y1, y2, y3, y4, y5, y6⟩ := h2
  exact ⟨x1.trans y1, x2.trans y2, x3.trans y3, x4.trans y4, x5.trans y5,
    x6.trans y6⟩

theorem cellAt_updCell_other {s : MazeState} {p q : Pos} (f : Cell → Cell)
    (hwf : WF s) (hp : inB s p) (hq : inB s q) (hne : q ≠ p) :
    cellAt (updCell s p f) q = cellAt s q := by
  unfold cellAt updCell
  simp only
  by_cases hc : q.1.toNat = p.1.toNat
  · have hc1 : q.1 = p.1 := by
      have := hp.1; have := hq.1; omega
    have hr : q.2.toNat ≠ p.2.toNat := by
      have h2 : q.2 ≠ p.2 := by
        intro h2
        exact hne (Prod.ext hc1 h2)
      have := hp.2.2.1; have := hq.2.2.1; omega
    obtain ⟨colL, hcol, -⟩ := hwf.col_get hp
    have hlen1 : p.1.toNat < s.cells.length := (List.getElem?_eq_some.mp hcol).1
    rw [hc, List.getElem?_set_eq_of_lt _ hlen1, hcol]
    simp only [Option.getD_some, Option.some_bind]
    rw [List.getElem?_set_ne (fun h => hr h.symm)]
  · rw [List.getElem?_set_ne (fun h => hc h.symm)]

/-! ### Effect lemmas for the single-cell operations -/

theorem Cell.draw_logic (c : Cell) (a b d e : Int) :
    cellLogicEq (Cell.draw c a b d e) c := by
  unfold Cell.draw
  by_cases h : c.win = false <;> simp [h, cellLogicEq]

theorem markVisitedE_ok {s : MazeState} {p : Pos} (hwf : WF s)
    (hp : inB s p) :
    Maze.markVisitedE s p.1 p.2 =
      .ok (updCell s p (fun c => { c with visited := true })) :=
  modifyCellE_ok _ hwf hp

theorem draw_cell_spec {s : MazeState} {p : Pos} (hwf : WF s)
    (hp : inB s p) :
    ∃ s2, Maze.draw_cell s p.1 p.2 = .ok s2 ∧ DimsEq s s2 ∧ WF s2 ∧
      ∀ q, inB s q → cellLogicEq (cellAt s2 q) (cellAt s q) := by
  unfold Maze.draw_cell
  refine ⟨_, modifyCellE_ok _ hwf hp, updCell_dims _ _ _,
    updCell_WF _ hwf hp, ?_⟩
  intro q hq
  by_cases hqp : q = p
  · subst hqp
    rw [cellAt_updCell_same _ hwf hp]
    exact Cell.draw_logic _ _ _ _ _
  · rw [cellAt_updCell_other _ hwf hp hq hqp]
    exact cellLogicEq.lrefl _

/-- Summary of the `if`/`elif` chain of `_break_wall`: which cell value
the named wall clear produces (unrecognized names clear nothing). -/
def wallClear (w : String) (c : Cell) : Cell :=
  if w = "top" then { c with has_top_wall := false }
  else if w = "bottom" then { c with has_bottom_wall := false }
  else if w = "left" then { c with has_left_wall := false }
  else if w = "right" then { c with has_right_wall := false }
  else c

theorem break_wall_spec {s : MazeState} {p : Pos} (w : String) (hwf : WF s)
    (hp : inB s p) :
    ∃ s2, Maze.break_wall s p.1 p.2 w = .ok s2 ∧ DimsEq s s2 ∧ WF s2 ∧
      ∀ q, inB s q → cellLogicEq (cellAt s2 q)
        (if q = p then wallClear w (cellAt s q) else cellAt s q) := by
  have main : ∀ f : Cell → Cell,
      ∃ s2, ((match Maze.modifyCellE s p.1 p.2 f with
        | .error e => .error e
        | .ok s1 => Maze.draw_cell s1 p.1 p.2) : Except Err MazeState) = .ok s2 ∧
        DimsEq s s2 ∧ WF s2 ∧
        ∀ q, inB s q → cellLogicEq (cellAt s2 q)
          (if q = p then f (cellAt s q) else cellAt s q) := by
    intro f
    rw [modifyCellE_ok f hwf hp]
    have hwf1 : WF (updCell s p f) := updCell_WF f hwf hp
    have hdims1 : DimsEq s (updCell s p f) := updCell_dims s p f
    have hp1 : inB (updCell s p f) p := (inB_iff_of_dims hdims1 p).mpr hp
    obtain ⟨s2, hrun, hdims2, hwf2, hcells⟩ := draw_cell_spec hwf1 hp1
    refine ⟨s2, hrun, hdims1.dtrans hdims2, hwf2, ?_⟩
    intro q hq
    have hq1 : inB (updCell s p f) q := (inB_iff_of_dims hdims1 q).mpr hq
    refine (hcells q hq1).ltrans ?_
    by_cases hqp : q = p
    · subst hqp
      rw [cellAt_updCell_same _ hwf hp, if_pos rfl]
      exact cellLogicEq.lrefl _
    · rw [cellAt_updCell_other _ hwf hp hq hqp, if_neg hqp]
      exact cellLogicEq.lrefl _
  unfold Maze.break_wall wallClear
  by_cases h1 : w = "top"
  · simp only [h1, if_pos rfl, reduceIte]
    exact main _
  by_cases h2 : w = "bottom"
  · simp only [h1, h2, if_neg, if_pos rfl, reduceIte]
    exact main _
  by_cases h3 : w = "left"
  · simp only [h1, h2, h3, if_neg, if_pos rfl, reduceIte]
    exact main _
  by_cases h4 : w = "right"
  · simp only [h1, h2, h3, h4, if_neg, if_pos rfl, reduceIte]
    exact main _
  · simp only [h1, h2, h3, h4, reduceIte]
    obtain ⟨s2, hrun, hdims2, hwf2, hcells⟩ := draw_cell_spec hwf hp
    refine ⟨s2, hrun, hdims2, hwf2, ?_⟩
    intro q hq
    refine (hcells q hq).ltrans ?_
    by_cases hqp : q = p <;> simp [hqp, cellLogicEq.lrefl]

/-- The value `possible_cells_to_visit` computes. -/
def candList (s : MazeState) (p : Pos) : List Pos :=
  (if 0 ≤ p.1 - 1 ∧ (cellAt s (p.1 - 1, p.2)).visited = false
    then [(p.1 - 1, p.2)] else []) ++
  (if p.1 + 1 < s.num_cols ∧ (cellAt s (p.1 + 1, p.2)).visited = false
    then [(p.1 + 1, p.2)] else []) ++
  (if 0 ≤ p.2 - 1 ∧ (cellAt s (p.1, p.2 - 1)).visited = false
    then [(p.1, p.2 - 1)] else []) ++
  (if p.2 + 1 < s.num_rows ∧ (cellAt s (p.1, p.2 + 1)).visited = false
    then [(p.1, p.2 + 1)] else [])

theorem probeNeighbor_ok {s : MazeState} {q : Pos} (cond : Bool)
    (hwf : WF s) (h : cond = true → inB s q) :
    Maze.probeNeighbor s cond q.1 q.2 =
      .ok (if cond = true ∧ (cellAt s q).visited = false
        then [(q.1, q.2)] else []) := by
  unfold Maze.probeNeighbor
  by_cases hc : cond = true
  · rw [if_pos hc, getCellE_ok hwf (h hc)]
    by_cases hv : (cellAt s q).visited = false
    · simp [hv, hc]
    · have hv2 : (cellAt s q).visited = true := by
        cases hvis : (cellAt s q).visited
        · exact absurd hvis hv
        · rfl
      simp [hv2, hc]
  · have hcf : cond = false := by
      cases cond
      · rfl
      · exact absurd rfl hc
    simp [hcf]

/-- The four grid neighbors of `p`. -/
def nbhd (p x : Pos) : Prop :=
  x = (p.1 - 1, p.2) ∨ x = (p.1 + 1, p.2) ∨ x = (p.1, p.2 - 1) ∨
    x = (p.1, p.2 + 1)

theorem possibleToVisit_ok {s : MazeState} {p : Pos} (hwf : WF s)
    (hp : inB s p) :
    Maze.possibleToVisit s p.1 p.2 = .ok (candList s p) := by
  obtain ⟨h1, h2, h3, h4⟩ := hp
  have e1 : Maze.probeNeighbor s (decide (p.1 - 1 ≥ 0)) (p.1 - 1) p.2 =
      .ok (if decide (p.1 - 1 ≥ 0) = true ∧
          (cellAt s (p.1 - 1, p.2)).visited = false
        then [(p.1 - 1, p.2)] else []) :=
    probeNeighbor_ok (q := (p.1 - 1, p.2)) _ hwf
      (fun hc => ⟨of_decide_eq_true hc, by omega, h3, h4⟩)
  have e2 : Maze.probeNeighbor s (decide (p.1 + 1 < s.num_cols)) (p.1 + 1) p.2 =
      .ok (if decide (p.1 + 1 < s.num_cols) = true ∧
          (cellAt s (p.1 + 1, p.2)).visited = false
        then [(p.1 + 1, p.2)] else []) :=
    probeNeighbor_ok (q := (p.1 + 1, p.2)) _ hwf
      (fun hc => ⟨by omega, of_decide_eq_true hc, h3, h4⟩)
  have e3 : Maze.probeNeighbor s (decide (p.2 - 1 ≥ 0)) p.1 (p.2 - 1) =
      .ok (if decide (p.2 - 1 ≥ 0) = true ∧
          (cellAt s (p.1, p.2 - 1)).visited = false
        then [(p.1, p.2 - 1)] else []) :=
    probeNeighbor_ok (q := (p.1, p.2 - 1)) _ hwf
      (fun hc => ⟨h1, h2, of_decide_eq_true hc, by omega⟩)
  have e4 : Maze.probeNeighbor s (decide (p.2 + 1 < s.num_rows)) p.1 (p.2 + 1) =
      .ok (if decide (p.2 + 1 < s.num_rows) = true ∧
          (cellAt s (p.1, p.2 + 1)).visited = false
        then [(p.1, p.2 + 1)] else []) :=
    probeNeighbor_ok (q := (p.1, p.2 + 1)) _ hwf
      (fun hc => ⟨h1, h2, by omega, of_decide_eq_true hc⟩)
  unfold Maze.possibleToVisit
  rw [e1, e2, e3, e4]
  unfold candList
  simp only [decide_eq_true_eq, ge_iff_le]

theorem mem_ite_singleton {P : Prop} [Decidable P] {x y : Pos}
    (h : x ∈ (if P then [y] else [])) : P ∧ x = y := by
  by_cases hp : P
  · rw [if_pos hp] at h
    exact ⟨hp, List.mem_singleton.mp h⟩
  · rw [if_neg hp] at h
    cases h

theorem candList_mem {s : MazeState} {p x : Pos} (hp : inB s p)
    (hx : x ∈ candList s p) :
    inB s x ∧ (cellAt s x).visited = false ∧ nbhd p x := by
  obtain ⟨h1, h2, h3, h4⟩ := hp
  unfold candList at hx
  rw [List.mem_append, List.mem_append, List.mem_append] at hx
  rcases hx with ((hx | hx) | hx) | hx
  · obtain ⟨⟨hc, hv⟩, rfl⟩ := mem_ite_singleton hx
    exact ⟨⟨hc, by omega, h3, h4⟩, hv, Or.inl rfl⟩
  · obtain ⟨⟨hc, hv⟩, rfl⟩ := mem_ite_singleton hx
    exact ⟨⟨by omega, hc, h3, h4⟩, hv, Or.inr (Or.inl rfl)⟩
  · obtain ⟨⟨hc, hv⟩, rfl⟩ := mem_ite_singleton hx
    exact ⟨⟨h1, h2, hc, by omega⟩, hv, Or.inr (Or.inr (Or.inl rfl))⟩
  · obtain ⟨⟨hc, hv⟩, rfl⟩ := mem_ite_singleton hx
    exact ⟨⟨h1, h2, by omega, hc⟩, hv, Or.inr (Or.inr (Or.inr rfl))⟩

theorem candList_nil {s : MazeState} {p x : Pos}
    (h : candList s p = []) (hx : inB s x) (hnb : nbhd p x) :
    (cellAt s x).visited = true := by
  unfold candList at h
  rw [List.append_eq_nil, List.append_eq_nil, List.append_eq_nil] at h
  obtain ⟨⟨⟨e1, e2⟩, e3⟩, e4⟩ := h
  have not_of_ite : ∀ {P : Prop} [Decidable P] {y : Pos},
      (if P then [y] else []) = ([] : List Pos) → ¬P := by
    intro P _ y hP hcontra
    rw [if_pos hcontra] at hP
    cases hP
  have hvt : ∀ b : Bool, ¬b = false → b = true := by
    intro b hb
    cases b
    · exact absurd rfl hb
    · rfl
  obtain ⟨hx1, hx2, hx3, hx4⟩ := hx
  rcases hnb with rfl | rfl | rfl | rfl
  · have := not_of_ite e1
    rw [not_and] at this
    exact hvt _ (this (by simpa using hx1))
  · have := not_of_ite e2
    rw [not_and] at this
    exact hvt _ (this (by simpa using hx2))
  · have := not_of_ite e3
    rw [not_and] at this
    exact hvt _ (this (by simpa using hx3))
  · have := not_of_ite e4
    rw [not_and] at this
    exact hvt _ (this (by simpa using hx4))

theorem randomChoice_ok {α : Type} (g : Rng) (l : List α) (h : l ≠ []) :
    ∃ a, randomChoice g l = .ok (a, g.tail) ∧ a ∈ l := by
  have hlen : 0 < l.length := List.length_pos.mpr h
  have hlt : g.head % l.length < l.length := Nat.mod_lt _ hlen
  refine ⟨l.get ⟨g.head % l.length, hlt⟩, ?_, List.get_mem _ _ _⟩
  unfold randomChoice
  rw [List.getElem?_eq_getElem hlt]
  rfl

/-! ### Lemmas about the derived finite sets -/

theorem mem_vis {s : MazeState} {p : Pos} :
    p ∈ vis s ↔ inB s p ∧ (cellAt s p).visited = true := by
  unfold vis
  rw [Finset.mem_filter, mem_allPos]

theorem vis_card_add_unvis (s : MazeState) :
    (vis s).card + unvis s = (allPos s).card := by
  unfold vis unvis
  exact Finset.filter_card_add_filter_neg_card_eq_card _

theorem unvis_le_of_subset {s t : MazeState} (hdims : DimsEq s t)
    (hsub : vis s ⊆ vis t) : unvis t ≤ unvis s := by
  have h1 := vis_card_add_unvis s
  have h2 := vis_card_add_unvis t
  have h3 : allPos t = allPos s := allPos_eq_of_dims hdims
  have h4 : (vis s).card ≤ (vis t).card := Finset.card_le_card hsub
  rw [h3] at h2
  omega

theorem unvis_lt_of_new {s t : MazeState} (hdims : DimsEq s t)
    (hsub : vis s ⊆ vis t) {p : Pos} (hp : p ∈ vis t) (hnp : p ∉ vis s) :
    unvis t < unvis s := by
  have h1 := vis_card_add_unvis s
  have h2 := vis_card_add_unvis t
  have h3 : allPos t = allPos s := allPos_eq_of_dims hdims
  have h4 : (vis s).card < (vis t).card :=
    Finset.card_lt_card (Finset.ssubset_iff_of_subset hsub |>.mpr ⟨p, hp, hnp⟩)
  rw [h3] at h2
  omega

theorem vis_congr {s t : MazeState} (hdims : DimsEq s t)
    (h : ∀ q, inB s q → (cellAt t q).visited = (cellAt s q).visited) :
    vis t = vis s := by
  ext q
  rw [mem_vis, mem_vis, inB_iff_of_dims hdims]
  constructor
  · rintro ⟨hq, hv⟩
    exact ⟨hq, (h q hq) ▸ hv⟩
  · rintro ⟨hq, hv⟩
    exact ⟨hq, (h q hq).trans hv⟩

theorem mem_passages {s : MazeState} {e : Pos × Pos} :
    e ∈ passages s ↔ oriOpen s e.1 e.2 := by
  unfold passages
  rw [Finset.mem_filter, Finset.mem_product]
  constructor
  · rintro ⟨-, h⟩
    exact h
  · intro h
    refine ⟨⟨?_, ?_⟩, h⟩ <;> rw [mem_allPos]
    · rcases h with ⟨-, ho⟩ | ⟨-, ho⟩
      · exact ho.1
      · exact ho.1
    · rcases h with ⟨he, ho⟩ | ⟨he, ho⟩
      · rw [he]; exact ho.2.1
      · rw [he]; exact ho.2.1

theorem mazeGraph_adj {s : MazeState} {a b : Pos} :
    (mazeGraph s).Adj a b ↔ adjE (passages s) a b := by
  show (oriOpen s a b ∨ oriOpen s b a) ↔ _
  unfold adjE
  rw [mem_passages, mem_passages]

/-! ### Grown trees

The carving recursion builds its passage set exactly this way: start
from one visited cell, and repeatedly attach a not-yet-visited cell to
a visited one by a single new passage (in either storage
orientation).  All spanning-tree facts of C1 follow from this shape. -/

inductive GrownTree : Finset (Pos × Pos) → Finset Pos → Prop where
  | single (v : Pos) : GrownTree ∅ {v}
  | growOut {E : Finset (Pos × Pos)} {S : Finset Pos} (u v : Pos)
      (h : GrownTree E S) (hu : u ∈ S) (hv : v ∉ S) :
      GrownTree (insert (u, v) E) (insert v S)
  | growIn {E : Finset (Pos × Pos)} {S : Finset Pos} (u v : Pos)
      (h : GrownTree E S) (hu : u ∈ S) (hv : v ∉ S) :
      GrownTree (insert (v, u) E) (insert v S)

theorem GrownTree.endpoints {E : Finset (Pos × Pos)} {S : Finset Pos}
    (h : GrownTree E S) : ∀ {a b : Pos}, (a, b) ∈ E → a ∈ S ∧ b ∈ S := by
  induction h with
  | single v =>
    intro a b hab
    exact absurd hab (Finset.not_mem_empty _)
  | @growOut E2 S2 u v h hu hv IH =>
    intro a b hab
    rcases Finset.mem_insert.mp hab with heq | hmem
    · obtain ⟨rfl, rfl⟩ := Prod.mk.injEq .. ▸ heq
      exact ⟨Finset.mem_insert_of_mem hu, Finset.mem_insert_self _ _⟩
    · obtain ⟨ha, hb⟩ := IH hmem
      exact ⟨Finset.mem_insert_of_mem ha, Finset.mem_insert_of_mem hb⟩
  | @growIn E2 S2 u v h hu hv IH =>
    intro a b hab
    rcases Finset.mem_insert.mp hab with heq | hmem
    · obtain ⟨rfl, rfl⟩ := Prod.mk.injEq .. ▸ heq
      exact ⟨Finset.mem_insert_self _ _, Finset.mem_insert_of_mem hu⟩
    · obtain ⟨ha, hb⟩ := IH hmem
      exact ⟨Finset.mem_insert_of_mem ha, Finset.mem_insert_of_mem hb⟩

theorem GrownTree.no_rev {E : Finset (Pos × Pos)} {S : Finset Pos}
    (h : GrownTree E S) :
    ∀ {a b : Pos}, (a, b) ∈ E → (b, a) ∉ E ∧ a ≠ b := by
  induction h with
  | single v =>
    intro a b hab
    exact absurd hab (Finset.not_mem_empty _)
  | @growOut E2 S2 u v h hu hv IH =>
    intro a b hab
    rcases Finset.mem_insert.mp hab with heq | hmem
    · obtain ⟨rfl, rfl⟩ := Prod.mk.injEq .. ▸ heq
      constructor
      · intro hrev
        rcases Finset.mem_insert.mp hrev with heq2 | hmem2
        · obtain ⟨h1, -⟩ := Prod.mk.injEq .. ▸ heq2
          exact hv (h1 ▸ hu)
        · exact hv (h.endpoints hmem2).1
      · intro hab2
        exact hv (hab2 ▸ hu)
    · constructor
      · intro hrev
        rcases Finset.mem_insert.mp hrev with heq2 | hmem2
        · obtain ⟨-, h2⟩ := Prod.mk.injEq .. ▸ heq2
          exact hv (h2 ▸ (h.endpoints hmem).1)
        · exact (IH hmem).1 hmem2
      · exact (IH hmem).2
  | @growIn E2 S2 u v h hu hv IH =>
    intro a b hab
    rcases Finset.mem_insert.mp hab with heq | hmem
    · obtain ⟨rfl, rfl⟩ := Prod.mk.injEq .. ▸ heq
      constructor
      · intro hrev
        rcases Finset.mem_insert.mp hrev with heq2 | hmem2
        · obtain ⟨-, h2⟩ := Prod.mk.injEq .. ▸ heq2
          exact hv (h2 ▸ hu)
        · exact hv (h.endpoints hmem2).2
      · intro hab2
        exact hv (hab2 ▸ hu)
    · constructor
      · intro hrev
        rcases Finset.mem_insert.mp hrev with heq2 | hmem2
        · obtain ⟨h1, -⟩ := Prod.mk.injEq .. ▸ heq2
          exact hv (h1 ▸ (h.endpoints hmem).2)
        · exact (IH hmem).1 hmem2
      · exact (IH hmem).2

theorem GrownTree.card_eq {E : Finset (Pos × Pos)} {S : Finset Pos}
    (h : GrownTree E S) : E.card + 1 = S.card := by
  induction h with
  | single v => simp
  | @growOut E2 S2 u v h hu hv IH =>
    have he : (u, v) ∉ E2 := fun hmem => hv (h.endpoints hmem).2
    rw [Finset.card_insert_of_not_mem he, Finset.card_insert_of_not_mem hv]
    omega
  | @growIn E2 S2 u v h hu hv IH =>
    have he : (v, u) ∉ E2 := fun hmem => hv (h.endpoints hmem).1
    rw [Finset.card_insert_of_not_mem he, Finset.card_insert_of_not_mem hv]
    omega

theorem adjE_symm {E : Finset (Pos × Pos)} {a b : Pos} (h : adjE E a b) :
    adjE E b a := h.symm

theorem ReachE_symm {E : Finset (Pos × Pos)} {a b : Pos}
    (h : ReachE E a b) : ReachE E b a :=
  Relation.ReflTransGen.symmetric (fun _ _ hab => hab.symm) h

theorem ReachE_mono {E E2 : Finset (Pos × Pos)} (hsub : E ⊆ E2) {a b : Pos}
    (h : ReachE E a b) : ReachE E2 a b := by
  refine Relation.ReflTransGen.mono ?_ h
  intro x y hxy
  rcases hxy with hm | hm
  · exact Or.inl (hsub hm)
  · exact Or.inr (hsub hm)

theorem GrownTree.closed {E : Finset (Pos × Pos)} {S : Finset Pos}
    (h : GrownTree E S) {a b : Pos} (hr : ReachE E a b) (ha : a ∈ S) :
    b ∈ S := by
  induction hr with
  | refl => exact ha
  | tail hr2 hstep IH =>
    rcases hstep with hm | hm
    · exact (h.endpoints hm).2
    · exact (h.endpoints hm).1

theorem GrownTree.connected {E : Finset (Pos × Pos)} {S : Finset Pos}
    (h : GrownTree E S) : ∀ {a b : Pos}, a ∈ S → b ∈ S → ReachE E a b := by
  induction h with
  | single v =>
    intro a b ha hb
    rw [Finset.mem_singleton] at ha hb
    rw [ha, hb]
    exact Relation.ReflTransGen.refl
  | @growOut E2 S2 u v h hu hv IH =>
    intro a b ha hb
    have hsub : E2 ⊆ insert (u, v) E2 := Finset.subset_insert _ _
    have hstep : adjE (insert (u, v) E2) u v :=
      Or.inl (Finset.mem_insert_self _ _)
    rcases Finset.mem_insert.mp ha with rfl | ha2
    · rcases Finset.mem_insert.mp hb with rfl | hb2
      · exact Relation.ReflTransGen.refl
      · exact Relation.ReflTransGen.head (adjE_symm hstep)
          (ReachE_mono hsub (IH hu hb2))
    · rcases Finset.mem_insert.mp hb with rfl | hb2
      · exact Relation.ReflTransGen.tail (ReachE_mono hsub (IH ha2 hu)) hstep
      · exact ReachE_mono hsub (IH ha2 hb2)
  | @growIn E2 S2 u v h hu hv IH =>
    intro a b ha hb
    have hsub : E2 ⊆ insert (v, u) E2 := Finset.subset_insert _ _
    have hstep : adjE (insert (v, u) E2) u v :=
      Or.inr (Finset.mem_insert_self _ _)
    rcases Finset.mem_insert.mp ha with rfl | ha2
    · rcases Finset.mem_insert.mp hb with rfl | hb2
      · exact Relation.ReflTransGen.refl
      · exact Relation.ReflTransGen.head (adjE_symm hstep)
          (ReachE_mono hsub (IH hu hb2))
    · rcases Finset.mem_insert.mp hb with rfl | hb2
      · exact Relation.ReflTransGen.tail (ReachE_mono hsub (IH ha2 hu)) hstep
      · exact ReachE_mono hsub (IH ha2 hb2)

/-- A walk in an edge set extended by one edge toward a vertex `v` that
no other edge touches can be rerouted to avoid `v`. -/
theorem reach_avoid {E0 : Finset (Pos × Pos)} {u v : Pos}
    (hE0 : ∀ e ∈ E0, e.1 ≠ v ∧ e.2 ≠ v) (huv : u ≠ v)
    {E1 : Finset (Pos × Pos)}
    (hE1 : E1 = insert (u, v) E0 ∨ E1 = insert (v, u) E0) :
    ∀ {a b : Pos}, b ≠ v → ReachE E1 a b →
      ReachE E0 (if a = v then u else a) b := by
  intro a b hbv hr
  induction hr using Relation.ReflTransGen.head_induction_on with
  | refl =>
    rw [if_neg hbv]
    exact Relation.ReflTransGen.refl
  | head hstep hrest IH =>
    rename_i a c
    have hcases : (a = u ∧ c = v) ∨ (a = v ∧ c = u) ∨ adjE E0 a c := by
      rcases hE1 with rfl | rfl <;> rcases hstep with hm | hm <;>
          rcases Finset.mem_insert.mp hm with heq | hmem
      · obtain ⟨rfl, rfl⟩ : a = u ∧ c = v := by
          constructor <;> [exact congrArg Prod.fst heq;
            exact congrArg Prod.snd heq]
        exact Or.inl ⟨rfl, rfl⟩
      · exact Or.inr (Or.inr (Or.inl hmem))
      · obtain ⟨rfl, rfl⟩ : c = u ∧ a = v := by
          constructor <;> [exact congrArg Prod.fst heq;
            exact congrArg Prod.snd heq]
        exact Or.inr (Or.inl ⟨rfl, rfl⟩)
      · exact Or.inr (Or.inr (Or.inr hmem))
      · obtain ⟨rfl, rfl⟩ : a = v ∧ c = u := by
          constructor <;> [exact congrArg Prod.fst heq;
            exact congrArg Prod.snd heq]
        exact Or.inr (Or.inl ⟨rfl, rfl⟩)
      · exact Or.inr (Or.inr (Or.inl hmem))
      · obtain ⟨rfl, rfl⟩ : c = v ∧ a = u := by
          constructor <;> [exact congrArg Prod.fst heq;
            exact congrArg Prod.snd heq]
        exact Or.inl ⟨rfl, rfl⟩
      · exact Or.inr (Or.inr (Or.inr hmem))
    rcases hcases with ⟨rfl, rfl⟩ | ⟨rfl, rfl⟩ | hadj
    · rw [if_neg huv]
      rw [if_pos rfl] at IH
      exact IH
    · rw [if_pos rfl]
      rw [if_neg huv] at IH
      exact IH
    · have hav : a ≠ v := by
        rcases hadj with hm | hm
        · exact (hE0 _ hm).1
        · exact (hE0 _ hm).2
      have hcv : c ≠ v := by
        rcases hadj with hm | hm
        · exact (hE0 _ hm).2
        · exact (hE0 _ hm).1
      rw [if_neg hav]
      rw [if_neg hcv] at IH
      exact Relation.ReflTransGen.head hadj IH

/-- In a grown tree every passage is a bridge: after removing it, its
two endpoints are no longer connected.  This is the acyclicity of the
carved passage graph. -/
theorem GrownTree.bridge {E : Finset (Pos × Pos)} {S : Finset Pos}
    (h : GrownTree E S) :
    ∀ e ∈ E, ¬ ReachE (E.erase e) e.1 e.2 := by
  induction h with
  | single v =>
    intro e he
    exact absurd he (Finset.not_mem_empty _)
  | @growOut E2 S2 u v h hu hv IH =>
    intro e he hreach
    rcases Finset.mem_insert.mp he with rfl | heE
    · have hnot : (u, v) ∉ E2 := fun hmem => hv (h.endpoints hmem).2
      rw [Finset.erase_insert hnot] at hreach
      exact hv (h.closed hreach hu)
    · have hne : (u, v) ≠ e := by
        rintro rfl
        exact hv (h.endpoints heE).2
      rw [Finset.erase_insert_of_ne hne] at hreach
      have hE0 : ∀ e2 ∈ E2.erase e, e2.1 ≠ v ∧ e2.2 ≠ v := by
        intro e2 he2
        obtain ⟨x, y⟩ := e2
        have hend := h.endpoints (Finset.mem_of_mem_erase he2)
        exact ⟨fun hxv => hv (hxv ▸ hend.1), fun hyv => hv (hyv ▸ hend.2)⟩
      have huv : u ≠ v := fun hEq => hv (hEq ▸ hu)
      obtain ⟨x, y⟩ := e
      have hend := h.endpoints heE
      have hyv : y ≠ v := fun hEq => hv (hEq ▸ hend.2)
      have hxv : x ≠ v := fun hEq => hv (hEq ▸ hend.1)
      have hmain := reach_avoid hE0 huv (Or.inl rfl) hyv hreach
      rw [if_neg hxv] at hmain
      exact IH (x, y) heE hmain
  | @growIn E2 S2 u v h hu hv IH =>
    intro e he hreach
    rcases Finset.mem_insert.mp he with rfl | heE
    · have hnot : (v, u) ∉ E2 := fun hmem => hv (h.endpoints hmem).1
      rw [Finset.erase_insert hnot] at hreach
      exact hv (h.closed (ReachE_symm hreach) hu)
    · have hne : (v, u) ≠ e := by
        rintro rfl
        exact hv (h.endpoints heE).1
      rw [Finset.erase_insert_of_ne hne] at hreach
      have hE0 : ∀ e2 ∈ E2.erase e, e2.1 ≠ v ∧ e2.2 ≠ v := by
        intro e2 he2
        obtain ⟨x, y⟩ := e2
        have hend := h.endpoints (Finset.mem_of_mem_erase he2)
        exact ⟨fun hxv => hv (hxv ▸ hend.1), fun hyv => hv (hyv ▸ hend.2)⟩
      have huv : u ≠ v := fun hEq => hv (hEq ▸ hu)
      obtain ⟨x, y⟩ := e
      have hend := h.endpoints heE
      have hyv : y ≠ v := fun hEq => hv (hEq ▸ hend.2)
      have hxv : x ≠ v := fun hEq => hv (hEq ▸ hend.1)
      have hmain := reach_avoid hE0 huv (Or.inr rfl) hyv hreach
      rw [if_neg hxv] at hmain
      exact IH (x, y) heE hmain

/-! ### Wall-based congruence lemmas -/

/-- Equality of the four wall flags of two cells. -/
def cellWallsEq (a b : Cell) : Prop :=
  a.has_left_wall = b.has_left_wall ∧ a.has_right_wall = b.has_right_wall ∧
  a.has_top_wall = b.has_top_wall ∧ a.has_bottom_wall = b.has_bottom_wall

theorem cellLogicEq.lwalls {a b : Cell} (h : cellLogicEq a b) :
    cellWallsEq a b :=
  ⟨h.1, h.2.1, h.2.2.1, h.2.2.2.1⟩

theorem cellWallsEq.wrefl (a : Cell) : cellWallsEq a a := ⟨rfl, rfl, rfl, rfl⟩

theorem cellWallsEq.wtrans {a b c : Cell} (h1 : cellWallsEq a b)
    (h2 : cellWallsEq b c) : cellWallsEq a c :=
  ⟨h1.1.trans h2.1, h1.2.1.trans h2.2.1, h1.2.2.1.trans h2.2.2.1,
    h1.2.2.2.trans h2.2.2.2⟩

theorem openRight_congrW {s t : MazeState} (hdims : DimsEq s t)
    (h : ∀ q, inB s q → cellWallsEq (cellAt t q) (cellAt s q)) (p : Pos) :
    openRight t p ↔ openRight s p := by
  unfold openRight
  rw [inB_iff_of_dims hdims, inB_iff_of_dims hdims]
  constructor
  · rintro ⟨h1, h2, h3, h4⟩
    refine ⟨h1, h2, ?_, ?_⟩
    · rw [← (h p h1).2.1]; exact h3
    · rw [← (h _ h2).1]; exact h4
  · rintro ⟨h1, h2, h3, h4⟩
    refine ⟨h1, h2, ?_, ?_⟩
    · rw [(h p h1).2.1]; exact h3
    · rw [(h _ h2).1]; exact h4

theorem openDown_congrW {s t : MazeState} (hdims : DimsEq s t)
    (h : ∀ q, inB s q → cellWallsEq (cellAt t q) (cellAt s q)) (p : Pos) :
    openDown t p ↔ openDown s p := by
  unfold openDown
  rw [inB_iff_of_dims hdims, inB_iff_of_dims hdims]
  constructor
  · rintro ⟨h1, h2, h3, h4⟩
    refine ⟨h1, h2, ?_, ?_⟩
    · rw [← (h p h1).2.2.2]; exact h3
    · rw [← (h _ h2).2.2.1]; exact h4
  · rintro ⟨h1, h2, h3, h4⟩
    refine ⟨h1, h2, ?_, ?_⟩
    · rw [(h p h1).2.2.2]; exact h3
    · rw [(h _ h2).2.2.1]; exact h4

theorem passages_congrW {s t : MazeState} (hdims : DimsEq s t)
    (h : ∀ q, inB s q → cellWallsEq (cellAt t q) (cellAt s q)) :
    passages t = passages s := by
  ext e
  rw [mem_passages, mem_passages]
  unfold oriOpen
  rw [openRight_congrW hdims h, openDown_congrW hdims h]

theorem Consistent_congrW {s t : MazeState} (hdims : DimsEq s t)
    (h : ∀ q, inB s q → cellWallsEq (cellAt t q) (cellAt s q))
    (hc : Consistent s) : Consistent t := by
  intro p hp
  rw [mem_allPos, inB_iff_of_dims hdims] at hp
  obtain ⟨c1, c2⟩ := hc p (mem_allPos.mpr hp)
  constructor
  · intro hnb
    rw [inB_iff_of_dims hdims] at hnb
    rw [(h p hp).2.1, (h _ hnb).1]
    exact c1 hnb
  · intro hnb
    rw [inB_iff_of_dims hdims] at hnb
    rw [(h p hp).2.2.2, (h _ hnb).2.2.1]
    exact c2 hnb

/-- The boundary wall flags (left flags of column 0, right flags of the
last column, top flags of row 0, bottom flags of the last row) agree
between two states. -/
def BoundaryEq (s t : MazeState) : Prop :=
  ∀ q, inB s q →
    (q.1 = 0 → (cellAt t q).has_left_wall = (cellAt s q).has_left_wall) ∧
    (q.1 = s.num_cols - 1 →
      (cellAt t q).has_right_wall = (cellAt s q).has_right_wall) ∧
    (q.2 = 0 → (cellAt t q).has_top_wall = (cellAt s q).has_top_wall) ∧
    (q.2 = s.num_rows - 1 →
      (cellAt t q).has_bottom_wall = (cellAt s q).has_bottom_wall)

theorem BoundaryEq.brefl (s : MazeState) : BoundaryEq s s :=
  fun _ _ => ⟨fun _ => rfl, fun _ => rfl, fun _ => rfl, fun _ => rfl⟩

theorem BoundaryEq.btrans {s t u : MazeState} (hdims : DimsEq s t)
    (h1 : BoundaryEq s t) (h2 : BoundaryEq t u) : BoundaryEq s u := by
  intro q hq
  have hqt : inB t q := (inB_iff_of_dims hdims q).mpr hq
  obtain ⟨a1, a2, a3, a4⟩ := h1 q hq
  obtain ⟨b1, b2, b3, b4⟩ := h2 q hqt
  refine ⟨?_, ?_, ?_, ?_⟩
  · intro h; exact (b1 h).trans (a1 h)
  · intro h; exact (b2 (by rw [hdims.2.1]; exact h)).trans (a2 h)
  · intro h; exact (b3 h).trans (a3 h)
  · intro h; exact (b4 (by rw [hdims.1]; exact h)).trans (a4 h)

theorem BoundaryEq.of_wallsEq {s t : MazeState}
    (h : ∀ q, inB s q → cellWallsEq (cellAt t q) (cellAt s q)) :
    BoundaryEq s t :=
  fun q hq => ⟨fun _ => (h q hq).1, fun _ => (h q hq).2.1,
    fun _ => (h q hq).2.2.1, fun _ => (h q hq).2.2.2⟩

/-! ### Effect of the paired wall breaks of the generator -/

theorem wallClear_top (c : Cell) :
    wallClear "top" c = { c with has_top_wall := false } := rfl

theorem wallClear_bottom (c : Cell) :
    wallClear "bottom" c = { c with has_bottom_wall := false } := rfl

theorem wallClear_left (c : Cell) :
    wallClear "left" c = { c with has_left_wall := false } := rfl

theorem wallClear_right (c : Cell) :
    wallClear "right" c = { c with has_right_wall := false } := rfl

theorem wallClear_congr {a b : Cell} (w : String) (h : cellLogicEq a b) :
    cellLogicEq (wallClear w a) (wallClear w b) := by
  unfold wallClear
  split_ifs <;> simp_all [cellLogicEq]

theorem breakPair_false (s : MazeState) (col row nc nr : Int)
    (w1 w2 : String) :
    Maze.breakPair s false col row nc nr w1 w2 = .ok s := rfl

theorem breakPair_true_spec {s : MazeState} {p x : Pos} (w1 w2 : String)
    (hwf : WF s) (hp : inB s p) (hx : inB s x) (hne : x ≠ p) :
    ∃ s2, Maze.breakPair s true p.1 p.2 x.1 x.2 w1 w2 = .ok s2 ∧
      DimsEq s s2 ∧ WF s2 ∧
      ∀ q, inB s q → cellLogicEq (cellAt s2 q)
        (if q = p then wallClear w1 (cellAt s q)
         else if q = x then wallClear w2 (cellAt s q)
         else cellAt s q) := by
  obtain ⟨s1, hrun1, hdims1, hwf1, hdesc1⟩ := break_wall_spec w1 hwf hp
  have hx1 : inB s1 x := (inB_iff_of_dims hdims1 x).mpr hx
  obtain ⟨s2, hrun2, hdims2, hwf2, hdesc2⟩ := break_wall_spec w2 hwf1 hx1
  have hrun1a : Maze.break_wall s p.1 p.2 w1 = .ok s1 := hrun1
  have hrun2a : Maze.break_wall s1 x.1 x.2 w2 = .ok s2 := hrun2
  refine ⟨s2, ?_, hdims1.dtrans hdims2, hwf2, ?_⟩
  · unfold Maze.breakPair
    rw [if_pos rfl, hrun1a]
    exact hrun2a
  · intro q hq
    have hq1 : inB s1 q := (inB_iff_of_dims hdims1 q).mpr hq
    have hd2 := hdesc2 q hq1
    have hd1 := hdesc1 q hq
    by_cases hqp : q = p
    · subst hqp
      rw [if_neg (fun h : q = x => (h ▸ hne) rfl)] at hd2
      rw [if_pos rfl] at hd1 ⊢
      exact hd2.ltrans hd1
    · rw [if_neg hqp] at hd1 ⊢
      by_cases hqx : q = x
      · subst hqx
        rw [if_pos rfl] at hd2 ⊢
        exact hd2.ltrans (wallClear_congr w2 hd1)
      · rw [if_neg hqx] at hd2 ⊢
        exact hd2.ltrans hd1

theorem not_mem_vis {s : MazeState} {x : Pos} (hx : inB s x) :
    x ∉ vis s ↔ (cellAt s x).visited = false := by
  rw [mem_vis]
  constructor
  · intro h
    cases hv : (cellAt s x).visited
    · rfl
    · exact absurd ⟨hx, hv⟩ h
  · intro h hmem
    rw [h] at hmem
    exact Bool.false_ne_true hmem.2

theorem vis_mark {s : MazeState} {p : Pos} (hwf : WF s) (hp : inB s p) :
    vis (updCell s p (fun c => { c with visited := true })) =
      insert p (vis s) := by
  ext q
  rw [Finset.mem_insert, mem_vis, mem_vis,
    inB_iff_of_dims (updCell_dims s p _)]
  by_cases hqp : q = p
  · subst hqp
    rw [cellAt_updCell_same _ hwf hp]
    simp [hp]
  · by_cases hq : inB s q
    · rw [cellAt_updCell_other _ hwf hp hq hqp]
      simp [hqp]
    · simp [hq, hqp]

theorem passages_mark {s : MazeState} {p : Pos} (hwf : WF s)
    (hp : inB s p) :
    passages (updCell s p (fun c => { c with visited := true })) =
      passages s := by
  refine passages_congrW (updCell_dims s p _) ?_
  intro q hq
  by_cases hqp : q = p
  · subst hqp
    rw [cellAt_updCell_same _ hwf hp]
    exact ⟨rfl, rfl, rfl, rfl⟩
  · rw [cellAt_updCell_other _ hwf hp hq hqp]
    exact cellWallsEq.wrefl _

/-- View of a horizontal paired break: clearing the right wall of `L`
and the left wall of its right neighbor adds exactly the passage
`(L, right of L)`, keeps every `visited` flag, preserves consistency
and touches no boundary flag. -/
theorem horizontal_view {s s2 : MazeState} {L : Pos} (hdims : DimsEq s s2)
    (hL : inB s L) (hR : inB s (L.1 + 1, L.2))
    (fL : ∀ q, inB s q → (cellAt s2 q).has_left_wall =
      (if q = (L.1 + 1, L.2) then false else (cellAt s q).has_left_wall))
    (fR : ∀ q, inB s q → (cellAt s2 q).has_right_wall =
      (if q = L then false else (cellAt s q).has_right_wall))
    (fT : ∀ q, inB s q →
      (cellAt s2 q).has_top_wall = (cellAt s q).has_top_wall)
    (fB : ∀ q, inB s q →
      (cellAt s2 q).has_bottom_wall = (cellAt s q).has_bottom_wall)
    (fV : ∀ q, inB s q → (cellAt s2 q).visited = (cellAt s q).visited) :
    vis s2 = vis s ∧
    passages s2 = insert (L, (L.1 + 1, L.2)) (passages s) ∧
    (Consistent s → Consistent s2) ∧ BoundaryEq s s2 := by
  have hopenR : ∀ q, openRight s2 q ↔ (q = L ∨ openRight s q) := by
    intro q
    unfold openRight
    rw [inB_iff_of_dims hdims, inB_iff_of_dims hdims]
    constructor
    · rintro ⟨h1, h2, h3, h4⟩
      by_cases hqL : q = L
      · exact Or.inl hqL
      · refine Or.inr ⟨h1, h2, ?_, ?_⟩
        · rw [fR q h1, if_neg hqL] at h3
          exact h3
        · rw [fL _ h2] at h4
          rw [if_neg] at h4
          · exact h4
          · intro hEq
            apply hqL
            rw [Prod.mk.injEq] at hEq
            exact Prod.ext_iff.mpr ⟨by omega, hEq.2⟩
    · intro hcase
      rcases hcase with rfl | ⟨h1, h2, h3, h4⟩
      · refine ⟨hL, hR, ?_, ?_⟩
        · rw [fR q hL, if_pos rfl]
        · rw [fL _ hR, if_pos rfl]
      · refine ⟨h1, h2, ?_, ?_⟩
        · rw [fR q h1]
          split_ifs with hqL
          · rfl
          · exact h3
        · rw [fL _ h2]
          split_ifs with hEq
          · rfl
          · exact h4
  have hopenD : ∀ q, openDown s2 q ↔ openDown s q := by
    intro q
    unfold openDown
    rw [inB_iff_of_dims hdims, inB_iff_of_dims hdims]
    constructor
    · rintro ⟨h1, h2, h3, h4⟩
      refine ⟨h1, h2, ?_, ?_⟩
      · rw [← fB q h1]; exact h3
      · rw [← fT _ h2]; exact h4
    · rintro ⟨h1, h2, h3, h4⟩
      refine ⟨h1, h2, ?_, ?_⟩
      · rw [fB q h1]; exact h3
      · rw [fT _ h2]; exact h4
  refine ⟨vis_congr hdims fV, ?_, ?_, ?_⟩
  · ext e
    rw [mem_passages, Finset.mem_insert, mem_passages]
    unfold oriOpen
    rw [hopenR, hopenD]
    constructor
    · rintro (⟨he, rfl | ho⟩ | ⟨he, ho⟩)
      · left
        exact Prod.ext_iff.mpr ⟨rfl, he⟩
      · exact Or.inr (Or.inl ⟨he, ho⟩)
      · exact Or.inr (Or.inr ⟨he, ho⟩)
    · rintro (rfl | ⟨he, ho⟩ | ⟨he, ho⟩)
      · exact Or.inl ⟨rfl, Or.inl rfl⟩
      · exact Or.inl ⟨he, Or.inr ho⟩
      · exact Or.inr ⟨he, ho⟩
  · intro hc p hp
    rw [mem_allPos, inB_iff_of_dims hdims] at hp
    obtain ⟨c1, c2⟩ := hc p (mem_allPos.mpr hp)
    constructor
    · intro hnb
      rw [inB_iff_of_dims hdims] at hnb
      rw [fR p hp, fL _ hnb]
      by_cases hpL : p = L
      · rw [if_pos hpL, if_pos (by rw [hpL])]
      · rw [if_neg hpL, if_neg]
        · exact c1 hnb
        · intro hEq
          apply hpL
          rw [Prod.mk.injEq] at hEq
          exact Prod.ext_iff.mpr ⟨by omega, hEq.2⟩
    · intro hnb
      rw [inB_iff_of_dims hdims] at hnb
      rw [fB p hp, fT _ hnb]
      exact c2 hnb
  · intro q hq
    refine ⟨?_, ?_, ?_, ?_⟩
    · intro hq0
      rw [fL q hq, if_neg]
      intro hEq
      have e1 : q.1 = L.1 + 1 := congrArg Prod.fst hEq
      have := hL.1
      omega
    · intro hqlast
      rw [fR q hq, if_neg]
      intro hEq
      have := hR.2.1
      have e1 : q.1 = L.1 := congrArg Prod.fst hEq
      omega
    · intro hq0
      exact fT q hq
    · intro hqlast
      exact fB q hq

/-- View of a vertical paired break: clearing the bottom wall of `T`
and the top wall of its downward neighbor adds exactly the passage
`(T, below T)`. -/
theorem vertical_view {s s2 : MazeState} {T : Pos} (hdims : DimsEq s s2)
    (hT : inB s T) (hD : inB s (T.1, T.2 + 1))
    (fT : ∀ q, inB s q → (cellAt s2 q).has_top_wall =
      (if q = (T.1, T.2 + 1) then false else (cellAt s q).has_top_wall))
    (fB : ∀ q, inB s q → (cellAt s2 q).has_bottom_wall =
      (if q = T then false else (cellAt s q).has_bottom_wall))
    (fL : ∀ q, inB s q →
      (cellAt s2 q).has_left_wall = (cellAt s q).has_left_wall)
    (fR : ∀ q, inB s q →
      (cellAt s2 q).has_right_wall = (cellAt s q).has_right_wall)
    (fV : ∀ q, inB s q → (cellAt s2 q).visited = (cellAt s q).visited) :
    vis s2 = vis s ∧
    passages s2 = insert (T, (T.1, T.2 + 1)) (passages s) ∧
    (Consistent s → Consistent s2) ∧ BoundaryEq s s2 := by
  have hopenD : ∀ q, openDown s2 q ↔ (q = T ∨ openDown s q) := by
    intro q
    unfold openDown
    rw [inB_iff_of_dims hdims, inB_iff_of_dims hdims]
    constructor
    · rintro ⟨h1, h2, h3, h4⟩
      by_cases hqT : q = T
      · exact Or.inl hqT
      · refine Or.inr ⟨h1, h2, ?_, ?_⟩
        · rw [fB q h1, if_neg hqT] at h3
          exact h3
        · rw [fT _ h2] at h4
          rw [if_neg] at h4
          · exact h4
          · intro hEq
            apply hqT
            rw [Prod.mk.injEq] at hEq
            exact Prod.ext_iff.mpr ⟨hEq.1, by omega⟩
    · intro hcase
      rcases hcase with rfl | ⟨h1, h2, h3, h4⟩
      · refine ⟨hT, hD, ?_, ?_⟩
        · rw [fB q hT, if_pos rfl]
        · rw [fT _ hD, if_pos rfl]
      · refine ⟨h1, h2, ?_, ?_⟩
        · rw [fB q h1]
          split_ifs with hqT
          · rfl
          · exact h3
        · rw [fT _ h2]
          split_ifs with hEq
          · rfl
          · exact h4
  have hopenR : ∀ q, openRight s2 q ↔ openRight s q := by
    intro q
    unfold openRight
    rw [inB_iff_of_dims hdims, inB_iff_of_dims hdims]
    constructor
    · rintro ⟨h1, h2, h3, h4⟩
      refine ⟨h1, h2, ?_, ?_⟩
      · rw [← fR q h1]; exact h3
      · rw [← fL _ h2]; exact h4
    · rintro ⟨h1, h2, h3, h4⟩
      refine ⟨h1, h2, ?_, ?_⟩
      · rw [fR q h1]; exact h3
      · rw [fL _ h2]; exact h4
  refine ⟨vis_congr hdims fV, ?_, ?_, ?_⟩
  · ext e
    rw [mem_passages, Finset.mem_insert, mem_passages]
    unfold oriOpen
    rw [hopenR, hopenD]
    constructor
    · rintro (⟨he, ho⟩ | ⟨he, rfl | ho⟩)
      · exact Or.inr (Or.inl ⟨he, ho⟩)
      · left
        exact Prod.ext_iff.mpr ⟨rfl, he⟩
      · exact Or.inr (Or.inr ⟨he, ho⟩)
    · rintro (rfl | ⟨he, ho⟩ | ⟨he, ho⟩)
      · exact Or.inr ⟨rfl, Or.inl rfl⟩
      · exact Or.inl ⟨he, ho⟩
      · exact Or.inr ⟨he, Or.inr ho⟩
  · intro hc p hp
    rw [mem_allPos, inB_iff_of_dims hdims] at hp
    obtain ⟨c1, c2⟩ := hc p (mem_allPos.mpr hp)
    constructor
    · intro hnb
      rw [inB_iff_of_dims hdims] at hnb
      rw [fR p hp, fL _ hnb]
      exact c1 hnb
    · intro hnb
      rw [inB_iff_of_dims hdims] at hnb
      rw [fB p hp, fT _ hnb]
      by_cases hpT : p = T
      · rw [if_pos hpT, if_pos (by rw [hpT])]
      · rw [if_neg hpT, if_neg]
        · exact c2 hnb
        · intro hEq
          apply hpT
          rw [Prod.mk.injEq] at hEq
          exact Prod.ext_iff.mpr ⟨hEq.1, by omega⟩
  · intro q hq
    refine ⟨?_, ?_, ?_, ?_⟩
    · intro hq0
      exact fL q hq
    · intro hqlast
      exact fR q hq
    · intro hq0
      rw [fT q hq, if_neg]
      intro hEq
      have e1 : q.2 = T.2 + 1 := congrArg Prod.snd hEq
      have := hT.2.2.1
      omega
    · intro hqlast
      rw [fB q hq, if_neg]
      intro hEq
      have := hD.2.2.2
      have e1 : q.2 = T.2 := congrArg Prod.snd hEq
      omega

/-! ### The four carve directions -/

theorem carve_right_view {s s2 : MazeState} {p : Pos} (hdims : DimsEq s s2)
    (hp : inB s p) (hx : inB s (p.1 + 1, p.2))
    (hdesc : ∀ q, inB s q → cellLogicEq (cellAt s2 q)
      (if q = p then wallClear "right" (cellAt s q)
       else if q = (p.1 + 1, p.2) then wallClear "left" (cellAt s q)
       else cellAt s q)) :
    vis s2 = vis s ∧
    passages s2 = insert (p, (p.1 + 1, p.2)) (passages s) ∧
    (Consistent s → Consistent s2) ∧ BoundaryEq s s2 := by
  have hne : p ≠ (p.1 + 1, p.2) := by
    intro h
    have := congrArg Prod.fst h
    simp at this
  apply horizontal_view hdims hp hx
  · intro q hq
    have hd := hdesc q hq
    by_cases h1 : q = p
    · rw [if_pos h1] at hd
      rw [if_neg (h1 ▸ hne)]
      rw [hd.1, wallClear_right]
    · rw [if_neg h1] at hd
      by_cases h2 : q = (p.1 + 1, p.2)
      · rw [if_pos h2] at hd
        rw [if_pos h2, hd.1, wallClear_left]
      · rw [if_neg h2] at hd
        rw [if_neg h2, hd.1]
  · intro q hq
    have hd := hdesc q hq
    by_cases h1 : q = p
    · rw [if_pos h1] at hd
      rw [if_pos h1, hd.2.1, wallClear_right]
    · rw [if_neg h1] at hd
      rw [if_neg h1]
      by_cases h2 : q = (p.1 + 1, p.2)
      · rw [if_pos h2] at hd
        rw [hd.2.1, wallClear_left]
      · rw [if_neg h2] at hd
        rw [hd.2.1]
  · intro q hq
    have hd := hdesc q hq
    split_ifs at hd
    · rw [hd.2.2.1, wallClear_right]
    · rw [hd.2.2.1, wallClear_left]
    · rw [hd.2.2.1]
  · intro q hq
    have hd := hdesc q hq
    split_ifs at hd
    · rw [hd.2.2.2.1, wallClear_right]
    · rw [hd.2.2.2.1, wallClear_left]
    · rw [hd.2.2.2.1]
  · intro q hq
    have hd := hdesc q hq
    split_ifs at hd
    · rw [hd.2.2.2.2.1, wallClear_right]
    · rw [hd.2.2.2.2.1, wallClear_left]
    · rw [hd.2.2.2.2.1]

theorem carve_left_view {s s2 : MazeState} {p : Pos} (hdims : DimsEq s s2)
    (hp : inB s p) (hx : inB s (p.1 - 1, p.2))
    (hdesc : ∀ q, inB s q → cellLogicEq (cellAt s2 q)
      (if q = p then wallClear "left" (cellAt s q)
       else if q = (p.1 - 1, p.2) then wallClear "right" (cellAt s q)
       else cellAt s q)) :
    vis s2 = vis s ∧
    passages s2 = insert ((p.1 - 1, p.2), p) (passages s) ∧
    (Consistent s → Consistent s2) ∧ BoundaryEq s s2 := by
  have hpe : ((p.1 - 1 : Int) + 1, p.2) = p := Prod.ext_iff.mpr ⟨by omega, rfl⟩
  have hne : p ≠ (p.1 - 1, p.2) := by
    intro h
    have := congrArg Prod.fst h
    simp at this
    omega
  have hview := horizontal_view (L := (p.1 - 1, p.2)) hdims hx
    (by rw [show ((p.1 - 1 : Int), p.2).1 + 1 = p.1 - 1 + 1 from rfl, hpe]; exact hp)
    ?_ ?_ ?_ ?_ ?_
  · rw [show ((p.1 - 1 : Int), p.2).1 + 1 = p.1 - 1 + 1 from rfl, hpe] at hview
    exact hview
  · intro q hq
    show (cellAt s2 q).has_left_wall =
      if q = (p.1 - 1 + 1, p.2) then false else (cellAt s q).has_left_wall
    rw [hpe]
    have hd := hdesc q hq
    by_cases h1 : q = p
    · rw [if_pos h1] at hd
      rw [if_pos h1, hd.1, wallClear_left]
    · rw [if_neg h1] at hd
      rw [if_neg h1]
      by_cases h2 : q = (p.1 - 1, p.2)
      · rw [if_pos h2] at hd
        rw [hd.1, wallClear_right]
      · rw [if_neg h2] at hd
        rw [hd.1]
  · intro q hq
    show (cellAt s2 q).has_right_wall =
      if q = (p.1 - 1, p.2) then false else (cellAt s q).has_right_wall
    have hd := hdesc q hq
    by_cases h2 : q = (p.1 - 1, p.2)
    · have hq1 : q ≠ p := fun hqp => hne (hqp ▸ h2)
      rw [if_neg hq1, if_pos h2] at hd
      rw [if_pos h2, hd.2.1, wallClear_right]
    · rw [if_neg h2]
      by_cases h1 : q = p
      · rw [if_pos h1] at hd
        rw [hd.2.1, wallClear_left]
      · rw [if_neg h1, if_neg h2] at hd
        rw [hd.2.1]
  · intro q hq
    have hd := hdesc q hq
    split_ifs at hd
    · rw [hd.2.2.1, wallClear_left]
    · rw [hd.2.2.1, wallClear_right]
    · rw [hd.2.2.1]
  · intro q hq
    have hd := hdesc q hq
    split_ifs at hd
    · rw [hd.2.2.2.1, wallClear_left]
    · rw [hd.2.2.2.1, wallClear_right]
    · rw [hd.2.2.2.1]
  · intro q hq
    have hd := hdesc q hq
    split_ifs at hd
    · rw [hd.2.2.2.2.1, wallClear_left]
    · rw [hd.2.2.2.2.1, wallClear_right]
    · rw [hd.2.2.2.2.1]

theorem carve_down_view {s s2 : MazeState} {p : Pos} (hdims : DimsEq s s2)
    (hp : inB s p) (hx : inB s (p.1, p.2 + 1))
    (hdesc : ∀ q, inB s q → cellLogicEq (cellAt s2 q)
      (if q = p then wallClear "bottom" (cellAt s q)
       else if q = (p.1, p.2 + 1) then wallClear "top" (cellAt s q)
       else cellAt s q)) :
    vis s2 = vis s ∧
    passages s2 = insert (p, (p.1, p.2 + 1)) (passages s) ∧
    (Consistent s → Consistent s2) ∧ BoundaryEq s s2 := by
  have hne : p ≠ (p.1, p.2 + 1) := by
    intro h
    have := congrArg Prod.snd h
    simp at this
  apply vertical_view hdims hp hx
  · intro q hq
    have hd := hdesc q hq
    by_cases h1 : q = p
    · rw [if_pos h1] at hd
      rw [if_neg (h1 ▸ hne)]
      rw [hd.2.2.1, wallClear_bottom]
    · rw [if_neg h1] at hd
      by_cases h2 : q = (p.1, p.2 + 1)
      · rw [if_pos h2] at hd
        rw [if_pos h2, hd.2.2.1, wallClear_top]
      · rw [if_neg h2] at hd
        rw [if_neg h2, hd.2.2.1]
  · intro q hq
    have hd := hdesc q hq
    by_cases h1 : q = p
    · rw [if_pos h1] at hd
      rw [if_pos h1, hd.2.2.2.1, wallClear_bottom]
    · rw [if_neg h1] at hd
      rw [if_neg h1]
      by_cases h2 : q = (p.1, p.2 + 1)
      · rw [if_pos h2] at hd
        rw [hd.2.2.2.1, wallClear_top]
      · rw [if_neg h2] at hd
        rw [hd.2.2.2.1]
  · intro q hq
    have hd := hdesc q hq
    split_ifs at hd
    · rw [hd.1, wallClear_bottom]
    · rw [hd.1, wallClear_top]
    · rw [hd.1]
  · intro q hq
    have hd := hdesc q hq
    split_ifs at hd
    · rw [hd.2.1, wallClear_bottom]
    · rw [hd.2.1, wallClear_top]
    · rw [hd.2.1]
  · intro q hq
    have hd := hdesc q hq
    split_ifs at hd
    · rw [hd.2.2.2.2.1, wallClear_bottom]
    · rw [hd.2.2.2.2.1, wallClear_top]
    · rw [hd.2.2.2.2.1]

theorem carve_up_view {s s2 : MazeState} {p : Pos} (hdims : DimsEq s s2)
    (hp : inB s p) (hx : inB s (p.1, p.2 - 1))
    (hdesc : ∀ q, inB s q → cellLogicEq (cellAt s2 q)
      (if q = p then wallClear "top" (cellAt s q)
       else if q = (p.1, p.2 - 1) then wallClear "bottom" (cellAt s q)
       else cellAt s q)) :
    vis s2 = vis s ∧
    passages s2 = insert ((p.1, p.2 - 1), p) (passages s) ∧
    (Consistent s → Consistent s2) ∧ BoundaryEq s s2 := by
  have hpe : (p.1, (p.2 - 1 : Int) + 1) = p := Prod.ext_iff.mpr ⟨rfl, by omega⟩
  have hne : p ≠ (p.1, p.2 - 1) := by
    intro h
    have := congrArg Prod.snd h
    simp at this
    omega
  have hview := vertical_view (T := (p.1, p.2 - 1)) hdims hx
    (by rw [show ((p.1, (p.2 - 1 : Int)).1, (p.1, (p.2 - 1 : Int)).2 + 1) =
      (p.1, p.2 - 1 + 1) from rfl, hpe]; exact hp)
    ?_ ?_ ?_ ?_ ?_
  · rw [show ((p.1, (p.2 - 1 : Int)).1, (p.1, (p.2 - 1 : Int)).2 + 1) =
      (p.1, p.2 - 1 + 1) from rfl, hpe] at hview
    exact hview
  · intro q hq
    show (cellAt s2 q).has_top_wall =
      if q = (p.1, p.2 - 1 + 1) then false else (cellAt s q).has_top_wall
    rw [hpe]
    have hd := hdesc q hq
    by_cases h1 : q = p
    · rw [if_pos h1] at hd
      rw [if_pos h1, hd.2.2.1, wallClear_top]
    · rw [if_neg h1] at hd
      rw [if_neg h1]
      by_cases h2 : q = (p.1, p.2 - 1)
      · rw [if_pos h2] at hd
        rw [hd.2.2.1, wallClear_bottom]
      · rw [if_neg h2] at hd
        rw [hd.2.2.1]
  · intro q hq
    show (cellAt s2 q).has_bottom_wall =
      if q = (p.1, p.2 - 1) then false else (cellAt s q).has_bottom_wall
    have hd := hdesc q hq
    by_cases h2 : q = (p.1, p.2 - 1)
    · have hq1 : q ≠ p := fun hqp => hne (hqp ▸ h2)
      rw [if_neg hq1, if_pos h2] at hd
      rw [if_pos h2, hd.2.2.2.1, wallClear_bottom]
    · rw [if_neg h2]
      by_cases h1 : q = p
      · rw [if_pos h1] at hd
        rw [hd.2.2.2.1, wallClear_top]
      · rw [if_neg h1, if_neg h2] at hd
        rw [hd.2.2.2.1]
  · intro q hq
    have hd := hdesc q hq
    split_ifs at hd
    · rw [hd.1, wallClear_top]
    · rw [hd.1, wallClear_bottom]
    · rw [hd.1]
  · intro q hq
    have hd := hdesc q hq
    split_ifs at hd
    · rw [hd.2.1, wallClear_top]
    · rw [hd.2.1, wallClear_bottom]
    · rw [hd.2.1]
  · intro q hq
    have hd := hdesc q hq
    split_ifs at hd
    · rw [hd.2.2.2.2.1, wallClear_top]
    · rw [hd.2.2.2.2.1, wallClear_bottom]
    · rw [hd.2.2.2.2.1]

/-! ### The carving invariant -/

/-- Postcondition of a carve call entered at cell `p` relating the
entry state to the result state: shape is preserved, consistency and
the grown-tree invariant hold in the result, the visited set only
grows and includes `p`, boundary flags are untouched, all in-bounds
neighbors of `p` end up visited, and every newly visited cell also has
all its in-bounds neighbors visited. -/
def CarvePost (p : Pos) (s s2 : MazeState) : Prop :=
  DimsEq s s2 ∧ WF s2 ∧ Consistent s2 ∧
  GrownTree (passages s2) (vis s2) ∧
  vis s ⊆ vis s2 ∧ p ∈ vis s2 ∧ BoundaryEq s s2 ∧
  (∀ x, inB s x → nbhd p x → x ∈ vis s2) ∧
  (∀ w, w ∈ vis s2 → w ∉ vis s → ∀ x, inB s x → nbhd w x → x ∈ vis s2)

/-- Exit case of the carve loop: no unvisited neighbor is left. -/
theorem CarvePost.exit {s : MazeState} {p : Pos} (hwf : WF s)
    (hcons : Consistent s) (hpv : p ∈ vis s)
    (hgt : GrownTree (passages s) (vis s))
    (hnil : candList s p = []) : CarvePost p s s := by
  refine ⟨DimsEq.drefl s, hwf, hcons, hgt, Finset.Subset.refl _, hpv,
    BoundaryEq.brefl s, ?_, ?_⟩
  · intro x hx hnb
    exact mem_vis.mpr ⟨hx, candList_nil hnil hx hnb⟩
  · intro w hw hnw
    exact absurd hw hnw

/-- Composition of one paired wall break (which leaves `visited`
untouched) with the recursive carve call and the loop continuation. -/
theorem CarvePost.assemble {s sb sc s2 : MazeState} {p x : Pos}
    (hdims_b : DimsEq s sb) (hvis_b : vis sb = vis s)
    (hbd_b : BoundaryEq s sb)
    (hpost1 : CarvePost x sb sc) (hpost2 : CarvePost p sc s2) :
    CarvePost p s s2 := by
  obtain ⟨d1, w1, c1, g1, v1, m1, b1, n1, f1⟩ := hpost1
  obtain ⟨d2, w2, c2, g2, v2, m2, b2, n2, f2⟩ := hpost2
  have hdims_c : DimsEq s sc := (hdims_b.dtrans d1)
  have hdims_2 : DimsEq s s2 := hdims_c.dtrans d2
  refine ⟨hdims_2, w2, c2, g2, ?_, m2, ?_, ?_, ?_⟩
  · intro q hq
    rw [← hvis_b] at hq
    exact v2 (v1 hq)
  · exact (BoundaryEq.btrans hdims_b hbd_b (BoundaryEq.btrans d1 b1 b2))
  · intro y hy hnb
    exact n2 y ((inB_iff_of_dims hdims_c y).mpr hy) hnb
  · intro w hw hnw y hy hnb
    have hnwb : w ∉ vis sb := by
      rw [hvis_b]
      exact hnw
    by_cases hwc : w ∈ vis sc
    · exact v2 (f1 w hwc hnwb y ((inB_iff_of_dims hdims_b y).mpr hy) hnb)
    · exact f2 w hw hwc y ((inB_iff_of_dims hdims_c y).mpr hy) hnb

theorem mark_wallsEq {s : MazeState} {p : Pos} (hwf : WF s) (hp : inB s p) :
    ∀ q, inB s q → cellWallsEq
      (cellAt (updCell s p (fun c => { c with visited := true })) q)
      (cellAt s q) := by
  intro q hq
  by_cases hqp : q = p
  · subst hqp
    rw [cellAt_updCell_same _ hwf hp]
    exact ⟨rfl, rfl, rfl, rfl⟩
  · rw [cellAt_updCell_other _ hwf hp hq hqp]
    exact cellWallsEq.wrefl _

/-- Extending a carve postcondition backwards across a step that kept
the visited set and the boundary flags. -/
theorem CarvePost.pre {s sb s2 : MazeState} {p : Pos}
    (hdims_b : DimsEq s sb) (hvis_b : vis sb = vis s)
    (hbd_b : BoundaryEq s sb) (h : CarvePost p sb s2) :
    CarvePost p s s2 := by
  obtain ⟨d, w, c, gt, v, m, b, nn, f⟩ := h
  refine ⟨hdims_b.dtrans d, w, c, gt, ?_, m,
    BoundaryEq.btrans hdims_b hbd_b b, ?_, ?_⟩
  · intro q hq
    exact v (by rw [hvis_b]; exact hq)
  · intro x hx hnb
    exact nn x ((inB_iff_of_dims hdims_b x).mpr hx) hnb
  · intro w2 hw hnw x hx hnb
    exact f w2 hw (by rw [hvis_b]; exact hnw) x
      ((inB_iff_of_dims hdims_b x).mpr hx) hnb

/-- After a paired wall break, the recursive carve call into the chosen
neighbor followed by the loop continuation at the current cell yields
the carve postcondition from the post-break state. -/
theorem carve_loop_cont {n : Nat} {sb sc s2 : MazeState} {gt g3 g2 : Rng}
    {col row nc nr : Int}
    (IHr : ∀ s g col row s2 g2,
      Maze.break_walls_r n s g col row = .ok (s2, g2) → WF s →
      inB s (col, row) → Consistent s →
      GrownTree (passages s) (insert (col, row) (vis s)) →
      CarvePost (col, row) s s2)
    (IHloop : ∀ s g col row s2 g2,
      Maze.carve_loop n s g col row = .ok (s2, g2) → WF s →
      inB s (col, row) → Consistent s → (col, row) ∈ vis s →
      GrownTree (passages s) (vis s) →
      CarvePost (col, row) s s2)
    (hinner : Maze.break_walls_r n sb gt nc nr = .ok (sc, g3))
    (hrun2 : Maze.carve_loop n sc g3 col row = .ok (s2, g2))
    (hwfb : WF sb) (hx : inB sb (nc, nr)) (hpb : inB sb (col, row))
    (hconsb : Consistent sb) (hpvb : (col, row) ∈ vis sb)
    (hgtb : GrownTree (passages sb) (insert (nc, nr) (vis sb))) :
    CarvePost (col, row) sb s2 := by
  have hpost1 := IHr sb gt nc nr sc g3 hinner hwfb hx hconsb hgtb
  obtain ⟨d1, w1, c1, gt1, v1, m1, b1, n1, f1⟩ := hpost1
  have hpost2 := IHloop sc g3 col row s2 g2 hrun2 w1
    ((inB_iff_of_dims d1 _).mpr hpb) c1 (v1 hpvb) gt1
  exact CarvePost.assemble (DimsEq.drefl sb) rfl (BoundaryEq.brefl sb)
    ⟨d1, w1, c1, gt1, v1, m1, b1, n1, f1⟩ hpost2

/-- Partial correctness of the carving recursion: whenever
`_break_walls_r` (or its loop) returns, the carve postcondition holds. -/
theorem carve_spec : ∀ n : Nat,
    (∀ s g col row s2 g2, Maze.break_walls_r n s g col row = .ok (s2, g2) →
      WF s → inB s (col, row) → Consistent s →
      GrownTree (passages s) (insert (col, row) (vis s)) →
      CarvePost (col, row) s s2) ∧
    (∀ s g col row s2 g2, Maze.carve_loop n s g col row = .ok (s2, g2) →
      WF s → inB s (col, row) → Consistent s → (col, row) ∈ vis s →
      GrownTree (passages s) (vis s) →
      CarvePost (col, row) s s2) := by
  intro n
  induction n with
  | zero =>
    constructor
    · intro s g col row s2 g2 hrun
      rw [Maze.break_walls_r] at hrun
      cases hrun
    · intro s g col row s2 g2 hrun
      rw [Maze.carve_loop] at hrun
      cases hrun
  | succ n IH =>
    obtain ⟨IHr, IHloop⟩ := IH
    constructor
    · intro s g col row s2 g2 hrun hwf hp hcons hgt
      rw [Maze.break_walls_r] at hrun
      have hmk : Maze.markVisitedE s col row =
          .ok (updCell s (col, row) (fun c => { c with visited := true })) :=
        markVisitedE_ok hwf hp
      rw [hmk] at hrun
      have hrun2 : Maze.carve_loop n
          (updCell s (col, row) (fun c => { c with visited := true }))
          g col row = .ok (s2, g2) := hrun
      have hwf1 : WF (updCell s (col, row) (fun c => { c with visited := true })) :=
        updCell_WF _ hwf hp
      have hdims1 := updCell_dims s (col, row) (fun c => { c with visited := true })
      have hvis1 := vis_mark hwf hp
      have hpas1 := passages_mark hwf hp
      have hwallsEq := mark_wallsEq hwf hp
      have hcons1 := Consistent_congrW hdims1 hwallsEq hcons
      have hbd1 := BoundaryEq.of_wallsEq hwallsEq
      have hp1 : inB (updCell s (col, row) (fun c => { c with visited := true }))
          (col, row) := (inB_iff_of_dims hdims1 _).mpr hp
      have hpv1 : (col, row) ∈
          vis (updCell s (col, row) (fun c => { c with visited := true })) := by
        rw [hvis1]
        exact Finset.mem_insert_self _ _
      have hgt1 : GrownTree
          (passages (updCell s (col, row) (fun c => { c with visited := true })))
          (vis (updCell s (col, row) (fun c => { c with visited := true }))) := by
        rw [hpas1, hvis1]
        exact hgt
      have hpost := IHloop _ g col row s2 g2 hrun2 hwf1 hp1 hcons1 hpv1 hgt1
      obtain ⟨d2, w2, c2, gt2, v2, m2, b2, n2, f2⟩ := hpost
      refine ⟨hdims1.dtrans d2, w2, c2, gt2, ?_, m2,
        BoundaryEq.btrans hdims1 hbd1 b2, ?_, ?_⟩
      · intro q hq
        apply v2
        rw [hvis1]
        exact Finset.mem_insert_of_mem hq
      · intro x hx hnb
        exact n2 x ((inB_iff_of_dims hdims1 x).mpr hx) hnb
      · intro w hw hnw x hx hnb
        by_cases hwp : w = (col, row)
        · subst hwp
          exact n2 x ((inB_iff_of_dims hdims1 x).mpr hx) hnb
        · refine f2 w hw ?_ x ((inB_iff_of_dims hdims1 x).mpr hx) hnb
          rw [hvis1]
          simp [Finset.mem_insert, hwp, hnw]
    · intro s g col row s2 g2 hrun hwf hp hcons hpv hgt
      rw [Maze.carve_loop] at hrun
      have hpt : Maze.possibleToVisit s col row = .ok (candList s (col, row)) :=
        possibleToVisit_ok hwf hp
      simp only [hpt] at hrun
      by_cases hnil : (candList s (col, row)).length = 0
      · rw [if_pos hnil] at hrun
        rw [Except.ok.injEq, Prod.mk.injEq] at hrun
        obtain ⟨rfl, rfl⟩ := hrun
        exact CarvePost.exit hwf hcons hpv hgt (List.length_eq_zero.mp hnil)
      · rw [if_neg hnil] at hrun
        have hne2 : candList s (col, row) ≠ [] := by
          intro h
          rw [h] at hnil
          exact hnil rfl
        obtain ⟨⟨nc, nr⟩, hrc, hmem⟩ := randomChoice_ok g _ hne2
        simp only [hrc] at hrun
        obtain ⟨hxin, hxunvis, hnb⟩ := candList_mem hp hmem
        have hxnv : (nc, nr) ∉ vis s := (not_mem_vis hxin).mpr hxunvis
        rcases hnb with hdir | hdir | hdir | hdir
        · -- leftward: the chosen neighbor is (col - 1, row)
          have hnc : nc = col - 1 := congrArg Prod.fst hdir
          have hnr : row = nr := (congrArg Prod.snd hdir).symm
          subst hnc
          subst hnr
          have d1 : decide (col < col - 1) = false := decide_eq_false (by omega)
          have d2 : decide (col > col - 1) = true := decide_eq_true (by omega)
          have d3 : decide (row < row) = false := decide_eq_false (by omega)
          have d4 : decide (row > row) = false := decide_eq_false (by omega)
          obtain ⟨sb, hb, hdimsb, hwfb, hdescb⟩ :=
            breakPair_true_spec (s := s) (p := (col, row)) (x := (col - 1, row))
              "left" "right" hwf hp hxin
              (fun h => by
                have h2 : col - 1 = col := congrArg Prod.fst h
                omega)
          have hb2 : Maze.breakPair s true col row (col - 1) row "left" "right" =
              .ok sb := hb
          simp only [d1, d2, d3, d4, breakPair_false, hb2] at hrun
          have hdescb2 : ∀ q, inB s q → cellLogicEq (cellAt sb q)
              (if q = (col, row) then wallClear "left" (cellAt s q)
               else if q = ((col, row).1 - 1, (col, row).2) then
                 wallClear "right" (cellAt s q)
               else cellAt s q) := hdescb
          obtain ⟨hvisb, hpasb, hconsb, hbdb⟩ :=
            carve_left_view (p := (col, row)) hdimsb hp hxin hdescb2
          have hpasb2 : passages sb =
              insert ((col - 1, row), (col, row)) (passages s) := hpasb
          have hgtb : GrownTree (passages sb)
              (insert (col - 1, row) (vis sb)) := by
            rw [hpasb2, hvisb]
            exact GrownTree.growIn (col, row) (col - 1, row) hgt hpv hxnv
          cases hinner : Maze.break_walls_r n sb (Rng.tail g) (col - 1) row with
          | error e =>
            rw [hinner] at hrun
            cases hrun
          | ok pr =>
            obtain ⟨sc, g3⟩ := pr
            rw [hinner] at hrun
            have hrun2 : Maze.carve_loop n sc g3 col row = .ok (s2, g2) := hrun
            refine CarvePost.pre hdimsb hvisb hbdb ?_
            exact carve_loop_cont IHr IHloop hinner hrun2 hwfb
              ((inB_iff_of_dims hdimsb _).mpr hxin)
              ((inB_iff_of_dims hdimsb _).mpr hp)
              (hconsb hcons)
              (by rw [hvisb]; exact hpv)
              hgtb
        · -- rightward: the chosen neighbor is (col + 1, row)
          have hnc : nc = col + 1 := congrArg Prod.fst hdir
          have hnr : row = nr := (congrArg Prod.snd hdir).symm
          subst hnc
          subst hnr
          have d1 : decide (col < col + 1) = true := decide_eq_true (by omega)
          have d2 : decide (col > col + 1) = false := decide_eq_false (by omega)
          have d3 : decide (row < row) = false := decide_eq_false (by omega)
          have d4 : decide (row > row) = false := decide_eq_false (by omega)
          obtain ⟨sb, hb, hdimsb, hwfb, hdescb⟩ :=
            breakPair_true_spec (s := s) (p := (col, row)) (x := (col + 1, row))
              "right" "left" hwf hp hxin
              (fun h => by
                have h2 : col + 1 = col := congrArg Prod.fst h
                omega)
          have hb2 : Maze.breakPair s true col row (col + 1) row "right" "left" =
              .ok sb := hb
          simp only [d1, d2, d3, d4, breakPair_false, hb2] at hrun
          have hdescb2 : ∀ q, inB s q → cellLogicEq (cellAt sb q)
              (if q = (col, row) then wallClear "right" (cellAt s q)
               else if q = ((col, row).1 + 1, (col, row).2) then
                 wallClear "left" (cellAt s q)
               else cellAt s q) := hdescb
          obtain ⟨hvisb, hpasb, hconsb, hbdb⟩ :=
            carve_right_view (p := (col, row)) hdimsb hp hxin hdescb2
          have hpasb2 : passages sb =
              insert ((col, row), (col + 1, row)) (passages s) := hpasb
          have hgtb : GrownTree (passages sb)
              (insert (col + 1, row) (vis sb)) := by
            rw [hpasb2, hvisb]
            exact GrownTree.growOut (col, row) (col + 1, row) hgt hpv hxnv
          cases hinner : Maze.break_walls_r n sb (Rng.tail g) (col + 1) row with
          | error e =>
            rw [hinner] at hrun
            cases hrun
          | ok pr =>
            obtain ⟨sc, g3⟩ := pr
            rw [hinner] at hrun
            have hrun2 : Maze.carve_loop n sc g3 col row = .ok (s2, g2) := hrun
            refine CarvePost.pre hdimsb hvisb hbdb ?_
            exact carve_loop_cont IHr IHloop hinner hrun2 hwfb
              ((inB_iff_of_dims hdimsb _).mpr hxin)
              ((inB_iff_of_dims hdimsb _).mpr hp)
              (hconsb hcons)
              (by rw [hvisb]; exact hpv)
              hgtb
        · -- upward: the chosen neighbor is (col, row - 1)
          have hnc : col = nc := (congrArg Prod.fst hdir).symm
          have hnr : nr = row - 1 := congrArg Prod.snd hdir
          subst hnc
          subst hnr
          have d1 : decide (col < col) = false := decide_eq_false (by omega)
          have d2 : decide (col > col) = false := decide_eq_false (by omega)
          have d3 : decide (row < row - 1) = false := decide_eq_false (by omega)
          have d4 : decide (row > row - 1) = true := decide_eq_true (by omega)
          obtain ⟨sb, hb, hdimsb, hwfb, hdescb⟩ :=
            breakPair_true_spec (s := s) (p := (col, row)) (x := (col, row - 1))
              "top" "bottom" hwf hp hxin
              (fun h => by
                have h2 : row - 1 = row := congrArg Prod.snd h
                omega)
          have hb2 : Maze.breakPair s true col row col (row - 1) "top" "bottom" =
              .ok sb := hb
          simp only [d1, d2, d3, d4, breakPair_false, hb2] at hrun
          have hdescb2 : ∀ q, inB s q → cellLogicEq (cellAt sb q)
              (if q = (col, row) then wallClear "top" (cellAt s q)
               else if q = ((col, row).1, (col, row).2 - 1) then
                 wallClear "bottom" (cellAt s q)
               else cellAt s q) := hdescb
          obtain ⟨hvisb, hpasb, hconsb, hbdb⟩ :=
            carve_up_view (p := (col, row)) hdimsb hp hxin hdescb2
          have hpasb2 : passages sb =
              insert ((col, row - 1), (col, row)) (passages s) := hpasb
          have hgtb : GrownTree (passages sb)
              (insert (col, row - 1) (vis sb)) := by
            rw [hpasb2, hvisb]
            exact GrownTree.growIn (col, row) (col, row - 1) hgt hpv hxnv
          cases hinner : Maze.break_walls_r n sb (Rng.tail g) col (row - 1) with
          | error e =>
            rw [hinner] at hrun
            cases hrun
          | ok pr =>
            obtain ⟨sc, g3⟩ := pr
            rw [hinner] at hrun
            have hrun2 : Maze.carve_loop n sc g3 col row = .ok (s2, g2) := hrun
            refine CarvePost.pre hdimsb hvisb hbdb ?_
            exact carve_loop_cont IHr IHloop hinner hrun2 hwfb
              ((inB_iff_of_dims hdimsb _).mpr hxin)
              ((inB_iff_of_dims hdimsb _).mpr hp)
              (hconsb hcons)
              (by rw [hvisb]; exact hpv)
              hgtb
        · -- downward: the chosen neighbor is (col, row + 1)
          have hnc : col = nc := (congrArg Prod.fst hdir).symm
          have hnr : nr = row + 1 := congrArg Prod.snd hdir
          subst hnc
          subst hnr
          have d1 : decide (col < col) = false := decide_eq_false (by omega)
          have d2 : decide (col > col) = false := decide_eq_false (by omega)
          have d3 : decide (row < row + 1) = true := decide_eq_true (by omega)
          have d4 : decide (row > row + 1) = false := decide_eq_false (by omega)
          obtain ⟨sb, hb, hdimsb, hwfb, hdescb⟩ :=
            breakPair_true_spec (s := s) (p := (col, row)) (x := (col, row + 1))
              "bottom" "top" hwf hp hxin
              (fun h => by
                have h2 : row + 1 = row := congrArg Prod.snd h
                omega)
          have hb2 : Maze.breakPair s true col row col (row + 1) "bottom" "top" =
              .ok sb := hb
          simp only [d1, d2, d3, d4, breakPair_false, hb2] at hrun
          have hdescb2 : ∀ q, inB s q → cellLogicEq (cellAt sb q)
              (if q = (col, row) then wallClear "bottom" (cellAt s q)
               else if q = ((col, row).1, (col, row).2 + 1) then
                 wallClear "top" (cellAt s q)
               else cellAt s q) := hdescb
          obtain ⟨hvisb, hpasb, hconsb, hbdb⟩ :=
            carve_down_view (p := (col, row)) hdimsb hp hxin hdescb2
          have hpasb2 : passages sb =
              insert ((col, row), (col, row + 1)) (passages s) := hpasb
          have hgtb : GrownTree (passages sb)
              (insert (col, row + 1) (vis sb)) := by
            rw [hpasb2, hvisb]
            exact GrownTree.growOut (col, row) (col, row + 1) hgt hpv hxnv
          cases hinner : Maze.break_walls_r n sb (Rng.tail g) col (row + 1) with
          | error e =>
            rw [hinner] at hrun
            cases hrun
          | ok pr =>
            obtain ⟨sc, g3⟩ := pr
            rw [hinner] at hrun
            have hrun2 : Maze.carve_loop n sc g3 col row = .ok (s2, g2) := hrun
            refine CarvePost.pre hdimsb hvisb hbdb ?_
            exact carve_loop_cont IHr IHloop hinner hrun2 hwfb
              ((inB_iff_of_dims hdimsb _).mpr hxin)
              ((inB_iff_of_dims hdimsb _).mpr hp)
              (hconsb hcons)
              (by rw [hvisb]; exact hpv)
              hgtb

theorem one_le_unvis {s : MazeState} {x : Pos} (hx : inB s x)
    (hv : (cellAt s x).visited = false) : 1 ≤ unvis s := by
  refine Finset.card_pos.mpr ⟨x, Finset.mem_filter.mpr ⟨mem_allPos.mpr hx, ?_⟩⟩
  simp [hv]

/-- Fuel sufficiency of the carving recursion: two fuel units per
unvisited cell (plus one for the loop) always suffice, so the
embedding's fuel never cuts a real run short. -/
theorem carve_total : ∀ k : Nat,
    (∀ n s g col row, WF s → inB s (col, row) → Consistent s →
      GrownTree (passages s) (insert (col, row) (vis s)) →
      (col, row) ∉ vis s → unvis s ≤ k → 2 * k ≤ n →
      ∃ s2 g2, Maze.break_walls_r n s g col row = .ok (s2, g2)) ∧
    (∀ n s g col row, WF s → inB s (col, row) → Consistent s →
      GrownTree (passages s) (vis s) → (col, row) ∈ vis s →
      unvis s ≤ k → 2 * k + 1 ≤ n →
      ∃ s2 g2, Maze.carve_loop n s g col row = .ok (s2, g2)) := by
  intro k
  induction k with
  | zero =>
    constructor
    · intro n s g col row hwf hp hcons hgt hnv hu hfuel
      have h1 := one_le_unvis hp ((not_mem_vis hp).mp hnv)
      omega
    · intro n s g col row hwf hp hcons hgt hpv hu hfuel
      obtain ⟨n2, rfl⟩ : ∃ n2, n = n2 + 1 := ⟨n - 1, by omega⟩
      have hpt : Maze.possibleToVisit s col row =
          .ok (candList s (col, row)) := possibleToVisit_ok hwf hp
      by_cases hnil : (candList s (col, row)).length = 0
      · refine ⟨s, g, ?_⟩
        rw [Maze.carve_loop]
        simp only [hpt]
        rw [if_pos hnil]
      · exfalso
        obtain ⟨x, hx⟩ : ∃ x, x ∈ candList s (col, row) :=
          List.exists_mem_of_ne_nil _
            (fun h => hnil (by rw [h]; rfl))
        obtain ⟨hxin, hxunvis, -⟩ := candList_mem hp hx
        have := one_le_unvis hxin hxunvis
        omega
  | succ k IH =>
    obtain ⟨IHc, IHloop⟩ := IH
    have Tc : ∀ n s g col row, WF s → inB s (col, row) → Consistent s →
        GrownTree (passages s) (insert (col, row) (vis s)) →
        (col, row) ∉ vis s → unvis s ≤ k + 1 → 2 * (k + 1) ≤ n →
        ∃ s2 g2, Maze.break_walls_r n s g col row = .ok (s2, g2) := by
      intro n s g col row hwf hp hcons hgt hnv hu hfuel
      obtain ⟨n2, rfl⟩ : ∃ n2, n = n2 + 1 := ⟨n - 1, by omega⟩
      have hmk : Maze.markVisitedE s col row =
          .ok (updCell s (col, row) (fun c => { c with visited := true })) :=
        markVisitedE_ok hwf hp
      have hwf1 : WF (updCell s (col, row) (fun c => { c with visited := true })) :=
        updCell_WF _ hwf hp
      have hdims1 := updCell_dims s (col, row) (fun c => { c with visited := true })
      have hvis1 := vis_mark hwf hp
      have hpas1 := passages_mark hwf hp
      have hwallsEq := mark_wallsEq hwf hp
      have hcons1 := Consistent_congrW hdims1 hwallsEq hcons
      have hp1 : inB (updCell s (col, row) (fun c => { c with visited := true }))
          (col, row) := (inB_iff_of_dims hdims1 _).mpr hp
      have hpv1 : (col, row) ∈
          vis (updCell s (col, row) (fun c => { c with visited := true })) := by
        rw [hvis1]
        exact Finset.mem_insert_self _ _
      have hgt1 : GrownTree
          (passages (updCell s (col, row) (fun c => { c with visited := true })))
          (vis (updCell s (col, row) (fun c => { c with visited := true }))) := by
        rw [hpas1, hvis1]
        exact hgt
      have hu1 : unvis (updCell s (col, row)
          (fun c => { c with visited := true })) ≤ k := by
        have hlt := unvis_lt_of_new hdims1
          (by rw [hvis1]; exact Finset.subset_insert _ _) hpv1 hnv
        omega
      obtain ⟨s2, g2, hloop⟩ := IHloop n2 _ g col row hwf1 hp1 hcons1 hgt1
        hpv1 hu1 (by omega)
      refine ⟨s2, g2, ?_⟩
      rw [Maze.break_walls_r]
      simp only [hmk]
      exact hloop
    refine ⟨Tc, ?_⟩
    intro n s g col row hwf hp hcons hgt hpv hu hfuel
    obtain ⟨n2, rfl⟩ : ∃ n2, n = n2 + 1 := ⟨n - 1, by omega⟩
    have hpt : Maze.possibleToVisit s col row =
        .ok (candList s (col, row)) := possibleToVisit_ok hwf hp
    by_cases hnil : (candList s (col, row)).length = 0
    · refine ⟨s, g, ?_⟩
      rw [Maze.carve_loop]
      simp only [hpt]
      rw [if_pos hnil]
    · have hne2 : candList s (col, row) ≠ [] := by
        intro h
        rw [h] at hnil
        exact hnil rfl
      obtain ⟨⟨nc, nr⟩, hrc, hmem⟩ := randomChoice_ok g _ hne2
      obtain ⟨hxin, hxunvis, hnb⟩ := candList_mem hp hmem
      have hxnv : (nc, nr) ∉ vis s := (not_mem_vis hxin).mpr hxunvis
      rcases hnb with hdir | hdir | hdir | hdir
      · -- leftward
        have hnc : nc = col - 1 := congrArg Prod.fst hdir
        have hnr : row = nr := (congrArg Prod.snd hdir).symm
        subst hnc
        subst hnr
        have d1 : decide (col < col - 1) = false := decide_eq_false (by omega)
        have d2 : decide (col > col - 1) = true := decide_eq_true (by omega)
        have d3 : decide (row < row) = false := decide_eq_false (by omega)
        have d4 : decide (row > row) = false := decide_eq_false (by omega)
        obtain ⟨sb, hb, hdimsb, hwfb, hdescb⟩ :=
          breakPair_true_spec (s := s) (p := (col, row)) (x := (col - 1, row))
            "left" "right" hwf hp hxin
            (fun h => by
              have h2 : col - 1 = col := congrArg Prod.fst h
              omega)
        have hb2 : Maze.breakPair s true col row (col - 1) row "left" "right" =
            .ok sb := hb
        have hdescb2 : ∀ q, inB s q → cellLogicEq (cellAt sb q)
            (if q = (col, row) then wallClear "left" (cellAt s q)
             else if q = ((col, row).1 - 1, (col, row).2) then
               wallClear "right" (cellAt s q)
             else cellAt s q) := hdescb
        obtain ⟨hvisb, hpasb, hconsb, hbdb⟩ :=
          carve_left_view (p := (col, row)) hdimsb hp hxin hdescb2
        have hpasb2 : passages sb =
            insert ((col - 1, row), (col, row)) (passages s) := hpasb
        have hgtb : GrownTree (passages sb)
            (insert (col - 1, row) (vis sb)) := by
          rw [hpasb2, hvisb]
          exact GrownTree.growIn (col, row) (col - 1, row) hgt hpv hxnv
        have hub : unvis sb ≤ k + 1 := by
          have h1 := vis_card_add_unvis s
          have h2 := vis_card_add_unvis sb
          rw [allPos_eq_of_dims hdimsb, hvisb] at h2
          omega
        obtain ⟨sc, g3, hinner⟩ := Tc n2 sb (Rng.tail g) (col - 1) row hwfb
          ((inB_iff_of_dims hdimsb _).mpr hxin) (hconsb hcons) hgtb
          (by rw [hvisb]; exact hxnv) hub (by omega)
        have hpost := (carve_spec n2).1 sb (Rng.tail g) (col - 1) row sc g3
          hinner hwfb ((inB_iff_of_dims hdimsb _).mpr hxin) (hconsb hcons) hgtb
        obtain ⟨dd, ww, cc, gg, vv, mm, bb, nn2, ff⟩ := hpost
        have hub2 : unvis sc ≤ k := by
          have hlt := unvis_lt_of_new dd vv mm (by rw [hvisb]; exact hxnv)
          omega
        obtain ⟨s2f, g2f, hfinal⟩ := IHloop n2 sc g3 col row ww
          ((inB_iff_of_dims (hdimsb.dtrans dd) _).mpr hp) cc gg
          (vv (by rw [hvisb]; exact hpv)) hub2 (by omega)
        refine ⟨s2f, g2f, ?_⟩
        rw [Maze.carve_loop]
        simp only [hpt]
        rw [if_neg hnil]
        simp only [hrc, d1, d2, d3, d4, breakPair_false, hb2, hinner]
        exact hfinal
      · -- rightward
        have hnc : nc = col + 1 := congrArg Prod.fst hdir
        have hnr : row = nr := (congrArg Prod.snd hdir).symm
        subst hnc
        subst hnr
        have d1 : decide (col < col + 1) = true := decide_eq_true (by omega)
        have d2 : decide (col > col + 1) = false := decide_eq_false (by omega)
        have d3 : decide (row < row) = false := decide_eq_false (by omega)
        have d4 : decide (row > row) = false := decide_eq_false (by omega)
        obtain ⟨sb, hb, hdimsb, hwfb, hdescb⟩ :=
          breakPair_true_spec (s := s) (p := (col, row)) (x := (col + 1, row))
            "right" "left" hwf hp hxin
            (fun h => by
              have h2 : col + 1 = col := congrArg Prod.fst h
              omega)
        have hb2 : Maze.breakPair s true col row (col + 1) row "right" "left" =
            .ok sb := hb
        have hdescb2 : ∀ q, inB s q → cellLogicEq (cellAt sb q)
            (if q = (col, row) then wallClear "right" (cellAt s q)
             else if q = ((col, row).1 + 1, (col, row).2) then
               wallClear "left" (cellAt s q)
             else cellAt s q) := hdescb
        obtain ⟨hvisb, hpasb, hconsb, hbdb⟩ :=
          carve_right_view (p := (col, row)) hdimsb hp hxin hdescb2
        have hpasb2 : passages sb =
            insert ((col, row), (col + 1, row)) (passages s) := hpasb
        have hgtb : GrownTree (passages sb)
            (insert (col + 1, row) (vis sb)) := by
          rw [hpasb2, hvisb]
          exact GrownTree.growOut (col, row) (col + 1, row) hgt hpv hxnv
        have hub : unvis sb ≤ k + 1 := by
          have h1 := vis_card_add_unvis s
          have h2 := vis_card_add_unvis sb
          rw [allPos_eq_of_dims hdimsb, hvisb] at h2
          omega
        obtain ⟨sc, g3, hinner⟩ := Tc n2 sb (Rng.tail g) (col + 1) row hwfb
          ((inB_iff_of_dims hdimsb _).mpr hxin) (hconsb hcons) hgtb
          (by rw [hvisb]; exact hxnv) hub (by omega)
        have hpost := (carve_spec n2).1 sb (Rng.tail g) (col + 1) row sc g3
          hinner hwfb ((inB_iff_of_dims hdimsb _).mpr hxin) (hconsb hcons) hgtb
        obtain ⟨dd, ww, cc, gg, vv, mm, bb, nn2, ff⟩ := hpost
        have hub2 : unvis sc ≤ k := by
          have hlt := unvis_lt_of_new dd vv mm (by rw [hvisb]; exact hxnv)
          omega
        obtain ⟨s2f, g2f, hfinal⟩ := IHloop n2 sc g3 col row ww
          ((inB_iff_of_dims (hdimsb.dtrans dd) _).mpr hp) cc gg
          (vv (by rw [hvisb]; exact hpv)) hub2 (by omega)
        refine ⟨s2f, g2f, ?_⟩
        rw [Maze.carve_loop]
        simp only [hpt]
        rw [if_neg hnil]
        simp only [hrc, d1, d2, d3, d4, breakPair_false, hb2, hinner]
        exact hfinal
      · -- upward
        have hnc : col = nc := (congrArg Prod.fst hdir).symm
        have hnr : nr = row - 1 := congrArg Prod.snd hdir
        subst hnc
        subst hnr
        have d1 : decide (col < col) = false := decide_eq_false (by omega)
        have d2 : decide (col > col) = false := decide_eq_false (by omega)
        have d3 : decide (row < row - 1) = false := decide_eq_false (by omega)
        have d4 : decide (row > row - 1) = true := decide_eq_true (by omega)
        obtain ⟨sb, hb, hdimsb, hwfb, hdescb⟩ :=
          breakPair_true_spec (s := s) (p := (col, row)) (x := (col, row - 1))
            "top" "bottom" hwf hp hxin
            (fun h => by
              have h2 : row - 1 = row := congrArg Prod.snd h
              omega)
        have hb2 : Maze.breakPair s true col row col (row - 1) "top" "bottom" =
            .ok sb := hb
        have hdescb2 : ∀ q, inB s q → cellLogicEq (cellAt sb q)
            (if q = (col, row) then wallClear "top" (cellAt s q)
             else if q = ((col, row).1, (col, row).2 - 1) then
               wallClear "bottom" (cellAt s q)
             else cellAt s q) := hdescb
        obtain ⟨hvisb, hpasb, hconsb, hbdb⟩ :=
          carve_up_view (p := (col, row)) hdimsb hp hxin hdescb2
        have hpasb2 : passages sb =
            insert ((col, row - 1), (col, row)) (passages s) := hpasb
        have hgtb : GrownTree (passages sb)
            (insert (col, row - 1) (vis sb)) := by
          rw [hpasb2, hvisb]
          exact GrownTree.growIn (col, row) (col, row - 1) hgt hpv hxnv
        have hub : unvis sb ≤ k + 1 := by
          have h1 := vis_card_add_unvis s
          have h2 := vis_card_add_unvis sb
          rw [allPos_eq_of_dims hdimsb, hvisb] at h2
          omega
        obtain ⟨sc, g3, hinner⟩ := Tc n2 sb (Rng.tail g) col (row - 1) hwfb
          ((inB_iff_of_dims hdimsb _).mpr hxin) (hconsb hcons) hgtb
          (by rw [hvisb]; exact hxnv) hub (by omega)
        have hpost := (carve_spec n2).1 sb (Rng.tail g) col (row - 1) sc g3
          hinner hwfb ((inB_iff_of_dims hdimsb _).mpr hxin) (hconsb hcons) hgtb
        obtain ⟨dd, ww, cc, gg, vv, mm, bb, nn2, ff⟩ := hpost
        have hub2 : unvis sc ≤ k := by
          have hlt := unvis_lt_of_new dd vv mm (by rw [hvisb]; exact hxnv)
          omega
        obtain ⟨s2f, g2f, hfinal⟩ := IHloop n2 sc g3 col row ww
          ((inB_iff_of_dims (hdimsb.dtrans dd) _).mpr hp) cc gg
          (vv (by rw [hvisb]; exact hpv)) hub2 (by omega)
        refine ⟨s2f, g2f, ?_⟩
        rw [Maze.carve_loop]
        simp only [hpt]
        rw [if_neg hnil]
        simp only [hrc, d1, d2, d3, d4, breakPair_false, hb2, hinner]
        exact hfinal
      · -- downward
        have hnc : col = nc := (congrArg Prod.fst hdir).symm
        have hnr : nr = row + 1 := congrArg Prod.snd hdir
        subst hnc
        subst hnr
        have d1 : decide (col < col) = false := decide_eq_false (by omega)
        have d2 : decide (col > col) = false := decide_eq_false (by omega)
        have d3 : decide (row < row + 1) = true := decide_eq_true (by omega)
        have d4 : decide (row > row + 1) = false := decide_eq_false (by omega)
        obtain ⟨sb, hb, hdimsb, hwfb, hdescb⟩ :=
          breakPair_true_spec (s := s) (p := (col, row)) (x := (col, row + 1))
            "bottom" "top" hwf hp hxin
            (fun h => by
              have h2 : row + 1 = row := congrArg Prod.snd h
              omega)
        have hb2 : Maze.breakPair s true col row col (row + 1) "bottom" "top" =
            .ok sb := hb
        have hdescb2 : ∀ q, inB s q → cellLogicEq (cellAt sb q)
            (if q = (col, row) then wallClear "bottom" (cellAt s q)
             else if q = ((col, row).1, (col, row).2 + 1) then
               wallClear "top" (cellAt s q)
             else cellAt s q) := hdescb
        obtain ⟨hvisb, hpasb, hconsb, hbdb⟩ :=
          carve_down_view (p := (col, row)) hdimsb hp hxin hdescb2
        have hpasb2 : passages sb =
            insert ((col, row), (col, row + 1)) (passages s) := hpasb
        have hgtb : GrownTree (passages sb)
            (insert (col, row + 1) (vis sb)) := by
          rw [hpasb2, hvisb]
          exact GrownTree.growOut (col, row) (col, row + 1) hgt hpv hxnv
        have hub : unvis sb ≤ k + 1 := by
          have h1 := vis_card_add_unvis s
          have h2 := vis_card_add_unvis sb
          rw [allPos_eq_of_dims hdimsb, hvisb] at h2
          omega
        obtain ⟨sc, g3, hinner⟩ := Tc n2 sb (Rng.tail g) col (row + 1) hwfb
          ((inB_iff_of_dims hdimsb _).mpr hxin) (hconsb hcons) hgtb
          (by rw [hvisb]; exact hxnv) hub (by omega)
        have hpost := (carve_spec n2).1 sb (Rng.tail g) col (row + 1) sc g3
          hinner hwfb ((inB_iff_of_dims hdimsb _).mpr hxin) (hconsb hcons) hgtb
        obtain ⟨dd, ww, cc, gg, vv, mm, bb, nn2, ff⟩ := hpost
        have hub2 : unvis sc ≤ k := by
          have hlt := unvis_lt_of_new dd vv mm (by rw [hvisb]; exact hxnv)
          omega
        obtain ⟨s2f, g2f, hfinal⟩ := IHloop n2 sc g3 col row ww
          ((inB_iff_of_dims (hdimsb.dtrans dd) _).mpr hp) cc gg
          (vv (by rw [hvisb]; exact hpv)) hub2 (by omega)
        refine ⟨s2f, g2f, ?_⟩
        rw [Maze.carve_loop]
        simp only [hpt]
        rw [if_neg hnil]
        simp only [hrc, d1, d2, d3, d4, breakPair_false, hb2, hinner]
        exact hfinal

/-! ### The allocation phase -/

/-- A freshly allocated and drawn cell: all walls up, not visited. -/
def freshCell (win : Bool) (c : Cell) : Prop :=
  c.has_left_wall = true ∧ c.has_right_wall = true ∧
  c.has_top_wall = true ∧ c.has_bottom_wall = true ∧
  c.visited = false ∧ c.win = win

theorem alloc_step_spec {s : MazeState} {col row : Int} {colL : List Cell}
    (h0 : 0 ≤ col) (hcol : s.cells[col.toNat]? = some colL)
    (hrow : row = (colL.length : Int)) :
    ∃ s', Maze.alloc_step s col row = .ok s' ∧
      DimsEq s s' ∧ s'.cells.length = s.cells.length ∧
      (∀ j, j ≠ col.toNat → s'.cells[j]? = s.cells[j]?) ∧
      ∃ newc, s'.cells[col.toNat]? = some (colL ++ [newc]) ∧
        freshCell s.win newc := by
  have hlen1 : col.toNat < s.cells.length := (List.getElem?_eq_some.mp hcol).1
  have hrow0 : 0 ≤ row := by rw [hrow]; positivity
  have hrowt : row.toNat = colL.length := by omega
  unfold Maze.alloc_step
  simp only [getListE_ok h0 hcol, setListE_ok (colL ++ [Cell.init s.win]) h0 hlen1]
  unfold Maze.draw_cell Maze.modifyCellE
  have hget2 : (s.cells.set col.toNat (colL ++ [Cell.init s.win]))[col.toNat]? =
      some (colL ++ [Cell.init s.win]) :=
    List.getElem?_set_eq_of_lt _ hlen1
  have hget3 : (colL ++ [Cell.init s.win])[row.toNat]? = some (Cell.init s.win) := by
    rw [hrowt]
    exact List.getElem?_concat_length _ _
  have hlen3 : row.toNat < (colL ++ [Cell.init s.win]).length := by
    rw [List.length_append]
    simp
    omega
  have hlen4 : col.toNat <
      (s.cells.set col.toNat (colL ++ [Cell.init s.win])).length := by
    rw [List.length_set]
    exact hlen1
  simp only [getListE_ok h0 hget2, getListE_ok hrow0 hget3,
    setListE_ok _ hrow0 hlen3, setListE_ok _ h0 hlen4]
  simp only [List.set_set]
  refine ⟨_, rfl, ⟨rfl, rfl, rfl, rfl, rfl, rfl, rfl⟩, ?_, ?_, ?_⟩
  · show (s.cells.set _ _).length = _
    rw [List.length_set]
  · intro j hj
    show (s.cells.set _ _)[j]? = _
    rw [List.getElem?_set_ne (fun h => hj h.symm)]
  · refine ⟨Cell.draw (Cell.init s.win)
      (s.x1 + s.cell_size_x * col) (s.y1 + s.cell_size_y * row)
      (s.x1 + s.cell_size_x * col + s.cell_size_x)
      (s.y1 + s.cell_size_y * row + s.cell_size_y), ?_, ?_⟩
    · show (s.cells.set col.toNat ((colL ++ [Cell.init s.win]).set row.toNat _))[col.toNat]? = _
      rw [List.getElem?_set_eq_of_lt _ hlen1, hrowt,
        List.set_append_right _ _ (le_refl _)]
      simp
    · unfold freshCell Cell.draw Cell.init
      by_cases hwin : s.win = false
      · simp [hwin]
      · have hb : s.win = true := by
          cases hb2 : s.win
          · exact absurd hb2 hwin
          · rfl
        simp [hb]

theorem alloc_rows_spec : ∀ (k r0 : Nat) (s : MazeState) (col : Int)
    (colL : List Cell), 0 ≤ col → s.cells[col.toNat]? = some colL →
    colL.length = r0 →
    ∃ s', Maze.alloc_rows s col (List.range' r0 k) = .ok s' ∧
      DimsEq s s' ∧ s'.cells.length = s.cells.length ∧
      (∀ j, j ≠ col.toNat → s'.cells[j]? = s.cells[j]?) ∧
      ∃ ext, s'.cells[col.toNat]? = some (colL ++ ext) ∧ ext.length = k ∧
        ∀ c ∈ ext, freshCell s.win c := by
  intro k
  induction k with
  | zero =>
    intro r0 s col colL h0 hcol hlen
    refine ⟨s, rfl, DimsEq.drefl s, rfl, fun j _ => rfl, [], by simp [hcol],
      rfl, fun c hc => absurd hc (List.not_mem_nil c)⟩
  | succ k IHk =>
    intro r0 s col colL h0 hcol hlen
    rw [List.range'_succ]
    obtain ⟨s1, hstep, hdims1, hlen1, hother1, newc, hcol1, hfresh1⟩ :=
      @alloc_step_spec s col (r0 : Int) colL h0 hcol (by rw [hlen])
    obtain ⟨s2, hrest, hdims2, hlen2, hother2, ext, hcol2, hlenext, hfresh2⟩ :=
      IHk (r0 + 1) s1 col (colL ++ [newc]) h0 hcol1
        (by rw [List.length_append]; simp; omega)
    refine ⟨s2, ?_, hdims1.dtrans hdims2, by rw [hlen2, hlen1], ?_,
      newc :: ext, ?_, by simp [hlenext], ?_⟩
    · show Maze.alloc_rows s col ((r0 : Nat) :: List.range' (r0 + 1) k) = .ok s2
      rw [Maze.alloc_rows]
      simp only [hstep]
      exact hrest
    · intro j hj
      rw [hother2 j hj, hother1 j hj]
    · rw [hcol2, List.append_assoc]
      rfl
    · intro c hc
      rcases List.mem_cons.mp hc with rfl | hc2
      · exact hfresh1
      · have hf := hfresh2 c hc2
        rw [hdims1.2.2.1] at hf
        exact hf

theorem alloc_cols_spec : ∀ (k c : Nat) (s : MazeState) (m : Nat),
    (∀ j, c ≤ j → j < c + k → s.cells[j]? = some []) →
    ∃ s', Maze.alloc_cols s m (List.range' c k) = .ok s' ∧
      DimsEq s s' ∧ s'.cells.length = s.cells.length ∧
      (∀ j, j < c → s'.cells[j]? = s.cells[j]?) ∧
      (∀ j, c ≤ j → j < c + k → ∃ colL, s'.cells[j]? = some colL ∧
        colL.length = m ∧ ∀ cc ∈ colL, freshCell s.win cc) := by
  intro k
  induction k with
  | zero =>
    intro c s m hempty
    exact ⟨s, rfl, DimsEq.drefl s, rfl, fun j _ => rfl,
      fun j h1 h2 => absurd h2 (by omega)⟩
  | succ k IHk =>
    intro c s m hempty
    rw [List.range'_succ]
    have hc0 : (0 : Int) ≤ (c : Int) := by positivity
    have hcol : s.cells[(c : Int).toNat]? = some [] := by
      rw [Int.toNat_natCast]
      exact hempty c (le_refl c) (by omega)
    obtain ⟨s1, hrows, hdims1, hlen1, hother1, ext, hcol1, hlenext, hfresh1⟩ :=
      alloc_rows_spec m 0 s (c : Int) [] hc0 hcol rfl
    obtain ⟨s2, hrest, hdims2, hlen2, hother2, hdone2⟩ :=
      IHk (c + 1) s1 m (fun j h1 h2 => by
        rw [hother1 j (by rw [Int.toNat_natCast]; omega)]
        exact hempty j (by omega) (by omega))
    refine ⟨s2, ?_, hdims1.dtrans hdims2, by rw [hlen2, hlen1], ?_, ?_⟩
    · show Maze.alloc_cols s m ((c : Nat) :: List.range' (c + 1) k) = .ok s2
      rw [Maze.alloc_cols]
      have hrows2 : Maze.alloc_rows s (c : Int) (List.range m) = .ok s1 := by
        rw [List.range_eq_range']
        exact hrows
      simp only [hrows2]
      exact hrest
    · intro j hj
      rw [hother2 j (by omega), hother1 j (by rw [Int.toNat_natCast]; omega)]
    · intro j h1 h2
      by_cases hjc : j = c
      · subst hjc
        refine ⟨ext, ?_, hlenext, hfresh1⟩
        rw [hother2 j (by omega)]
        rw [Int.toNat_natCast] at hcol1
        simpa using hcol1
      · obtain ⟨colL, hcolL, hlenL, hfreshL⟩ := hdone2 j (by omega) (by omega)
        refine ⟨colL, hcolL, hlenL, ?_⟩
        intro cc hcc
        have hf := hfreshL cc hcc
        rw [hdims1.2.2.1] at hf
        exact hf

/-- The allocation phase of `_create_cells` produces a wellformed
matrix of fresh cells: all walls present, nothing visited. -/
theorem allocPhase_spec (s0 : MazeState) :
    ∃ s1, Maze.allocPhase s0 = .ok s1 ∧ DimsEq s0 s1 ∧ WF s1 ∧
      ∀ q, inB s1 q → freshCell s0.win (cellAt s1 q) := by
  obtain ⟨s1, hrun, hdims, hlen, hlow, hdone⟩ :=
    alloc_cols_spec s0.num_cols.toNat 0
      { s0 with cells := List.replicate s0.num_cols.toNat [] }
      s0.num_rows.toNat
      (fun j h1 h2 => by
        show (List.replicate s0.num_cols.toNat ([] : List Cell))[j]? = some []
        rw [List.getElem?_replicate, if_pos (by omega)])
  have hdims0 : DimsEq s0
      { s0 with cells := List.replicate s0.num_cols.toNat [] } :=
    ⟨rfl, rfl, rfl, rfl, rfl, rfl, rfl⟩
  have hlenrep : s1.cells.length = s0.num_cols.toNat := by
    rw [hlen]
    show (List.replicate _ _).length = _
    rw [List.length_replicate]
  have hcols : s1.num_cols = s0.num_cols := hdims.2.1
  have hrows : s1.num_rows = s0.num_rows := hdims.1
  refine ⟨s1, ?_, hdims0.dtrans hdims, ?_, ?_⟩
  · unfold Maze.allocPhase
    rw [List.range_eq_range']
    exact hrun
  · constructor
    · rw [hlenrep, hcols]
    · intro colL hmem
      obtain ⟨i, hi, hieq⟩ := List.mem_iff_getElem.mp hmem
      have hi2 : i < s0.num_cols.toNat := by omega
      obtain ⟨colL2, hc2, hlen2, -⟩ := hdone i (by omega) (by omega)
      rw [List.getElem?_eq_getElem hi, hieq] at hc2
      have : colL = colL2 := Option.some_injective _ hc2
      rw [this, hlen2, hrows]
  · intro q hq
    obtain ⟨hq1, hq2, hq3, hq4⟩ := hq
    rw [hcols] at hq2
    rw [hrows] at hq4
    obtain ⟨colL, hc, hlenL, hfresh⟩ := hdone q.1.toNat (by omega) (by omega)
    have hq5 : q.2.toNat < colL.length := by rw [hlenL]; omega
    have hcell : cellAt s1 q = colL[q.2.toNat] := by
      unfold cellAt
      rw [hc]
      simp [List.getElem?_eq_getElem hq5]
    rw [hcell]
    exact hfresh _ (List.getElem_mem hq5)

/-! ### Fresh states, entrance/exit, reset, coverage -/

theorem vis_empty_of_unvisited {s : MazeState}
    (h : ∀ q, inB s q → (cellAt s q).visited = false) : vis s = ∅ := by
  ext q
  rw [mem_vis]
  simp only [Finset.not_mem_empty, iff_false]
  rintro ⟨hq, hv⟩
  rw [h q hq] at hv
  cases hv

theorem passages_empty_of_fresh {s : MazeState}
    (h : ∀ q, inB s q → freshCell s.win (cellAt s q) ∨
      (cellAt s q).has_right_wall = true ∧ (cellAt s q).has_left_wall = true ∧
      (cellAt s q).has_top_wall = true ∧ (cellAt s q).has_bottom_wall = true) :
    passages s = ∅ := by
  ext e
  rw [mem_passages]
  simp only [Finset.not_mem_empty, iff_false]
  intro ho
  rcases ho with ⟨-, hor⟩ | ⟨-, hod⟩
  · obtain ⟨h1, h2, h3, -⟩ := hor
    rcases h (e.1) h1 with hf | hw
    · rw [hf.2.1] at h3
      cases h3
    · rw [hw.1] at h3
      cases h3
  · obtain ⟨h1, h2, h3, -⟩ := hod
    rcases h (e.1) h1 with hf | hw
    · rw [hf.2.2.2.1] at h3
      cases h3
    · rw [hw.2.2.2] at h3
      cases h3

theorem Consistent_of_all_walls {s : MazeState}
    (h : ∀ q, inB s q → (cellAt s q).has_right_wall = true ∧
      (cellAt s q).has_left_wall = true ∧ (cellAt s q).has_top_wall = true ∧
      (cellAt s q).has_bottom_wall = true) : Consistent s := by
  intro p hp
  rw [mem_allPos] at hp
  constructor
  · intro hnb
    rw [(h p hp).1, (h _ hnb).2.1]
  · intro hnb
    rw [(h p hp).2.2.2, (h _ hnb).2.2.1]

theorem allPos_card (s : MazeState) :
    (allPos s).card = s.num_cols.toNat * s.num_rows.toNat := by
  unfold allPos
  rw [Finset.card_image_of_injective _ (fun a b hab => by
    rw [Prod.mk.injEq] at hab
    exact Prod.ext_iff.mpr ⟨by exact_mod_cast hab.1, by exact_mod_cast hab.2⟩)]
  rw [Finset.card_product, Finset.card_range, Finset.card_range]

/-- `_break_entrance_and_exit`: pointwise description. -/
theorem break_entrance_spec {s : MazeState} (hwf : WF s)
    (h1 : 0 < s.num_cols) (h2 : 0 < s.num_rows) :
    ∃ s2, Maze.break_entrance_and_exit s = .ok s2 ∧ DimsEq s s2 ∧ WF s2 ∧
      ∀ q, inB s q → cellLogicEq (cellAt s2 q)
        (if q = (s.num_cols - 1, s.num_rows - 1) then
          wallClear "right" (if q = (0, 0) then wallClear "left" (cellAt s q)
            else cellAt s q)
         else (if q = (0, 0) then wallClear "left" (cellAt s q)
            else cellAt s q)) := by
  have hp0 : inB s (0, 0) := ⟨le_refl 0, h1, le_refl 0, h2⟩
  obtain ⟨s1, hrun1, hdims1, hwf1, hdesc1⟩ :=
    break_wall_spec (p := ((0 : Int), (0 : Int))) "left" hwf hp0
  have hpe : inB s1 (s.num_cols - 1, s.num_rows - 1) := by
    rw [inB_iff_of_dims hdims1]
    exact ⟨by omega, by omega, by omega, by omega⟩
  obtain ⟨s2, hrun2, hdims2, hwf2, hdesc2⟩ :=
    break_wall_spec (p := (s.num_cols - 1, s.num_rows - 1)) "right" hwf1 hpe
  refine ⟨s2, ?_, hdims1.dtrans hdims2, hwf2, ?_⟩
  · unfold Maze.break_entrance_and_exit
    have hrun1a : Maze.break_wall s 0 0 "left" = .ok s1 := hrun1
    simp only [hrun1a]
    have hrun2a : Maze.break_wall s1 (s1.num_cols - 1) (s1.num_rows - 1)
        "right" = .ok s2 := by
      rw [hdims1.2.1, hdims1.1]
      exact hrun2
    exact hrun2a
  · intro q hq
    have hq1 : inB s1 q := (inB_iff_of_dims hdims1 q).mpr hq
    have hd2 := hdesc2 q hq1
    have hd1 := hdesc1 q hq
    by_cases hqe : q = (s.num_cols - 1, s.num_rows - 1)
    · rw [if_pos hqe] at hd2 ⊢
      refine hd2.ltrans (wallClear_congr _ ?_)
      by_cases hq0 : q = (0, 0)
      · rw [if_pos hq0] at hd1 ⊢
        exact hd1
      · rw [if_neg hq0] at hd1 ⊢
        exact hd1
    · rw [if_neg hqe] at hd2 ⊢
      refine hd2.ltrans ?_
      by_cases hq0 : q = (0, 0)
      · rw [if_pos hq0] at hd1 ⊢
        exact hd1
      · rw [if_neg hq0] at hd1 ⊢
        exact hd1

/-- `_reset_cells_visited`: pointwise description. -/
theorem reset_spec (s : MazeState) :
    DimsEq s (Maze.reset_cells_visited s) ∧
      (WF s → WF (Maze.reset_cells_visited s)) ∧
      ∀ q, inB s q → WF s →
        cellAt (Maze.reset_cells_visited s) q =
          { cellAt s q with visited := false } := by
  refine ⟨⟨rfl, rfl, rfl, rfl, rfl, rfl, rfl⟩, ?_, ?_⟩
  · intro hwf
    constructor
    · show (s.cells.map _).length = _
      rw [List.length_map]
      exact hwf.1
    · intro colL hmem
      have hmem2 : colL ∈ s.cells.map
          (fun colL => colL.map (fun c => { c with visited := false })) := hmem
      rw [List.mem_map] at hmem2
      obtain ⟨colL0, hmem0, rfl⟩ := hmem2
      rw [List.length_map]
      exact hwf.2 _ hmem0
  · intro q hq hwf
    obtain ⟨colL, hcol, hcell⟩ := cellAt_get hwf hq
    have h1 : (Maze.reset_cells_visited s).cells[q.1.toNat]? =
        some (colL.map (fun c => { c with visited := false })) := by
      show (s.cells.map _)[q.1.toNat]? = _
      rw [List.getElem?_map, hcol]
      rfl
    have h2 : (colL.map (fun c => { c with visited := false }))[q.2.toNat]? =
        some { cellAt s q with visited := false } := by
      rw [List.getElem?_map, hcell]
      rfl
    show ((Maze.reset_cells_visited s).cells[q.1.toNat]?.bind
      (fun colL => colL[q.2.toNat]?)).getD {} = _
    rw [h1, Option.some_bind, h2]
    rfl

/-- Coverage: a nonempty neighbor-closed visited set over a grid with a
member contains every in-bounds position. -/
theorem vis_full {s2 : MazeState} {start : Pos} (hstartB : inB s2 start)
    (hstart : start ∈ vis s2)
    (hclosed : ∀ w ∈ vis s2, ∀ x, inB s2 x → nbhd w x → x ∈ vis s2) :
    ∀ p, inB s2 p → p ∈ vis s2 := by
  obtain ⟨hs1, hs2, hs3, hs4⟩ := hstartB
  have main : ∀ d : Nat, ∀ p, inB s2 p →
      (p.1 - start.1).natAbs + (p.2 - start.2).natAbs = d → p ∈ vis s2 := by
    intro d
    induction d using Nat.strong_induction_on with
    | _ d IH =>
      rintro p ⟨hp1, hp2, hp3, hp4⟩ hd
      have hp : inB s2 p := ⟨hp1, hp2, hp3, hp4⟩
      by_cases hc1 : p.1 = start.1
      · by_cases hc2 : p.2 = start.2
        · have : p = start := Prod.ext_iff.mpr ⟨hc1, hc2⟩
          rw [this]
          exact hstart
        · by_cases hlt : start.2 < p.2
          · have hq : inB s2 (p.1, p.2 - 1) :=
              ⟨hp.1, hp.2.1, by omega, by omega⟩
            have hqv : (p.1, p.2 - 1) ∈ vis s2 :=
              IH ((p.1 - start.1).natAbs + (p.2 - 1 - start.2).natAbs)
                (by omega) _ hq rfl
            refine hclosed _ hqv p hp ?_
            right; right; right
            exact Prod.ext_iff.mpr ⟨rfl, by omega⟩
          · have hq : inB s2 (p.1, p.2 + 1) :=
              ⟨hp.1, hp.2.1, by omega, by omega⟩
            have hqv : (p.1, p.2 + 1) ∈ vis s2 :=
              IH ((p.1 - start.1).natAbs + (p.2 + 1 - start.2).natAbs)
                (by omega) _ hq rfl
            refine hclosed _ hqv p hp ?_
            right; right; left
            exact Prod.ext_iff.mpr ⟨rfl, by omega⟩
      · by_cases hlt : start.1 < p.1
        · have hq : inB s2 (p.1 - 1, p.2) :=
            ⟨by omega, by omega, hp.2.2.1, hp.2.2.2⟩
          have hqv : (p.1 - 1, p.2) ∈ vis s2 :=
            IH ((p.1 - 1 - start.1).natAbs + (p.2 - start.2).natAbs)
              (by omega) _ hq rfl
          refine hclosed _ hqv p hp ?_
          right; left
          exact Prod.ext_iff.mpr ⟨by omega, rfl⟩
        · have hq : inB s2 (p.1 + 1, p.2) :=
            ⟨by omega, by omega, hp.2.2.1, hp.2.2.2⟩
          have hqv : (p.1 + 1, p.2) ∈ vis s2 :=
            IH ((p.1 + 1 - start.1).natAbs + (p.2 - start.2).natAbs)
              (by omega) _ hq rfl
          refine hclosed _ hqv p hp ?_
          left
          exact Prod.ext_iff.mpr ⟨by omega, rfl⟩
  intro p hp
  exact main _ p hp rfl

/-! ### Preservation of the per-cell window flag -/

theorem nbhd_ne {p x : Pos} (h : nbhd p x) : x ≠ p := by
  rcases h with rfl | rfl | rfl | rfl
  · intro hEq
    have h1 : p.1 - 1 = p.1 := congrArg Prod.fst hEq
    omega
  · intro hEq
    have h1 : p.1 + 1 = p.1 := congrArg Prod.fst hEq
    omega
  · intro hEq
    have h1 : p.2 - 1 = p.2 := congrArg Prod.snd hEq
    omega
  · intro hEq
    have h1 : p.2 + 1 = p.2 := congrArg Prod.snd hEq
    omega

theorem wallClear_win (w : String) (c : Cell) :
    (wallClear w c).win = c.win := by
  unfold wallClear
  split_ifs <;> rfl

/-- The operations of the generator keep the dimensions, wellformedness
and every cell's window flag; the solver's `ValueError` analysis needs
only this much about the generated state. -/
def WinKeep (s t : MazeState) : Prop :=
  DimsEq s t ∧ WF t ∧ ∀ q, inB s q → (cellAt t q).win = (cellAt s q).win

theorem WinKeep.krefl {s : MazeState} (hwf : WF s) : WinKeep s s :=
  ⟨DimsEq.drefl s, hwf, fun _ _ => rfl⟩

theorem WinKeep.ktrans {s t u : MazeState} (h1 : WinKeep s t)
    (h2 : WinKeep t u) : WinKeep s u := by
  obtain ⟨d1, w1, f1⟩ := h1
  obtain ⟨d2, w2, f2⟩ := h2
  exact ⟨d1.dtrans d2, w2, fun q hq =>
    (f2 q ((inB_iff_of_dims d1 q).mpr hq)).trans (f1 q hq)⟩

theorem breakPair_keep {s : MazeState} {p x : Pos} (cond : Bool)
    (w1 w2 : String) (hwf : WF s) (hp : inB s p) (hx : inB s x)
    (hne : x ≠ p) :
    ∃ s2, Maze.breakPair s cond p.1 p.2 x.1 x.2 w1 w2 = .ok s2 ∧
      WinKeep s s2 := by
  cases cond with
  | false =>
    exact ⟨s, breakPair_false s p.1 p.2 x.1 x.2 w1 w2, WinKeep.krefl hwf⟩
  | true =>
    obtain ⟨s2, hrun, hdims, hwf2, hdesc⟩ :=
      breakPair_true_spec w1 w2 hwf hp hx hne
    refine ⟨s2, hrun, hdims, hwf2, ?_⟩
    intro q hq
    have hd := hdesc q hq
    split_ifs at hd
    · exact hd.2.2.2.2.2.trans (wallClear_win w1 _)
    · exact hd.2.2.2.2.2.trans (wallClear_win w2 _)
    · exact hd.2.2.2.2.2

/-- The carving recursion never touches a cell's window flag. -/
theorem carve_win : ∀ n : Nat,
    (∀ s g col row s2 g2,
      Maze.break_walls_r n s g col row = .ok (s2, g2) → WF s →
      inB s (col, row) → WinKeep s s2) ∧
    (∀ s g col row s2 g2,
      Maze.carve_loop n s g col row = .ok (s2, g2) → WF s →
      inB s (col, row) → WinKeep s s2) := by
  intro n
  induction n with
  | zero =>
    constructor
    · intro s g col row s2 g2 hrun
      rw [Maze.break_walls_r] at hrun
      cases hrun
    · intro s g col row s2 g2 hrun
      rw [Maze.carve_loop] at hrun
      cases hrun
  | succ n IH =>
    obtain ⟨IHr, IHloop⟩ := IH
    constructor
    · intro s g col row s2 g2 hrun hwf hp
      rw [Maze.break_walls_r] at hrun
      have hmk : Maze.markVisitedE s col row =
          .ok (updCell s (col, row) (fun c => { c with visited := true })) :=
        markVisitedE_ok hwf hp
      rw [hmk] at hrun
      have hwf1 := updCell_WF (fun c => { c with visited := true }) hwf hp
      have hdims1 := updCell_dims s (col, row)
        (fun c => { c with visited := true })
      have hk1 : WinKeep s
          (updCell s (col, row) (fun c => { c with visited := true })) := by
        refine ⟨hdims1, hwf1, ?_⟩
        intro q hq
        by_cases hqp : q = (col, row)
        · subst hqp
          rw [cellAt_updCell_same _ hwf hp]
        · rw [cellAt_updCell_other _ hwf hp hq hqp]
      exact hk1.ktrans (IHloop _ g col row s2 g2 hrun hwf1
        ((inB_iff_of_dims hdims1 _).mpr hp))
    · intro s g col row s2 g2 hrun hwf hp
      rw [Maze.carve_loop] at hrun
      have hpt : Maze.possibleToVisit s col row =
          .ok (candList s (col, row)) := possibleToVisit_ok hwf hp
      simp only [hpt] at hrun
      by_cases hnil : (candList s (col, row)).length = 0
      · rw [if_pos hnil] at hrun
        rw [Except.ok.injEq, Prod.mk.injEq] at hrun
        obtain ⟨rfl, rfl⟩ := hrun
        exact WinKeep.krefl hwf
      · rw [if_neg hnil] at hrun
        have hne2 : candList s (col, row) ≠ [] := by
          intro h
          rw [h] at hnil
          exact hnil rfl
        obtain ⟨⟨nc, nr⟩, hrc, hmem⟩ := randomChoice_ok g _ hne2
        simp only [hrc] at hrun
        obtain ⟨hxin, hxunvis, hnb⟩ := candList_mem hp hmem
        have hxne : (nc, nr) ≠ (col, row) := nbhd_ne hnb
        obtain ⟨sb, hb, hkb⟩ := breakPair_keep (s := s) (p := (col, row))
          (x := (nc, nr)) (decide (col < nc)) "right" "left" hwf hp hxin hxne
        have hb2 : Maze.breakPair s (decide (col < nc)) col row nc nr
            "right" "left" = .ok sb := hb
        simp only [hb2] at hrun
        have hwfb := hkb.2.1
        have hpb : inB sb (col, row) := (inB_iff_of_dims hkb.1 _).mpr hp
        have hxb : inB sb (nc, nr) := (inB_iff_of_dims hkb.1 _).mpr hxin
        obtain ⟨sc, hc2, hkc⟩ := breakPair_keep (s := sb) (p := (col, row))
          (x := (nc, nr)) (decide (col > nc)) "left" "right" hwfb hpb hxb hxne
        have hc3 : Maze.breakPair sb (decide (col > nc)) col row nc nr
            "left" "right" = .ok sc := hc2
        simp only [hc3] at hrun
        have hwfc := hkc.2.1
        have hpc : inB sc (col, row) := (inB_iff_of_dims hkc.1 _).mpr hpb
        have hxc : inB sc (nc, nr) := (inB_iff_of_dims hkc.1 _).mpr hxb
        obtain ⟨sd, hd2, hkd⟩ := breakPair_keep (s := sc) (p := (col, row))
          (x := (nc, nr)) (decide (row < nr)) "bottom" "top" hwfc hpc hxc hxne
        have hd3 : Maze.breakPair sc (decide (row < nr)) col row nc nr
            "bottom" "top" = .ok sd := hd2
        simp only [hd3] at hrun
        have hwfd := hkd.2.1
        have hpd : inB sd (col, row) := (inB_iff_of_dims hkd.1 _).mpr hpc
        have hxd : inB sd (nc, nr) := (inB_iff_of_dims hkd.1 _).mpr hxc
        obtain ⟨se, he2, hke⟩ := breakPair_keep (s := sd) (p := (col, row))
          (x := (nc, nr)) (decide (row > nr)) "top" "bottom" hwfd hpd hxd hxne
        have he3 : Maze.breakPair sd (decide (row > nr)) col row nc nr
            "top" "bottom" = .ok se := he2
        simp only [he3] at hrun
        have hwfe := hke.2.1
        have hpe : inB se (col, row) := (inB_iff_of_dims hke.1 _).mpr hpd
        have hxe : inB se (nc, nr) := (inB_iff_of_dims hke.1 _).mpr hxd
        cases hinner : Maze.break_walls_r n se (Rng.tail g) nc nr with
        | error e =>
          rw [hinner] at hrun
          cases hrun
        | ok pr =>
          obtain ⟨sf, g3⟩ := pr
          rw [hinner] at hrun
          have hrun2 : Maze.carve_loop n sf g3 col row = .ok (s2, g2) := hrun
          have hkf := IHr se (Rng.tail g) nc nr sf g3 hinner hwfe hxe
          have hkl := IHloop sf g3 col row s2 g2 hrun2 hkf.2.1
            ((inB_iff_of_dims hkf.1 _).mpr hpe)
          exact ((((hkb.ktrans hkc).ktrans hkd).ktrans hke).ktrans hkf).ktrans hkl

/-! ### Full construction -/

/-- Everything `Maze.__init__` guarantees on positive dimensions: it
succeeds with the canonical fuel, the state is wellformed with the
requested dimensions, walls are mutually consistent, the interior
passages form a grown tree spanning all cells, every `visited` flag is
reset, the entrance and exit walls are open, and every other boundary
wall is still up. -/
theorem init_spec (x1 y1 rows cols sx sy : Int) (win : Bool) (g : Rng)
    (hr : 0 < rows) (hc : 0 < cols) :
    ∃ s gf, Maze.init x1 y1 rows cols sx sy win g
        (Maze.carveFuel rows cols) = .ok (s, gf) ∧
      s.num_rows = rows ∧ s.num_cols = cols ∧ s.win = win ∧ WF s ∧
      Consistent s ∧ GrownTree (passages s) (allPos s) ∧
      (∀ q, inB s q → (cellAt s q).visited = false) ∧
      (∀ q, inB s q → (cellAt s q).win = win) ∧
      (cellAt s (0, 0)).has_left_wall = false ∧
      (cellAt s (cols - 1, rows - 1)).has_right_wall = false ∧
      (∀ q, inB s q →
        (q.1 = 0 → q ≠ (0, 0) → (cellAt s q).has_left_wall = true) ∧
        (q.1 = cols - 1 → q ≠ (cols - 1, rows - 1) →
          (cellAt s q).has_right_wall = true) ∧
        (q.2 = 0 → (cellAt s q).has_top_wall = true) ∧
        (q.2 = rows - 1 → (cellAt s q).has_bottom_wall = true)) := by
  obtain ⟨sa, hruna, hdimsa, hwfa, hfresha⟩ := allocPhase_spec
    { x1 := x1, y1 := y1, num_rows := rows, num_cols := cols,
      cell_size_x := sx, cell_size_y := sy, win := win, cells := [] }
  have hcolsa : sa.num_cols = cols := hdimsa.2.1
  have hrowsa : sa.num_rows = rows := hdimsa.1
  have hwina : sa.win = win := hdimsa.2.2.1
  have hwalls_a : ∀ q, inB sa q → (cellAt sa q).has_right_wall = true ∧
      (cellAt sa q).has_left_wall = true ∧ (cellAt sa q).has_top_wall = true ∧
      (cellAt sa q).has_bottom_wall = true := by
    intro q hq
    obtain ⟨f1, f2, f3, f4, f5, f6⟩ := hfresha q hq
    exact ⟨f2, f1, f3, f4⟩
  have hvis_a : ∀ q, inB sa q → (cellAt sa q).visited = false :=
    fun q hq => (hfresha q hq).2.2.2.2.1
  -- entrance and exit
  obtain ⟨sb, hrunb, hdimsb, hwfb, hdescb⟩ :=
    break_entrance_spec hwfa (by omega) (by omega)
  have hdims_ab : DimsEq sa sb := hdimsb
  have hcolsb : sb.num_cols = cols := by rw [hdimsb.2.1, hcolsa]
  have hrowsb : sb.num_rows = rows := by rw [hdimsb.1, hrowsa]
  -- per-flag description of sb
  have hsb_left : ∀ q, inB sa q → (cellAt sb q).has_left_wall =
      (if q = (0, 0) then false else (cellAt sa q).has_left_wall) := by
    intro q hq
    have hd := hdescb q hq
    by_cases he : q = (sa.num_cols - 1, sa.num_rows - 1)
    · rw [if_pos he] at hd
      rw [hd.1, wallClear_right]
      by_cases h0 : q = (0, 0)
      · rw [if_pos h0, if_pos h0, wallClear_left]
      · rw [if_neg h0, if_neg h0]
    · rw [if_neg he] at hd
      rw [hd.1]
      by_cases h0 : q = (0, 0)
      · rw [if_pos h0, if_pos h0, wallClear_left]
      · rw [if_neg h0, if_neg h0]
  have hsb_right : ∀ q, inB sa q → (cellAt sb q).has_right_wall =
      (if q = (sa.num_cols - 1, sa.num_rows - 1) then false
       else (cellAt sa q).has_right_wall) := by
    intro q hq
    have hd := hdescb q hq
    by_cases he : q = (sa.num_cols - 1, sa.num_rows - 1)
    · rw [if_pos he] at hd
      rw [hd.2.1, wallClear_right, if_pos he]
    · rw [if_neg he] at hd
      rw [hd.2.1, if_neg he]
      by_cases h0 : q = (0, 0)
      · rw [if_pos h0, wallClear_left]
      · rw [if_neg h0]
  have hsb_top : ∀ q, inB sa q →
      (cellAt sb q).has_top_wall = (cellAt sa q).has_top_wall := by
    intro q hq
    have hd := hdescb q hq
    split_ifs at hd
    · rw [hd.2.2.1, wallClear_right, wallClear_left]
    · rw [hd.2.2.1, wallClear_right]
    · rw [hd.2.2.1, wallClear_left]
    · rw [hd.2.2.1]
  have hsb_bottom : ∀ q, inB sa q →
      (cellAt sb q).has_bottom_wall = (cellAt sa q).has_bottom_wall := by
    intro q hq
    have hd := hdescb q hq
    split_ifs at hd
    · rw [hd.2.2.2.1, wallClear_right, wallClear_left]
    · rw [hd.2.2.2.1, wallClear_right]
    · rw [hd.2.2.2.1, wallClear_left]
    · rw [hd.2.2.2.1]
  have hsb_vis : ∀ q, inB sa q →
      (cellAt sb q).visited = (cellAt sa q).visited := by
    intro q hq
    have hd := hdescb q hq
    split_ifs at hd
    · rw [hd.2.2.2.2.1, wallClear_right, wallClear_left]
    · rw [hd.2.2.2.2.1, wallClear_right]
    · rw [hd.2.2.2.2.1, wallClear_left]
    · rw [hd.2.2.2.2.1]
  have hvis_b : ∀ q, inB sb q → (cellAt sb q).visited = false := by
    intro q hq
    have hq2 : inB sa q := (inB_iff_of_dims hdims_ab q).mp hq
    rw [hsb_vis q hq2]
    exact hvis_a q hq2
  have hvisset_b : vis sb = ∅ := vis_empty_of_unvisited hvis_b
  have hpas_b : passages sb = ∅ := by
    ext e
    rw [mem_passages]
    simp only [Finset.not_mem_empty, iff_false]
    intro ho
    rcases ho with ⟨-, h1, h2, h3, -⟩ | ⟨-, h1, h2, h3, -⟩
    · have h1a : inB sa e.1 := (inB_iff_of_dims hdims_ab e.1).mp h1
      rw [hsb_right e.1 h1a] at h3
      by_cases he : e.1 = (sa.num_cols - 1, sa.num_rows - 1)
      · obtain ⟨-, hx2, -, -⟩ := h2
        have : e.1.1 = sa.num_cols - 1 := by rw [he]
        rw [hcolsb] at hx2
        omega
      · rw [if_neg he, (hwalls_a e.1 h1a).1] at h3
        cases h3
    · have h1a : inB sa e.1 := (inB_iff_of_dims hdims_ab e.1).mp h1
      rw [hsb_bottom e.1 h1a, (hwalls_a e.1 h1a).2.2.2] at h3
      cases h3
  have hcons_b : Consistent sb := by
    intro p hp
    rw [mem_allPos] at hp
    have hpa : inB sa p := (inB_iff_of_dims hdims_ab p).mp hp
    constructor
    · intro hnb
      have hnba : inB sa (p.1 + 1, p.2) := (inB_iff_of_dims hdims_ab _).mp hnb
      rw [hsb_right p hpa, hsb_left _ hnba]
      rw [if_neg, if_neg]
      · rw [(hwalls_a p hpa).1, (hwalls_a _ hnba).2.1]
      · intro hEq
        have : p.1 + 1 = 0 := congrArg Prod.fst hEq
        have := hpa.1
        omega
      · intro hEq
        have : p.1 = sa.num_cols - 1 := congrArg Prod.fst hEq
        have := hnba.2.1
        omega
    · intro hnb
      have hnba : inB sa (p.1, p.2 + 1) := (inB_iff_of_dims hdims_ab _).mp hnb
      rw [hsb_bottom p hpa, hsb_top _ hnba,
        (hwalls_a p hpa).2.2.2, (hwalls_a _ hnba).2.2.1]
  -- the carve
  have hstart : inB sb (sb.num_cols.fdiv 2, sb.num_rows.fdiv 2) := by
    have hdc : sb.num_cols.fdiv 2 = sb.num_cols / 2 :=
      Int.fdiv_eq_ediv _ (by omega)
    have hdr : sb.num_rows.fdiv 2 = sb.num_rows / 2 :=
      Int.fdiv_eq_ediv _ (by omega)
    refine ⟨?_, ?_, ?_, ?_⟩ <;> rw [hcolsb, hrowsb] at *
    · rw [hdc]; omega
    · rw [hdc]; omega
    · rw [hdr]; omega
    · rw [hdr]; omega
  have hstart_nv : (sb.num_cols.fdiv 2, sb.num_rows.fdiv 2) ∉ vis sb := by
    rw [hvisset_b]
    exact Finset.not_mem_empty _
  have hgt_b : GrownTree (passages sb)
      (insert (sb.num_cols.fdiv 2, sb.num_rows.fdiv 2) (vis sb)) := by
    rw [hpas_b, hvisset_b]
    exact GrownTree.single _
  have hufuel : 2 * unvis sb ≤ Maze.carveFuel rows cols := by
    have h1 : unvis sb ≤ (allPos sb).card := Finset.card_filter_le _ _
    have h2 := allPos_card sb
    rw [hcolsb, hrowsb] at h2
    have h3 : cols.toNat * rows.toNat = rows.toNat * cols.toNat :=
      Nat.mul_comm _ _
    unfold Maze.carveFuel
    omega
  obtain ⟨sc, gf, hcarve⟩ := (carve_total (unvis sb)).1
    (Maze.carveFuel rows cols) sb g _ _ hwfb hstart hcons_b hgt_b
    hstart_nv (le_refl _) hufuel
  have hpost := (carve_spec (Maze.carveFuel rows cols)).1 sb g _ _ sc gf
    hcarve hwfb hstart hcons_b hgt_b
  obtain ⟨dd, ww, cc, gg, vv, mm, bb, nn2, ff⟩ := hpost
  have hcolsc : sc.num_cols = cols := by rw [dd.2.1, hcolsb]
  have hrowsc : sc.num_rows = rows := by rw [dd.1, hrowsb]
  -- coverage
  have hclosed : ∀ w ∈ vis sc, ∀ x, inB sc x → nbhd w x → x ∈ vis sc := by
    intro w hw x hx hnb
    refine ff w hw ?_ x ((inB_iff_of_dims dd x).mp hx) hnb
    rw [hvisset_b]
    exact Finset.not_mem_empty _
  have hfull : vis sc = allPos sc := by
    ext q
    constructor
    · intro hq
      rw [mem_allPos]
      exact (mem_vis.mp hq).1
    · intro hq
      exact vis_full ((inB_iff_of_dims dd _).mpr hstart) mm hclosed q
        (mem_allPos.mp hq)
  -- reset
  obtain ⟨hdims_r, hwf_r, hcell_r⟩ := reset_spec sc
  have hwallsEq_r : ∀ q, inB sc q →
      cellWallsEq (cellAt (Maze.reset_cells_visited sc) q) (cellAt sc q) := by
    intro q hq
    rw [hcell_r q hq ww]
    exact ⟨rfl, rfl, rfl, rfl⟩
  have hpas_r : passages (Maze.reset_cells_visited sc) = passages sc :=
    passages_congrW hdims_r hwallsEq_r
  have hallPos_r : allPos (Maze.reset_cells_visited sc) = allPos sc :=
    allPos_eq_of_dims hdims_r
  refine ⟨Maze.reset_cells_visited sc, gf, ?_, ?_, ?_, ?_, hwf_r ww, ?_,
    ?_, ?_, ?_, ?_, ?_, ?_⟩
  · unfold Maze.init Maze.create_cells
    simp only [hruna]
    simp only [hrunb]
    simp only [hcarve]
  · rw [hdims_r.1, hrowsc]
  · rw [hdims_r.2.1, hcolsc]
  · rw [hdims_r.2.2.1, dd.2.2.1, hdimsb.2.2.1, hwina]
  · exact Consistent_congrW hdims_r hwallsEq_r cc
  · rw [hpas_r, hallPos_r, ← hfull]
    exact gg
  · intro q hq
    have hq2 : inB sc q := (inB_iff_of_dims hdims_r q).mp hq
    rw [hcell_r q hq2 ww]
  · -- window flags of the cells
    intro q hq
    have hq2 : inB sc q := (inB_iff_of_dims hdims_r q).mp hq
    have hqb : inB sb q := (inB_iff_of_dims dd q).mp hq2
    have hqa : inB sa q := (inB_iff_of_dims hdims_ab q).mp hqb
    rw [hcell_r q hq2 ww]
    show (cellAt sc q).win = win
    have hkc : WinKeep sb sc :=
      (carve_win (Maze.carveFuel rows cols)).1 sb g _ _ sc gf hcarve hwfb
        hstart
    rw [hkc.2.2 q hqb]
    have hfa : (cellAt sa q).win = win := (hfresha q hqa).2.2.2.2.2
    have hd := hdescb q hqa
    split_ifs at hd
    · exact hd.2.2.2.2.2.trans ((wallClear_win _ _).trans
        ((wallClear_win _ _).trans hfa))
    · exact hd.2.2.2.2.2.trans ((wallClear_win _ _).trans hfa)
    · exact hd.2.2.2.2.2.trans ((wallClear_win _ _).trans hfa)
    · exact hd.2.2.2.2.2.trans hfa
  · -- entrance
    have h00b : inB sb (0, 0) := by
      refine ⟨le_refl 0, ?_, le_refl 0, ?_⟩ <;> omega
    have h00a : inB sa (0, 0) := (inB_iff_of_dims hdims_ab _).mp h00b
    have hlb : (cellAt sb (0, 0)).has_left_wall = false := by
      rw [hsb_left _ h00a, if_pos rfl]
    have hlc : (cellAt sc (0, 0)).has_left_wall = false := by
      have := (bb (0, 0) h00b).1 rfl
      rw [this, hlb]
    have h00c : inB sc (0, 0) := (inB_iff_of_dims dd _).mpr h00b
    rw [hcell_r _ h00c ww]
    exact hlc
  · -- exit
    have hexb : inB sb (cols - 1, rows - 1) := by
      refine ⟨?_, ?_, ?_, ?_⟩ <;> omega
    have hexa : inB sa (cols - 1, rows - 1) := (inB_iff_of_dims hdims_ab _).mp hexb
    have hrb : (cellAt sb (cols - 1, rows - 1)).has_right_wall = false := by
      rw [hsb_right _ hexa, if_pos (by rw [hcolsa, hrowsa])]
    have hrc2 : (cellAt sc (cols - 1, rows - 1)).has_right_wall = false := by
      have := (bb (cols - 1, rows - 1) hexb).2.1 (by rw [hcolsb])
      rw [this, hrb]
    have hexc : inB sc (cols - 1, rows - 1) := (inB_iff_of_dims dd _).mpr hexb
    rw [hcell_r _ hexc ww]
    exact hrc2
  · -- other boundary walls are intact
    intro q hq
    have hqc : inB sc q := (inB_iff_of_dims hdims_r q).mp hq
    have hqb : inB sb q := (inB_iff_of_dims dd q).mp hqc
    have hqa : inB sa q := (inB_iff_of_dims hdims_ab q).mp hqb
    rw [hcell_r q hqc ww]
    obtain ⟨bb1, bb2, bb3, bb4⟩ := bb q hqb
    refine ⟨?_, ?_, ?_, ?_⟩
    · intro h0 hne
      show (cellAt sc q).has_left_wall = true
      rw [bb1 h0, hsb_left q hqa, if_neg hne]
      exact (hwalls_a q hqa).2.1
    · intro h0 hne
      show (cellAt sc q).has_right_wall = true
      rw [bb2 (by rw [hcolsb]; exact h0), hsb_right q hqa, if_neg
        (by rw [hcolsa, hrowsa]; exact hne)]
      exact (hwalls_a q hqa).1
    · intro h0
      show (cellAt sc q).has_top_wall = true
      rw [bb3 h0, hsb_top q hqa]
      exact (hwalls_a q hqa).2.2.1
    · intro h0
      show (cellAt sc q).has_bottom_wall = true
      rw [bb4 (by rw [hrowsb]; exact h0), hsb_bottom q hqa]
      exact (hwalls_a q hqa).2.2.2

/-! ### From grown trees to the passage graph: acyclicity and
connectivity -/

/-- Every passage of a grown spanning tree is a bridge of the passage
graph; by the bridge characterization the passage graph is acyclic. -/
theorem mazeGraph_acyclic {s : MazeState}
    (h : GrownTree (passages s) (allPos s)) : (mazeGraph s).IsAcyclic := by
  rw [SimpleGraph.isAcyclic_iff_forall_adj_isBridge]
  intro v w hadj
  rw [SimpleGraph.isBridge_iff]
  refine ⟨hadj, ?_⟩
  intro hreach
  rw [SimpleGraph.reachable_iff_reflTransGen] at hreach
  have hne2 : ∀ a b : Pos,
      ¬ (SimpleGraph.fromEdgeSet {Sym2.mk (v, w)}).Adj a b →
      (mazeGraph s).Adj a b → Sym2.mk (a, b) ≠ Sym2.mk (v, w) := by
    intro a b hna hG hs2
    exact hna ((SimpleGraph.fromEdgeSet_adj _).mpr
      ⟨by rw [hs2]; exact Set.mem_singleton _, hG.ne⟩)
  rcases mazeGraph_adj.mp hadj with hm | hm
  · have hmap : ∀ a b : Pos,
        (mazeGraph s \ SimpleGraph.fromEdgeSet {Sym2.mk (v, w)}).Adj a b →
        adjE ((passages s).erase (v, w)) a b := by
      intro a b hab
      rw [SimpleGraph.sdiff_adj] at hab
      obtain ⟨hG, hna⟩ := hab
      have hs2 := hne2 a b hna hG
      rcases mazeGraph_adj.mp hG with hm2 | hm2
      · refine Or.inl (Finset.mem_erase.mpr ⟨?_, hm2⟩)
        intro hEq
        exact hs2 (congrArg Sym2.mk hEq)
      · refine Or.inr (Finset.mem_erase.mpr ⟨?_, hm2⟩)
        intro hEq
        have h1 : b = v := congrArg Prod.fst hEq
        have h2 : a = w := congrArg Prod.snd hEq
        rw [h1, h2] at hs2
        exact hs2 Sym2.eq_swap
    exact h.bridge (v, w) hm (Relation.ReflTransGen.mono hmap hreach)
  · have hmap : ∀ a b : Pos,
        (mazeGraph s \ SimpleGraph.fromEdgeSet {Sym2.mk (v, w)}).Adj a b →
        adjE ((passages s).erase (w, v)) a b := by
      intro a b hab
      rw [SimpleGraph.sdiff_adj] at hab
      obtain ⟨hG, hna⟩ := hab
      have hs2 := hne2 a b hna hG
      rcases mazeGraph_adj.mp hG with hm2 | hm2
      · refine Or.inl (Finset.mem_erase.mpr ⟨?_, hm2⟩)
        intro hEq
        have h1 : a = w := congrArg Prod.fst hEq
        have h2 : b = v := congrArg Prod.snd hEq
        rw [h1, h2] at hs2
        exact hs2 Sym2.eq_swap
      · refine Or.inr (Finset.mem_erase.mpr ⟨?_, hm2⟩)
        intro hEq
        have h1 : b = w := congrArg Prod.fst hEq
        have h2 : a = v := congrArg Prod.snd hEq
        rw [h1, h2] at hs2
        exact hs2 rfl
    exact h.bridge (w, v) hm
      (ReachE_symm (Relation.ReflTransGen.mono hmap hreach))

/-- Any two cells are connected in the passage graph of a grown
spanning tree. -/
theorem mazeGraph_connected {s : MazeState}
    (h : GrownTree (passages s) (allPos s)) {a b : Pos}
    (ha : a ∈ allPos s) (hb : b ∈ allPos s) :
    (mazeGraph s).Reachable a b := by
  rw [SimpleGraph.reachable_iff_reflTransGen]
  refine Relation.ReflTransGen.mono ?_ (h.connected ha hb)
  intro x y hxy
  exact mazeGraph_adj.mpr hxy

/-! ### The solver: vocabulary -/

/-- Equality of everything except the `visited` flag: the solver never
mutates anything else in a cell. -/
def cellSolveEq (a b : Cell) : Prop :=
  a.has_left_wall = b.has_left_wall ∧ a.has_right_wall = b.has_right_wall ∧
  a.has_top_wall = b.has_top_wall ∧ a.has_bottom_wall = b.has_bottom_wall ∧
  a.x1 = b.x1 ∧ a.y1 = b.y1 ∧ a.x2 = b.x2 ∧ a.y2 = b.y2 ∧ a.win = b.win

theorem cellSolveEq.srefl (a : Cell) : cellSolveEq a a :=
  ⟨rfl, rfl, rfl, rfl, rfl, rfl, rfl, rfl, rfl⟩

theorem cellSolveEq.strans {a b c : Cell} (h1 : cellSolveEq a b)
    (h2 : cellSolveEq b c) : cellSolveEq a c := by
  obtain ⟨x1, x2, x3, x4, x5, x6, x7, x8, x9⟩ := h1
  obtain ⟨y1, y2, y3, y4, y5, y6, y7, y8, y9⟩ := h2
  exact ⟨x1.trans y1, x2.trans y2, x3.trans y3, x4.trans y4, x5.trans y5,
    x6.trans y6, x7.trans y7, x8.trans y8, x9.trans y9⟩

theorem cellSolveEq.swalls {a b : Cell} (h : cellSolveEq a b) :
    cellWallsEq a b :=
  ⟨h.1, h.2.1, h.2.2.1, h.2.2.2.1⟩

/-- Frame of a solver step: dimensions kept, wellformedness kept, every
cell changed at most in its `visited` flag, and `visited` flags only
ever set, never cleared. -/
def SFrame (s t : MazeState) : Prop :=
  DimsEq s t ∧ WF t ∧
  (∀ q, inB s q → cellSolveEq (cellAt t q) (cellAt s q)) ∧
  vis s ⊆ vis t

theorem SFrame.frefl {s : MazeState} (hwf : WF s) : SFrame s s :=
  ⟨DimsEq.drefl s, hwf, fun _ _ => cellSolveEq.srefl _, Finset.Subset.refl _⟩

theorem SFrame.ftrans {s t u : MazeState} (h1 : SFrame s t)
    (h2 : SFrame t u) : SFrame s u := by
  obtain ⟨d1, w1, f1, v1⟩ := h1
  obtain ⟨d2, w2, f2, v2⟩ := h2
  exact ⟨d1.dtrans d2, w2, fun q hq =>
    (f2 q ((inB_iff_of_dims d1 q).mpr hq)).strans (f1 q hq),
    Finset.Subset.trans v1 v2⟩

theorem SFrame.pas {s t : MazeState} (h : SFrame s t) :
    passages t = passages s :=
  passages_congrW h.1 (fun q hq => (h.2.2.1 q hq).swalls)

theorem SFrame.mark {s : MazeState} {p : Pos} (hwf : WF s) (hp : inB s p) :
    SFrame s (updCell s p (fun c => { c with visited := true })) := by
  refine ⟨updCell_dims s p _, updCell_WF _ hwf hp, ?_, ?_⟩
  · intro q hq
    by_cases hqp : q = p
    · subst hqp
      rw [cellAt_updCell_same _ hwf hp]
      exact ⟨rfl, rfl, rfl, rfl, rfl, rfl, rfl, rfl, rfl⟩
    · rw [cellAt_updCell_other _ hwf hp hq hqp]
      exact cellSolveEq.srefl _
  · rw [vis_mark hwf hp]
    exact Finset.subset_insert _ _

/-- No cell carries a window reference: the headless (test) setting in
which the drawing calls are silent. -/
def NoWin (s : MazeState) : Prop :=
  ∀ q, inB s q → (cellAt s q).win = false

theorem SFrame.nowin {s t : MazeState} (h : SFrame s t) (hn : NoWin s) :
    NoWin t := by
  intro q hq
  have hqs : inB s q := (inB_iff_of_dims h.1 q).mp hq
  rw [(h.2.2.1 q hqs).2.2.2.2.2.2.2.2]
  exact hn q hqs

theorem draw_move_nowin {c : Cell} (d : Cell) (u : Bool)
    (h : c.win = false) : Cell.draw_move c d u = .ok () := by
  unfold Cell.draw_move
  rw [h]
  rfl

theorem draw_move_err {c d : Cell} {u : Bool} {e : Err}
    (h : Cell.draw_move c d u = .error e) : e = .valueError := by
  unfold Cell.draw_move at h
  split_ifs at h <;> simp_all

/-- The exit cell `(num_cols - 1, num_rows - 1)` of the solver's
success test. -/
def targetPos (s : MazeState) : Pos := (s.num_cols - 1, s.num_rows - 1)

theorem targetPos_of_dims {s t : MazeState} (h : DimsEq s t) :
    targetPos t = targetPos s := by
  unfold targetPos
  rw [h.1, h.2.1]

/-- The closure a failed solver call leaves behind: every cell first
visited during the call has all of its passage-neighbors visited by the
end of the call. -/
def NewClosed (s t : MazeState) : Prop :=
  ∀ w ∈ vis t, w ∉ vis s → ∀ q, inB s q → adjE (passages s) w q →
    q ∈ vis t

theorem NewClosed.nrefl (s : MazeState) : NewClosed s s :=
  fun _ hw hnw => absurd hw hnw

theorem NewClosed.comp {s t u : MazeState} (hst : SFrame s t)
    (h1 : NewClosed s t) (h2 : NewClosed t u)
    (hvu : vis t ⊆ vis u) : NewClosed s u := by
  intro w hw hnw q hq hadj
  by_cases hwt : w ∈ vis t
  · exact hvu (h1 w hwt hnw q hq hadj)
  · have hp2 : adjE (passages t) w q := by
      rw [hst.pas]
      exact hadj
    exact h2 w hw hwt q ((inB_iff_of_dims hst.1 q).mpr hq) hp2

theorem adjE_nbhd {s : MazeState} {p q : Pos}
    (h : adjE (passages s) p q) : nbhd p q := by
  rcases h with hm | hm
  · rcases mem_passages.mp hm with ⟨hEq, -⟩ | ⟨hEq, -⟩
    · exact Or.inr (Or.inl hEq)
    · exact Or.inr (Or.inr (Or.inr hEq))
  · rcases mem_passages.mp hm with ⟨hEq, -⟩ | ⟨hEq, -⟩
    · have hEq2 : p = (q.1 + 1, q.2) := hEq
      have h1 : p.1 = q.1 + 1 := by rw [hEq2]
      have h2 : p.2 = q.2 := by rw [hEq2]
      exact Or.inl (Prod.ext_iff.mpr ⟨by omega, by omega⟩)
    · have hEq2 : p = (q.1, q.2 + 1) := hEq
      have h1 : p.1 = q.1 := by rw [hEq2]
      have h2 : p.2 = q.2 + 1 := by rw [hEq2]
      exact Or.inr (Or.inr (Or.inl (Prod.ext_iff.mpr ⟨by omega, by omega⟩)))

theorem adjE_inB {s : MazeState} {p q : Pos}
    (h : adjE (passages s) p q) : inB s q := by
  rcases h with hm | hm
  · rcases mem_passages.mp hm with ⟨hEq, ho⟩ | ⟨hEq, ho⟩
    · have hEq2 : q = (p.1 + 1, p.2) := hEq
      rw [hEq2]
      exact ho.2.1
    · have hEq2 : q = (p.1, p.2 + 1) := hEq
      rw [hEq2]
      exact ho.2.1
  · rcases mem_passages.mp hm with ⟨-, ho⟩ | ⟨-, ho⟩
    · exact ho.1
    · exact ho.1

theorem candList_complete {s : MazeState} {p x : Pos} (hp : inB s p)
    (hx : inB s x) (hnb : nbhd p x)
    (hv : (cellAt s x).visited = false) : x ∈ candList s p := by
  unfold candList
  rw [List.mem_append, List.mem_append, List.mem_append]
  obtain ⟨hx1, hx2, hx3, hx4⟩ := hx
  rcases hnb with rfl | rfl | rfl | rfl
  · left; left; left
    rw [if_pos ⟨hx1, hv⟩]
    exact List.mem_singleton.mpr rfl
  · left; left; right
    rw [if_pos ⟨hx2, hv⟩]
    exact List.mem_singleton.mpr rfl
  · left; right
    rw [if_pos ⟨hx3, hv⟩]
    exact List.mem_singleton.mpr rfl
  · right
    rw [if_pos ⟨hx4, hv⟩]
    exact List.mem_singleton.mpr rfl

theorem vis_eq_of_card {s t : MazeState} (hdims : DimsEq s t)
    (hsub : vis s ⊆ vis t) (hcard : unvis s ≤ unvis t) :
    vis t = vis s := by
  have h1 := vis_card_add_unvis s
  have h2 := vis_card_add_unvis t
  have h3 : allPos t = allPos s := allPos_eq_of_dims hdims
  rw [h3] at h2
  have hc : (vis t).card ≤ (vis s).card := by omega
  exact (Finset.eq_of_subset_of_card_le hsub hc).symm

/-- Postcondition of `_solve_r` at fuel `n` (established for every `n`
below): the frame, the marking of the entered cell, what a `True`
result certifies and what a `False` result certifies. -/
def SolveRPost (n : Nat) : Prop :=
  ∀ s col row b s2, Maze.solve_r n s col row = .ok (b, s2) →
    WF s → inB s (col, row) →
    SFrame s s2 ∧ (col, row) ∈ vis s2 ∧
    (b = true → ReachE (passages s) (col, row) (targetPos s) ∧
      targetPos s ∈ vis s2 ∧
      ((col, row) = targetPos s ∨ targetPos s ∉ vis s)) ∧
    (b = false → NewClosed s s2 ∧
      (targetPos s ∈ vis s2 → targetPos s ∈ vis s))

/-- Postcondition of one direction block (`attempt_move`) at fuel `n`. -/
def AttemptPost (n : Nat) : Prop :=
  ∀ s col row nc nr go b s2,
    Maze.attempt_move n s col row nc nr go = .ok (b, s2) →
    WF s → inB s (col, row) → inB s (nc, nr) →
    SFrame s s2 ∧
    (go = false → b = false ∧ s2 = s) ∧
    (b = true → ReachE (passages s) (nc, nr) (targetPos s) ∧
      targetPos s ∈ vis s2 ∧
      ((nc, nr) = targetPos s ∨ targetPos s ∉ vis s)) ∧
    (b = false → go = true → (nc, nr) ∈ vis s2 ∧ NewClosed s s2 ∧
      (targetPos s ∈ vis s2 → targetPos s ∈ vis s))

/-- Postcondition of the candidate loop (`solve_loop`) at fuel `n`. -/
def LoopPost (n : Nat) : Prop :=
  ∀ s col row ps b s2, Maze.solve_loop n s col row ps = .ok (b, s2) →
    WF s → inB s (col, row) → (∀ x ∈ ps, inB s x ∧ nbhd (col, row) x) →
    SFrame s s2 ∧
    (b = true → ReachE (passages s) (col, row) (targetPos s) ∧
      targetPos s ∈ vis s2 ∧
      (targetPos s ∈ vis s → ∃ x ∈ ps, x = targetPos s)) ∧
    (b = false → NewClosed s s2 ∧
      (∀ x ∈ ps, adjE (passages s) (col, row) x → x ∈ vis s2) ∧
      (targetPos s ∈ vis s2 → targetPos s ∈ vis s))

/-! ### The solver: partial-correctness induction -/

theorem attempt_move_post (n : Nat) (hr : SolveRPost n) : AttemptPost n := by
  intro s col row nc nr go b s2 hrun hwf hp hx
  rw [Maze.attempt_move] at hrun
  cases go with
  | false =>
    simp only [Bool.false_eq_true, reduceIte] at hrun
    rw [Except.ok.injEq, Prod.mk.injEq] at hrun
    obtain ⟨rfl, rfl⟩ := hrun
    refine ⟨SFrame.frefl hwf, fun _ => ⟨rfl, rfl⟩, ?_, ?_⟩
    · intro hb
      exact Bool.noConfusion hb
    · intro _ hgo
      exact Bool.noConfusion hgo
  | true =>
    simp only [reduceIte] at hrun
    have hcur : Maze.getCellE s col row = .ok (cellAt s (col, row)) :=
      getCellE_ok hwf hp
    have hnext : Maze.getCellE s nc nr = .ok (cellAt s (nc, nr)) :=
      getCellE_ok hwf hx
    simp only [hcur, hnext] at hrun
    cases hdm : Cell.draw_move (cellAt s (col, row)) (cellAt s (nc, nr))
        false with
    | error e =>
      simp only [hdm] at hrun
      cases hrun
    | ok u =>
      simp only [hdm] at hrun
      cases hrec : Maze.solve_r n s nc nr with
      | error e =>
        simp only [hrec] at hrun
        cases hrun
      | ok pr =>
        obtain ⟨b1, s1⟩ := pr
        simp only [hrec] at hrun
        have hpost := hr s nc nr b1 s1 hrec hwf hx
        cases b1 with
        | true =>
          rw [Except.ok.injEq, Prod.mk.injEq] at hrun
          obtain ⟨rfl, rfl⟩ := hrun
          obtain ⟨hf, hm, htrue, -⟩ := hpost
          refine ⟨hf, ?_, fun _ => htrue rfl, ?_⟩
          · intro hgo
            exact Bool.noConfusion hgo
          · intro hb
            exact Bool.noConfusion hb
        | false =>
          obtain ⟨hf, hm, -, hfalse⟩ := hpost
          have hwf1 := hf.2.1
          have hp1 : inB s1 (col, row) := (inB_iff_of_dims hf.1 _).mpr hp
          have hx1 : inB s1 (nc, nr) := (inB_iff_of_dims hf.1 _).mpr hx
          have hcur1 : Maze.getCellE s1 col row =
              .ok (cellAt s1 (col, row)) := getCellE_ok hwf1 hp1
          have hnext1 : Maze.getCellE s1 nc nr =
              .ok (cellAt s1 (nc, nr)) := getCellE_ok hwf1 hx1
          simp only [hcur1, hnext1] at hrun
          cases hdm2 : Cell.draw_move (cellAt s1 (col, row))
              (cellAt s1 (nc, nr)) true with
          | error e =>
            simp only [hdm2] at hrun
            cases hrun
          | ok u2 =>
            simp only [hdm2] at hrun
            rw [Except.ok.injEq, Prod.mk.injEq] at hrun
            obtain ⟨rfl, rfl⟩ := hrun
            refine ⟨hf, ?_, ?_, ?_⟩
            · intro hgo
              exact Bool.noConfusion hgo
            · intro hb
              exact Bool.noConfusion hb
            · intro _ _
              exact ⟨hm, (hfalse rfl).1, (hfalse rfl).2⟩

/-- A direction block whose condition passed connects the two cells by
an open passage: rightward block. -/
theorem go_edge_right {s : MazeState} {col row nc nr : Int}
    (hp : inB s (col, row)) (hx : inB s (nc, nr))
    (hnb : nbhd (col, row) (nc, nr))
    (hgo : (decide (col < nc) && (!(cellAt s (col, row)).has_right_wall &&
      !(cellAt s (nc, nr)).has_left_wall)) = true) :
    adjE (passages s) (col, row) (nc, nr) := by
  rw [Bool.and_eq_true, Bool.and_eq_true, Bool.not_eq_true',
    Bool.not_eq_true'] at hgo
  obtain ⟨hd, hw1, hw2⟩ := hgo
  have hlt : col < nc := of_decide_eq_true hd
  have hxy : ((nc, nr) : Pos) = (col + 1, row) := by
    rcases hnb with hEq | hEq | hEq | hEq
    · obtain ⟨h1, h2⟩ := Prod.mk.injEq .. ▸
        (hEq : ((nc, nr) : Pos) = (col - 1, row))
      exact absurd hlt (by omega)
    · exact hEq
    · obtain ⟨h1, h2⟩ := Prod.mk.injEq .. ▸
        (hEq : ((nc, nr) : Pos) = (col, row - 1))
      exact absurd hlt (by omega)
    · obtain ⟨h1, h2⟩ := Prod.mk.injEq .. ▸
        (hEq : ((nc, nr) : Pos) = (col, row + 1))
      exact absurd hlt (by omega)
  rw [hxy] at hx hw2 ⊢
  exact Or.inl (mem_passages.mpr (Or.inl ⟨rfl, hp, hx, hw1, hw2⟩))

/-- Leftward block. -/
theorem go_edge_left {s : MazeState} {col row nc nr : Int}
    (hp : inB s (col, row)) (hx : inB s (nc, nr))
    (hnb : nbhd (col, row) (nc, nr))
    (hgo : (decide (col > nc) && (!(cellAt s (col, row)).has_left_wall &&
      !(cellAt s (nc, nr)).has_right_wall)) = true) :
    adjE (passages s) (col, row) (nc, nr) := by
  rw [Bool.and_eq_true, Bool.and_eq_true, Bool.not_eq_true',
    Bool.not_eq_true'] at hgo
  obtain ⟨hd, hw1, hw2⟩ := hgo
  have hlt : col > nc := of_decide_eq_true hd
  have hxy : ((nc, nr) : Pos) = (col - 1, row) := by
    rcases hnb with hEq | hEq | hEq | hEq
    · exact hEq
    · obtain ⟨h1, h2⟩ := Prod.mk.injEq .. ▸
        (hEq : ((nc, nr) : Pos) = (col + 1, row))
      exact absurd hlt (by omega)
    · obtain ⟨h1, h2⟩ := Prod.mk.injEq .. ▸
        (hEq : ((nc, nr) : Pos) = (col, row - 1))
      exact absurd hlt (by omega)
    · obtain ⟨h1, h2⟩ := Prod.mk.injEq .. ▸
        (hEq : ((nc, nr) : Pos) = (col, row + 1))
      exact absurd hlt (by omega)
  rw [hxy] at hx hw2 ⊢
  have hc : ((col - 1 + 1 : Int), (row : Int)) = ((col : Int), (row : Int)) := by
    rw [Prod.mk.injEq]
    exact ⟨by omega, rfl⟩
  refine Or.inr (mem_passages.mpr (Or.inl ⟨?_, hx, ?_, hw2, ?_⟩))
  · show ((col, row) : Pos) = (col - 1 + 1, row)
    rw [hc]
  · show inB s (col - 1 + 1, row)
    rw [hc]
    exact hp
  · show (cellAt s (col - 1 + 1, row)).has_left_wall = false
    rw [hc]
    exact hw1

/-- Downward block. -/
theorem go_edge_down {s : MazeState} {col row nc nr : Int}
    (hp : inB s (col, row)) (hx : inB s (nc, nr))
    (hnb : nbhd (col, row) (nc, nr))
    (hgo : (decide (row < nr) && (!(cellAt s (col, row)).has_bottom_wall &&
      !(cellAt s (nc, nr)).has_top_wall)) = true) :
    adjE (passages s) (col, row) (nc, nr) := by
  rw [Bool.and_eq_true, Bool.and_eq_true, Bool.not_eq_true',
    Bool.not_eq_true'] at hgo
  obtain ⟨hd, hw1, hw2⟩ := hgo
  have hlt : row < nr := of_decide_eq_true hd
  have hxy : ((nc, nr) : Pos) = (col, row + 1) := by
    rcases hnb with hEq | hEq | hEq | hEq
    · obtain ⟨h1, h2⟩ := Prod.mk.injEq .. ▸
        (hEq : ((nc, nr) : Pos) = (col - 1, row))
      exact absurd hlt (by omega)
    · obtain ⟨h1, h2⟩ := Prod.mk.injEq .. ▸
        (hEq : ((nc, nr) : Pos) = (col + 1, row))
      exact absurd hlt (by omega)
    · obtain ⟨h1, h2⟩ := Prod.mk.injEq .. ▸
        (hEq : ((nc, nr) : Pos) = (col, row - 1))
      exact absurd hlt (by omega)
    · exact hEq
  rw [hxy] at hx hw2 ⊢
  exact Or.inl (mem_passages.mpr (Or.inr ⟨rfl, hp, hx, hw1, hw2⟩))

/-- Upward block. -/
theorem go_edge_up {s : MazeState} {col row nc nr : Int}
    (hp : inB s (col, row)) (hx : inB s (nc, nr))
    (hnb : nbhd (col, row) (nc, nr))
    (hgo : (decide (row > nr) && (!(cellAt s (col, row)).has_top_wall &&
      !(cellAt s (nc, nr)).has_bottom_wall)) = true) :
    adjE (passages s) (col, row) (nc, nr) := by
  rw [Bool.and_eq_true, Bool.and_eq_true, Bool.not_eq_true',
    Bool.not_eq_true'] at hgo
  obtain ⟨hd, hw1, hw2⟩ := hgo
  have hlt : row > nr := of_decide_eq_true hd
  have hxy : ((nc, nr) : Pos) = (col, row - 1) := by
    rcases hnb with hEq | hEq | hEq | hEq
    · obtain ⟨h1, h2⟩ := Prod.mk.injEq .. ▸
        (hEq : ((nc, nr) : Pos) = (col - 1, row))
      exact absurd hlt (by omega)
    · obtain ⟨h1, h2⟩ := Prod.mk.injEq .. ▸
        (hEq : ((nc, nr) : Pos) = (col + 1, row))
      exact absurd hlt (by omega)
    · exact hEq
    · obtain ⟨h1, h2⟩ := Prod.mk.injEq .. ▸
        (hEq : ((nc, nr) : Pos) = (col, row + 1))
      exact absurd hlt (by omega)
  rw [hxy] at hx hw2 ⊢
  have hc : ((col : Int), (row - 1 + 1 : Int)) = ((col : Int), (row : Int)) := by
    rw [Prod.mk.injEq]
    exact ⟨rfl, by omega⟩
  refine Or.inr (mem_passages.mpr (Or.inr ⟨?_, hx, ?_, hw2, ?_⟩))
  · show ((col, row) : Pos) = (col, row - 1 + 1)
    rw [hc]
  · show inB s (col, row - 1 + 1)
    rw [hc]
    exact hp
  · show (cellAt s (col, row - 1 + 1)).has_top_wall = false
    rw [hc]
    exact hw1

/-- An open rightward passage makes the rightward block's condition
pass. -/
theorem edge_go1 {t : MazeState} {col row nc nr : Int}
    (hEq : ((nc, nr) : Pos) = (col + 1, row))
    (ho : openRight t (col, row)) :
    (decide (col < nc) && (!(cellAt t (col, row)).has_right_wall &&
      !(cellAt t (nc, nr)).has_left_wall)) = true := by
  obtain ⟨h1, h2⟩ := Prod.mk.injEq .. ▸ hEq
  have hw1 : (cellAt t (col, row)).has_right_wall = false := ho.2.2.1
  have hw2 : (cellAt t (col + 1, row)).has_left_wall = false := ho.2.2.2
  rw [hEq, hw1, hw2, decide_eq_true (show col < nc by omega)]
  rfl

/-- An open passage from the left neighbor makes the leftward block's
condition pass. -/
theorem edge_go2 {t : MazeState} {col row nc nr : Int}
    (hEq : ((col, row) : Pos) = (nc + 1, nr))
    (ho : openRight t (nc, nr)) :
    (decide (col > nc) && (!(cellAt t (col, row)).has_left_wall &&
      !(cellAt t (nc, nr)).has_right_wall)) = true := by
  obtain ⟨h1, h2⟩ := Prod.mk.injEq .. ▸ hEq
  have hw1 : (cellAt t (nc + 1, nr)).has_left_wall = false := ho.2.2.2
  have hw2 : (cellAt t (nc, nr)).has_right_wall = false := ho.2.2.1
  rw [hEq, hw1, hw2, decide_eq_true (show col > nc by omega)]
  rfl

/-- An open downward passage makes the downward block's condition
pass. -/
theorem edge_go3 {t : MazeState} {col row nc nr : Int}
    (hEq : ((nc, nr) : Pos) = (col, row + 1))
    (ho : openDown t (col, row)) :
    (decide (row < nr) && (!(cellAt t (col, row)).has_bottom_wall &&
      !(cellAt t (nc, nr)).has_top_wall)) = true := by
  obtain ⟨h1, h2⟩ := Prod.mk.injEq .. ▸ hEq
  have hw1 : (cellAt t (col, row)).has_bottom_wall = false := ho.2.2.1
  have hw2 : (cellAt t (col, row + 1)).has_top_wall = false := ho.2.2.2
  rw [hEq, hw1, hw2, decide_eq_true (show row < nr by omega)]
  rfl

/-- An open passage from the upper neighbor makes the upward block's
condition pass. -/
theorem edge_go4 {t : MazeState} {col row nc nr : Int}
    (hEq : ((col, row) : Pos) = (nc, nr + 1))
    (ho : openDown t (nc, nr)) :
    (decide (row > nr) && (!(cellAt t (col, row)).has_top_wall &&
      !(cellAt t (nc, nr)).has_bottom_wall)) = true := by
  obtain ⟨h1, h2⟩ := Prod.mk.injEq .. ▸ hEq
  have hw1 : (cellAt t (nc, nr + 1)).has_top_wall = false := ho.2.2.2
  have hw2 : (cellAt t (nc, nr)).has_bottom_wall = false := ho.2.2.1
  rw [hEq, hw1, hw2, decide_eq_true (show row > nr by omega)]
  rfl

/-- Facts available after a direction block that returned `False`. -/
theorem attempt_false_facts {n : Nat} {s s1 : MazeState}
    {col row nc nr : Int} {go : Bool} (ha : AttemptPost n)
    (hrun : Maze.attempt_move n s col row nc nr go = .ok (false, s1))
    (hwf : WF s) (hp : inB s (col, row)) (hx : inB s (nc, nr)) :
    SFrame s s1 ∧ NewClosed s s1 ∧
    (targetPos s ∈ vis s1 → targetPos s ∈ vis s) ∧
    (go = true → (nc, nr) ∈ vis s1) := by
  have hpost := ha s col row nc nr go false s1 hrun hwf hp hx
  obtain ⟨hf, hgo0, -, hfc⟩ := hpost
  cases go with
  | false =>
    have hs : s1 = s := (hgo0 rfl).2
    refine ⟨hf, ?_, ?_, fun h => Bool.noConfusion h⟩
    · rw [hs]
      exact NewClosed.nrefl s
    · rw [hs]
      exact fun h => h
  | true =>
    obtain ⟨hmem, hncl, htg⟩ := hfc rfl rfl
    exact ⟨hf, hncl, htg, fun _ => hmem⟩

/-- Assembling the loop's `True` conclusions from a successful block. -/
theorem loop_true_assemble {s t s2 : MazeState} {col row nc nr : Int}
    (hacc : SFrame s t)
    (hedge : adjE (passages s) (col, row) (nc, nr))
    (hreach : ReachE (passages t) (nc, nr) (targetPos t))
    (hmemt : targetPos t ∈ vis s2)
    (hdisj : ((nc, nr) : Pos) = targetPos t ∨ targetPos t ∉ vis t) :
    ReachE (passages s) (col, row) (targetPos s) ∧
    targetPos s ∈ vis s2 ∧
    (targetPos s ∈ vis s → ((nc, nr) : Pos) = targetPos s) := by
  have hpt : passages t = passages s := hacc.pas
  have htt : targetPos t = targetPos s := targetPos_of_dims hacc.1
  rw [hpt, htt] at hreach
  rw [htt] at hmemt hdisj
  refine ⟨Relation.ReflTransGen.head hedge hreach, hmemt, ?_⟩
  intro hvt
  rcases hdisj with h | h
  · exact h
  · exact absurd (hacc.2.2.2 hvt) h

theorem solve_loop_post (n : Nat) (ha : AttemptPost n) : LoopPost n := by
  intro s0 col row ps
  induction ps generalizing s0 with
  | nil =>
    intro b s2 hrun hwf hp hps
    rw [Maze.solve_loop] at hrun
    rw [Except.ok.injEq, Prod.mk.injEq] at hrun
    obtain ⟨rfl, rfl⟩ := hrun
    refine ⟨SFrame.frefl hwf, ?_, ?_⟩
    · intro hb
      exact Bool.noConfusion hb
    · intro _
      exact ⟨NewClosed.nrefl s0, fun x hx => absurd hx (List.not_mem_nil x),
        fun h => h⟩
  | cons hd rest IH =>
    obtain ⟨nc, nr⟩ := hd
    intro b s2 hrun hwf hp hps
    obtain ⟨hxin, hxnb⟩ := hps (nc, nr) (List.mem_cons_self _ _)
    have hrest : ∀ x ∈ rest, inB s0 x ∧ nbhd (col, row) x :=
      fun x hx => hps x (List.mem_cons_of_mem _ hx)
    rw [Maze.solve_loop] at hrun
    have hcur : Maze.getCellE s0 col row = .ok (cellAt s0 (col, row)) :=
      getCellE_ok hwf hp
    have hnext : Maze.getCellE s0 nc nr = .ok (cellAt s0 (nc, nr)) :=
      getCellE_ok hwf hxin
    simp only [hcur, hnext] at hrun
    cases hat1 : Maze.attempt_move n s0 col row nc nr
        (decide (col < nc) && (!(cellAt s0 (col, row)).has_right_wall &&
          !(cellAt s0 (nc, nr)).has_left_wall)) with
    | error e =>
      simp only [hat1] at hrun
      cases hrun
    | ok pr1 =>
    obtain ⟨b1, t1⟩ := pr1
    simp only [hat1] at hrun
    cases b1 with
    | true =>
      rw [Except.ok.injEq, Prod.mk.injEq] at hrun
      obtain ⟨rfl, rfl⟩ := hrun
      obtain ⟨hf, hgo0, htrue, -⟩ := ha s0 col row nc nr _ true t1 hat1 hwf hp hxin
      have hgo : (decide (col < nc) && (!(cellAt s0 (col, row)).has_right_wall &&
          !(cellAt s0 (nc, nr)).has_left_wall)) = true := by
        cases hgoc : (decide (col < nc) && (!(cellAt s0 (col, row)).has_right_wall &&
            !(cellAt s0 (nc, nr)).has_left_wall)) with
        | false => exact Bool.noConfusion (hgo0 hgoc).1
        | true => rfl
      have hedge : adjE (passages s0) (col, row) (nc, nr) :=
        go_edge_right hp hxin hxnb hgo
      obtain ⟨hreach, hmemt, hdisj⟩ := htrue rfl
      obtain ⟨hR, hM, hT⟩ :=
        loop_true_assemble (SFrame.frefl hwf) hedge hreach hmemt hdisj
      refine ⟨hf, ?_, ?_⟩
      · intro _
        exact ⟨hR, hM, fun hvt => ⟨(nc, nr), List.mem_cons_self _ _, hT hvt⟩⟩
      · intro hb
        exact Bool.noConfusion hb
    | false =>
    obtain ⟨hf1, hnc1, htg1, hgm1⟩ := attempt_false_facts ha hat1 hwf hp hxin
    have hwf1 := hf1.2.1
    have hp1 : inB t1 (col, row) := (inB_iff_of_dims hf1.1 _).mpr hp
    have hx1 : inB t1 (nc, nr) := (inB_iff_of_dims hf1.1 _).mpr hxin
    have hcur1 : Maze.getCellE t1 col row = .ok (cellAt t1 (col, row)) :=
      getCellE_ok hwf1 hp1
    have hnext1 : Maze.getCellE t1 nc nr = .ok (cellAt t1 (nc, nr)) :=
      getCellE_ok hwf1 hx1
    simp only [hcur1, hnext1] at hrun
    cases hat2 : Maze.attempt_move n t1 col row nc nr
        (decide (col > nc) && (!(cellAt t1 (col, row)).has_left_wall &&
          !(cellAt t1 (nc, nr)).has_right_wall)) with
    | error e =>
      simp only [hat2] at hrun
      cases hrun
    | ok pr2 =>
    obtain ⟨b2, t2⟩ := pr2
    simp only [hat2] at hrun
    cases b2 with
    | true =>
      rw [Except.ok.injEq, Prod.mk.injEq] at hrun
      obtain ⟨rfl, rfl⟩ := hrun
      obtain ⟨hf, hgo0, htrue, -⟩ := ha t1 col row nc nr _ true t2 hat2 hwf1 hp1 hx1
      have hgo : (decide (col > nc) && (!(cellAt t1 (col, row)).has_left_wall &&
          !(cellAt t1 (nc, nr)).has_right_wall)) = true := by
        cases hgoc : (decide (col > nc) && (!(cellAt t1 (col, row)).has_left_wall &&
            !(cellAt t1 (nc, nr)).has_right_wall)) with
        | false => exact Bool.noConfusion (hgo0 hgoc).1
        | true => rfl
      have hedge1 : adjE (passages t1) (col, row) (nc, nr) :=
        go_edge_left hp1 hx1 hxnb hgo
      have hedge : adjE (passages s0) (col, row) (nc, nr) := by
        rw [← hf1.pas]
        exact hedge1
      obtain ⟨hreach, hmemt, hdisj⟩ := htrue rfl
      obtain ⟨hR, hM, hT⟩ :=
        loop_true_assemble hf1 hedge hreach hmemt hdisj
      refine ⟨hf1.ftrans hf, ?_, ?_⟩
      · intro _
        exact ⟨hR, hM, fun hvt => ⟨(nc, nr), List.mem_cons_self _ _, hT hvt⟩⟩
      · intro hb
        exact Bool.noConfusion hb
    | false =>
    obtain ⟨hf2, hnc2, htg2, hgm2⟩ := attempt_false_facts ha hat2 hwf1 hp1 hx1
    have hwf2 := hf2.2.1
    have hp2 : inB t2 (col, row) := (inB_iff_of_dims hf2.1 _).mpr hp1
    have hx2 : inB t2 (nc, nr) := (inB_iff_of_dims hf2.1 _).mpr hx1
    have hcur2 : Maze.getCellE t2 col row = .ok (cellAt t2 (col, row)) :=
      getCellE_ok hwf2 hp2
    have hnext2 : Maze.getCellE t2 nc nr = .ok (cellAt t2 (nc, nr)) :=
      getCellE_ok hwf2 hx2
    simp only [hcur2, hnext2] at hrun
    cases hat3 : Maze.attempt_move n t2 col row nc nr
        (decide (row < nr) && (!(cellAt t2 (col, row)).has_bottom_wall &&
          !(cellAt t2 (nc, nr)).has_top_wall)) with
    | error e =>
      simp only [hat3] at hrun
      cases hrun
    | ok pr3 =>
    obtain ⟨b3, t3⟩ := pr3
    simp only [hat3] at hrun
    cases b3 with
    | true =>
      rw [Except.ok.injEq, Prod.mk.injEq] at hrun
      obtain ⟨rfl, rfl⟩ := hrun
      obtain ⟨hf, hgo0, htrue, -⟩ := ha t2 col row nc nr _ true t3 hat3 hwf2 hp2 hx2
      have hgo : (decide (row < nr) && (!(cellAt t2 (col, row)).has_bottom_wall &&
          !(cellAt t2 (nc, nr)).has_top_wall)) = true := by
        cases hgoc : (decide (row < nr) && (!(cellAt t2 (col, row)).has_bottom_wall &&
            !(cellAt t2 (nc, nr)).has_top_wall)) with
        | false => exact Bool.noConfusion (hgo0 hgoc).1
        | true => rfl
      have hedge1 : adjE (passages t2) (col, row) (nc, nr) :=
        go_edge_down hp2 hx2 hxnb hgo
      have hedge : adjE (passages s0) (col, row) (nc, nr) := by
        rw [← (hf1.ftrans hf2).pas]
        exact hedge1
      obtain ⟨hreach, hmemt, hdisj⟩ := htrue rfl
      obtain ⟨hR, hM, hT⟩ :=
        loop_true_assemble (hf1.ftrans hf2) hedge hreach hmemt hdisj
      refine ⟨(hf1.ftrans hf2).ftrans hf, ?_, ?_⟩
      · intro _
        exact ⟨hR, hM, fun hvt => ⟨(nc, nr), List.mem_cons_self _ _, hT hvt⟩⟩
      · intro hb
        exact Bool.noConfusion hb
    | false =>
    obtain ⟨hf3, hnc3, htg3, hgm3⟩ := attempt_false_facts ha hat3 hwf2 hp2 hx2
    have hwf3 := hf3.2.1
    have hp3 : inB t3 (col, row) := (inB_iff_of_dims hf3.1 _).mpr hp2
    have hx3 : inB t3 (nc, nr) := (inB_iff_of_dims hf3.1 _).mpr hx2
    have hcur3 : Maze.getCellE t3 col row = .ok (cellAt t3 (col, row)) :=
      getCellE_ok hwf3 hp3
    have hnext3 : Maze.getCellE t3 nc nr = .ok (cellAt t3 (nc, nr)) :=
      getCellE_ok hwf3 hx3
    simp only [hcur3, hnext3] at hrun
    cases hat4 : Maze.attempt_move n t3 col row nc nr
        (decide (row > nr) && (!(cellAt t3 (col, row)).has_top_wall &&
          !(cellAt t3 (nc, nr)).has_bottom_wall)) with
    | error e =>
      simp only [hat4] at hrun
      cases hrun
    | ok pr4 =>
    obtain ⟨b4, t4⟩ := pr4
    simp only [hat4] at hrun
    cases b4 with
    | true =>
      rw [Except.ok.injEq, Prod.mk.injEq] at hrun
      obtain ⟨rfl, rfl⟩ := hrun
      obtain ⟨hf, hgo0, htrue, -⟩ := ha t3 col row nc nr _ true t4 hat4 hwf3 hp3 hx3
      have hgo : (decide (row > nr) && (!(cellAt t3 (col, row)).has_top_wall &&
          !(cellAt t3 (nc, nr)).has_bottom_wall)) = true := by
        cases hgoc : (decide (row > nr) && (!(cellAt t3 (col, row)).has_top_wall &&
            !(cellAt t3 (nc, nr)).has_bottom_wall)) with
        | false => exact Bool.noConfusion (hgo0 hgoc).1
        | true => rfl
      have hedge1 : adjE (passages t3) (col, row) (nc, nr) :=
        go_edge_up hp3 hx3 hxnb hgo
      have hedge : adjE (passages s0) (col, row) (nc, nr) := by
        rw [← (hf1.ftrans (hf2.ftrans hf3)).pas]
        exact hedge1
      obtain ⟨hreach, hmemt, hdisj⟩ := htrue rfl
      obtain ⟨hR, hM, hT⟩ :=
        loop_true_assemble (hf1.ftrans (hf2.ftrans hf3)) hedge hreach hmemt hdisj
      refine ⟨(hf1.ftrans (hf2.ftrans hf3)).ftrans hf, ?_, ?_⟩
      · intro _
        exact ⟨hR, hM, fun hvt => ⟨(nc, nr), List.mem_cons_self _ _, hT hvt⟩⟩
      · intro hb
        exact Bool.noConfusion hb
    | false =>
    obtain ⟨hf4, hnc4, htg4, hgm4⟩ := attempt_false_facts ha hat4 hwf3 hp3 hx3
    have hacc4 : SFrame s0 t4 := hf1.ftrans (hf2.ftrans (hf3.ftrans hf4))
    have hrun2 : Maze.solve_loop n t4 col row rest = .ok (b, s2) := hrun
    have hrest4 : ∀ x ∈ rest, inB t4 x ∧ nbhd (col, row) x := fun x hx =>
      ⟨(inB_iff_of_dims hacc4.1 x).mpr (hrest x hx).1, (hrest x hx).2⟩
    obtain ⟨hfr, htr, hfa⟩ := IH t4 b s2 hrun2 hacc4.2.1
      ((inB_iff_of_dims hacc4.1 _).mpr hp) hrest4
    have htp4 : targetPos t4 = targetPos s0 := targetPos_of_dims hacc4.1
    have hpas4 : passages t4 = passages s0 := hacc4.pas
    refine ⟨hacc4.ftrans hfr, ?_, ?_⟩
    · -- the recursion on the remaining candidates succeeded
      intro hb
      obtain ⟨hR, hM, hE⟩ := htr hb
      rw [hpas4, htp4] at hR
      rw [htp4] at hM hE
      refine ⟨hR, hM, ?_⟩
      intro hvt
      obtain ⟨x, hx, hxe⟩ := hE (hacc4.2.2.2 hvt)
      exact ⟨x, List.mem_cons_of_mem _ hx, hxe⟩
    · -- every block and the recursion failed
      intro hb
      obtain ⟨hN, hAll, hT⟩ := hfa hb
      have hvsub1 : vis t1 ⊆ vis s2 := Finset.Subset.trans hf2.2.2.2
        (Finset.Subset.trans hf3.2.2.2
          (Finset.Subset.trans hf4.2.2.2 hfr.2.2.2))
      have hvsub2 : vis t2 ⊆ vis s2 := Finset.Subset.trans hf3.2.2.2
        (Finset.Subset.trans hf4.2.2.2 hfr.2.2.2)
      have hvsub3 : vis t3 ⊆ vis s2 :=
        Finset.Subset.trans hf4.2.2.2 hfr.2.2.2
      have hvsub4 : vis t4 ⊆ vis s2 := hfr.2.2.2
      refine ⟨?_, ?_, ?_⟩
      · -- composed closure
        have n2 : NewClosed s0 t2 := NewClosed.comp hf1 hnc1 hnc2 hf2.2.2.2
        have n3 : NewClosed s0 t3 :=
          NewClosed.comp (hf1.ftrans hf2) n2 hnc3 hf3.2.2.2
        have n4 : NewClosed s0 t4 :=
          NewClosed.comp (hf1.ftrans (hf2.ftrans hf3)) n3 hnc4 hf4.2.2.2
        exact NewClosed.comp hacc4 n4 hN hfr.2.2.2
      · -- every open-walled candidate of this list was entered
        intro x hx hadj
        rcases List.mem_cons.mp hx with rfl | hxr
        · -- the head candidate: one of the four blocks fired
          rcases hadj with hm | hm
          · rcases mem_passages.mp hm with ⟨hEq, ho⟩ | ⟨hEq, ho⟩
            · -- rightward, block 1 on s0
              exact hvsub1 (hgm1 (edge_go1
                (hEq : ((nc, nr) : Pos) = (col + 1, row)) ho))
            · -- downward, block 3 on t2
              have hEq2 : ((nc, nr) : Pos) = (col, row + 1) := hEq
              obtain ⟨h1, h2⟩ := Prod.mk.injEq .. ▸ hEq2
              have hoT : (cellAt s0 (col, row + 1)).has_top_wall = false :=
                ho.2.2.2
              have hoT2 : (cellAt s0 (nc, nr)).has_top_wall = false := by
                rw [hEq2]
                exact hoT
              have hacc2 : SFrame s0 t2 := hf1.ftrans hf2
              have e1 : (cellAt t2 (col, row)).has_bottom_wall = false :=
                ((hacc2.2.2.1 _ hp).2.2.2.1).trans ho.2.2.1
              have e2 : (cellAt t2 (nc, nr)).has_top_wall = false :=
                ((hacc2.2.2.1 _ hxin).2.2.1).trans hoT2
              have hgo3 : (decide (row < nr) &&
                  (!(cellAt t2 (col, row)).has_bottom_wall &&
                    !(cellAt t2 (nc, nr)).has_top_wall)) = true := by
                rw [e1, e2, decide_eq_true (show row < nr by omega)]
                rfl
              exact hvsub3 (hgm3 hgo3)
          · rcases mem_passages.mp hm with ⟨hEq, ho⟩ | ⟨hEq, ho⟩
            · -- the head candidate sits left of the cell, block 2 on t1
              have hEq2 : ((col, row) : Pos) = (nc + 1, nr) := hEq
              obtain ⟨h1, h2⟩ := Prod.mk.injEq .. ▸ hEq2
              have hoL : (cellAt s0 (nc + 1, nr)).has_left_wall = false :=
                ho.2.2.2
              have hoL2 : (cellAt s0 (col, row)).has_left_wall = false := by
                rw [hEq2]
                exact hoL
              have e1 : (cellAt t1 (col, row)).has_left_wall = false :=
                ((hf1.2.2.1 _ hp).1).trans hoL2
              have e2 : (cellAt t1 (nc, nr)).has_right_wall = false :=
                ((hf1.2.2.1 _ hxin).2.1).trans ho.2.2.1
              have hgo2 : (decide (col > nc) &&
                  (!(cellAt t1 (col, row)).has_left_wall &&
                    !(cellAt t1 (nc, nr)).has_right_wall)) = true := by
                rw [e1, e2, decide_eq_true (show col > nc by omega)]
                rfl
              exact hvsub2 (hgm2 hgo2)
            · -- the head candidate sits above the cell, block 4 on t3
              have hEq2 : ((col, row) : Pos) = (nc, nr + 1) := hEq
              obtain ⟨h1, h2⟩ := Prod.mk.injEq .. ▸ hEq2
              have hoT : (cellAt s0 (nc, nr + 1)).has_top_wall = false :=
                ho.2.2.2
              have hoT2 : (cellAt s0 (col, row)).has_top_wall = false := by
                rw [hEq2]
                exact hoT
              have hacc3 : SFrame s0 t3 := hf1.ftrans (hf2.ftrans hf3)
              have e1 : (cellAt t3 (col, row)).has_top_wall = false :=
                ((hacc3.2.2.1 _ hp).2.2.1).trans hoT2
              have e2 : (cellAt t3 (nc, nr)).has_bottom_wall = false :=
                ((hacc3.2.2.1 _ hxin).2.2.2.1).trans ho.2.2.1
              have hgo4 : (decide (row > nr) &&
                  (!(cellAt t3 (col, row)).has_top_wall &&
                    !(cellAt t3 (nc, nr)).has_bottom_wall)) = true := by
                rw [e1, e2, decide_eq_true (show row > nr by omega)]
                rfl
              exact hvsub4 (hgm4 hgo4)
        · -- a later candidate: the recursion's own closure
          have hadj4 : adjE (passages t4) (col, row) x := by
            rw [hpas4]
            exact hadj
          exact hAll x hxr hadj4
      · -- the exit cell was not newly visited
        intro hvt
        have ht4 : targetPos s0 ∈ vis t4 := by
          have := hT (by rw [htp4]; exact hvt)
          rw [htp4] at this
          exact this
        have ht3 : targetPos s0 ∈ vis t3 := by
          have := htg4 (by
            rw [targetPos_of_dims (hf1.ftrans (hf2.ftrans hf3)).1]
            exact ht4)
          rw [targetPos_of_dims (hf1.ftrans (hf2.ftrans hf3)).1] at this
          exact this
        have ht2 : targetPos s0 ∈ vis t2 := by
          have := htg3 (by
            rw [targetPos_of_dims (hf1.ftrans hf2).1]
            exact ht3)
          rw [targetPos_of_dims (hf1.ftrans hf2).1] at this
          exact this
        have ht1 : targetPos s0 ∈ vis t1 := by
          have := htg2 (by
            rw [targetPos_of_dims hf1.1]
            exact ht2)
          rw [targetPos_of_dims hf1.1] at this
          exact this
        exact htg1 ht1

theorem solve_r_post_succ (n : Nat) (hl : LoopPost n) :
    SolveRPost (n + 1) := by
  intro s col row b s2 hrun hwf hp
  rw [Maze.solve_r] at hrun
  have hmk : Maze.markVisitedE s col row =
      .ok (updCell s (col, row) (fun c => { c with visited := true })) :=
    markVisitedE_ok hwf hp
  simp only [hmk] at hrun
  set sm := updCell s (col, row) (fun c => { c with visited := true })
    with hsm
  have hfm : SFrame s sm := SFrame.mark hwf hp
  have hvm : vis sm = insert (col, row) (vis s) := vis_mark hwf hp
  have hpm : passages sm = passages s := passages_mark hwf hp
  have htpm : targetPos sm = targetPos s := targetPos_of_dims hfm.1
  have hpsm : inB sm (col, row) := (inB_iff_of_dims hfm.1 _).mpr hp
  have hmem : (col, row) ∈ vis sm := by
    rw [hvm]
    exact Finset.mem_insert_self _ _
  by_cases htc : col = sm.num_cols - 1 ∧ row = sm.num_rows - 1
  · rw [if_pos htc] at hrun
    rw [Except.ok.injEq, Prod.mk.injEq] at hrun
    obtain ⟨rfl, rfl⟩ := hrun
    have hpt2 : ((col, row) : Pos) = targetPos s := by
      have h1 : sm.num_cols = s.num_cols := hfm.1.2.1
      have h2 : sm.num_rows = s.num_rows := hfm.1.1
      unfold targetPos
      rw [Prod.mk.injEq]
      exact ⟨by rw [htc.1, h1], by rw [htc.2, h2]⟩
    refine ⟨hfm, hmem, ?_, ?_⟩
    · intro _
      refine ⟨?_, ?_, Or.inl hpt2⟩
      · rw [← hpt2]
        exact Relation.ReflTransGen.refl
      · rw [← hpt2]
        exact hmem
    · intro hb
      exact Bool.noConfusion hb
  · rw [if_neg htc] at hrun
    have hptc : ((col, row) : Pos) ≠ targetPos s := by
      intro hEq
      obtain ⟨h1, h2⟩ := Prod.mk.injEq .. ▸ (hEq : ((col, row) : Pos) =
        (s.num_cols - 1, s.num_rows - 1))
      refine htc ⟨?_, ?_⟩
      · rw [hfm.1.2.1]
        exact h1
      · rw [hfm.1.1]
        exact h2
    have hpt : Maze.possibleToVisit sm col row =
        .ok (candList sm (col, row)) := possibleToVisit_ok hfm.2.1 hpsm
    simp only [hpt] at hrun
    by_cases hnil : (candList sm (col, row)).length = 0
    · rw [if_pos hnil] at hrun
      rw [Except.ok.injEq, Prod.mk.injEq] at hrun
      obtain ⟨rfl, rfl⟩ := hrun
      refine ⟨hfm, hmem, ?_, ?_⟩
      · intro hb
        exact Bool.noConfusion hb
      · intro _
        constructor
        · -- the marked cell is the only new one; all its neighbors are
          -- already visited because the candidate list was empty
          intro w hw hnw q hq hadj
          have hwp : w = (col, row) := by
            rcases Finset.mem_insert.mp (by rw [← hvm]; exact hw) with h | h
            · exact h
            · exact absurd h hnw
          subst hwp
          have hnb : nbhd (col, row) q := adjE_nbhd hadj
          have hqm : inB sm q := (inB_iff_of_dims hfm.1 q).mpr hq
          have hvq : (cellAt sm q).visited = true :=
            candList_nil (List.length_eq_zero.mp hnil) hqm hnb
          exact mem_vis.mpr ⟨hqm, hvq⟩
        · intro hvt
          rcases Finset.mem_insert.mp (by rw [← hvm]; exact hvt) with h | h
          · exact absurd h.symm hptc
          · exact h
    · rw [if_neg hnil] at hrun
      have hps : ∀ x ∈ candList sm (col, row), inB sm x ∧
          nbhd (col, row) x := fun x hx =>
        ⟨(candList_mem hpsm hx).1, (candList_mem hpsm hx).2.2⟩
      obtain ⟨hfl, htr, hfa⟩ :=
        hl sm col row _ b s2 hrun hfm.2.1 hpsm hps
      refine ⟨hfm.ftrans hfl, hfl.2.2.2 hmem, ?_, ?_⟩
      · intro hb
        obtain ⟨hR, hM, hE⟩ := htr hb
        rw [hpm, htpm] at hR
        rw [htpm] at hM hE
        refine ⟨hR, hM, Or.inr ?_⟩
        intro hvt
        obtain ⟨x, hx, hxe⟩ := hE (by
          rw [← htpm] at *
          exact hfm.2.2.2 hvt)
        have hxv : (cellAt sm x).visited = false := (candList_mem hpsm hx).2.1
        have hxm : targetPos s ∈ vis sm := hfm.2.2.2 hvt
        rw [← hxe] at hxm
        exact Bool.noConfusion (((mem_vis.mp hxm).2.symm).trans hxv)
      · intro hb
        obtain ⟨hN, hAll, hT⟩ := hfa hb
        constructor
        · intro w hw hnw q hq hadj
          by_cases hwp : w = (col, row)
          · subst hwp
            have hnb : nbhd (col, row) q := adjE_nbhd hadj
            have hqm : inB sm q := (inB_iff_of_dims hfm.1 q).mpr hq
            by_cases hqv : (cellAt sm q).visited = true
            · exact hfl.2.2.2 (mem_vis.mpr ⟨hqm, hqv⟩)
            · have hqv2 : (cellAt sm q).visited = false := by
                cases hv2 : (cellAt sm q).visited
                · rfl
                · exact absurd hv2 hqv
              have hqc : q ∈ candList sm (col, row) :=
                candList_complete hpsm hqm hnb hqv2
              refine hAll q hqc ?_
              rw [hpm]
              exact hadj
          · have hnwm : w ∉ vis sm := by
              rw [hvm]
              intro hmem2
              rcases Finset.mem_insert.mp hmem2 with h | h
              · exact hwp h
              · exact hnw h
            refine hN w hw hnwm q ((inB_iff_of_dims hfm.1 q).mpr hq) ?_
            rw [hpm]
            exact hadj
        · intro hvt
          have h1 : targetPos s ∈ vis sm := by
            have := hT (by rw [htpm]; exact hvt)
            rw [htpm] at this
            exact this
          rcases Finset.mem_insert.mp (by rw [← hvm]; exact h1) with h | h
          · exact absurd h.symm hptc
          · exact h

/-- The solver postcondition holds at every fuel. -/
theorem solve_post : ∀ n : Nat, SolveRPost n := by
  intro n
  induction n with
  | zero =>
    intro s col row b s2 hrun
    rw [Maze.solve_r] at hrun
    cases hrun
  | succ n IH =>
    exact solve_r_post_succ n (solve_loop_post n (attempt_move_post n IH))

/-! ### The solver: fuel sufficiency (termination) -/

/-- Fuel sufficiency of `_solve_r` at fuel `n`: with more fuel than
unvisited cells (or as much, entering an unvisited cell), the fuel is
never exhausted, and in the headless setting the call returns. -/
def SolveTerm (n : Nat) : Prop :=
  ∀ s col row, WF s → inB s (col, row) →
    (unvis s < n ∨
      (unvis s ≤ n ∧ (cellAt s (col, row)).visited = false)) →
    Maze.solve_r n s col row ≠ .error .outOfFuel ∧
    (NoWin s → ∃ b s2, Maze.solve_r n s col row = .ok (b, s2))

/-- Fuel sufficiency of one direction block. -/
def AttemptTerm (n : Nat) : Prop :=
  ∀ s col row nc nr go, WF s → inB s (col, row) → inB s (nc, nr) →
    (go = true → unvis s < n ∨
      (unvis s ≤ n ∧ (cellAt s (nc, nr)).visited = false)) →
    Maze.attempt_move n s col row nc nr go ≠ .error .outOfFuel ∧
    (NoWin s →
      ∃ b s2, Maze.attempt_move n s col row nc nr go = .ok (b, s2))

/-- Fuel sufficiency of the candidate loop. -/
def LoopTerm (n : Nat) : Prop :=
  ∀ s col row ps, WF s → inB s (col, row) → (∀ x ∈ ps, inB s x) →
    unvis s ≤ n →
    ((∀ x ∈ ps, (cellAt s x).visited = false) ∨ unvis s < n) →
    Maze.solve_loop n s col row ps ≠ .error .outOfFuel ∧
    (NoWin s → ∃ b s2, Maze.solve_loop n s col row ps = .ok (b, s2))

/-- Transport of the loop's fuel invariant across one solver step:
either some cell was newly visited (strict progress) or the visited set
is unchanged and earlier unvisitedness facts carry over. -/
theorem term_side {s t : MazeState} {x : Pos} {n : Nat}
    (hf : SFrame s t) (hun : unvis s ≤ n)
    (hside : (cellAt s x).visited = false ∨ unvis s < n)
    (hx : inB s x) :
    unvis t < n ∨ (unvis t ≤ n ∧ (cellAt t x).visited = false) := by
  have hle : unvis t ≤ unvis s := unvis_le_of_subset hf.1 hf.2.2.2
  by_cases hlt : unvis t < unvis s
  · left
    omega
  · have hueq : unvis t = unvis s := by omega
    have hveq : vis t = vis s := vis_eq_of_card hf.1 hf.2.2.2 (by omega)
    rcases hside with hv | hlt2
    · right
      refine ⟨by omega, ?_⟩
      have hxt : inB t x := (inB_iff_of_dims hf.1 x).mpr hx
      rw [← not_mem_vis hxt, hveq, not_mem_vis hx]
      exact hv
    · left
      omega

theorem attempt_term (n : Nat) (hr : SolveTerm n) (hpost : SolveRPost n) :
    AttemptTerm n := by
  intro s col row nc nr go hwf hp hx hcond
  rw [Maze.attempt_move]
  cases go with
  | false =>
    simp only [Bool.false_eq_true, reduceIte]
    exact ⟨fun h => Except.noConfusion h, fun _ => ⟨false, s, rfl⟩⟩
  | true =>
    simp only [reduceIte]
    have hcur : Maze.getCellE s col row = .ok (cellAt s (col, row)) :=
      getCellE_ok hwf hp
    have hnext : Maze.getCellE s nc nr = .ok (cellAt s (nc, nr)) :=
      getCellE_ok hwf hx
    simp only [hcur, hnext]
    have hinner := hr s nc nr hwf hx (hcond rfl)
    cases hdm : Cell.draw_move (cellAt s (col, row)) (cellAt s (nc, nr))
        false with
    | error e =>
      simp only [hdm]
      refine ⟨?_, ?_⟩
      · intro h
        injection h with h2
        exact Err.noConfusion ((draw_move_err hdm).symm.trans h2)
      · intro hnw
        rw [draw_move_nowin _ false (hnw _ hp)] at hdm
        cases hdm
    | ok u =>
      simp only [hdm]
      cases hrec : Maze.solve_r n s nc nr with
      | error e =>
        simp only [hrec]
        refine ⟨?_, ?_⟩
        · intro h
          injection h with h2
          rw [h2] at hrec
          exact hinner.1 hrec
        · intro hnw
          obtain ⟨b0, s0, hok⟩ := hinner.2 hnw
          rw [hok] at hrec
          cases hrec
      | ok pr =>
        obtain ⟨b1, s1⟩ := pr
        cases b1 with
        | true =>
          exact ⟨fun h => Except.noConfusion h, fun _ => ⟨true, s1, rfl⟩⟩
        | false =>
          obtain ⟨hf, -, -, -⟩ := hpost s nc nr false s1 hrec hwf hx
          have hwf1 := hf.2.1
          have hp1 : inB s1 (col, row) := (inB_iff_of_dims hf.1 _).mpr hp
          have hx1 : inB s1 (nc, nr) := (inB_iff_of_dims hf.1 _).mpr hx
          have hcur1 : Maze.getCellE s1 col row =
              .ok (cellAt s1 (col, row)) := getCellE_ok hwf1 hp1
          have hnext1 : Maze.getCellE s1 nc nr =
              .ok (cellAt s1 (nc, nr)) := getCellE_ok hwf1 hx1
          simp only [hcur1, hnext1]
          cases hdm2 : Cell.draw_move (cellAt s1 (col, row))
              (cellAt s1 (nc, nr)) true with
          | error e =>
            simp only [hdm2]
            refine ⟨?_, ?_⟩
            · intro h
              injection h with h2
              exact Err.noConfusion ((draw_move_err hdm2).symm.trans h2)
            · intro hnw
              rw [draw_move_nowin _ true (hf.nowin hnw _ hp1)] at hdm2
              cases hdm2
          | ok u2 =>
            simp only [hdm2]
            exact ⟨fun h => Except.noConfusion h, fun _ => ⟨false, s1, rfl⟩⟩

theorem loop_term (n : Nat) (ha : AttemptTerm n) (hap : AttemptPost n) :
    LoopTerm n := by
  intro s0 col row ps
  induction ps generalizing s0 with
  | nil =>
    intro hwf hp hps hun hside
    rw [Maze.solve_loop]
    exact ⟨fun h => Except.noConfusion h, fun _ => ⟨false, s0, rfl⟩⟩
  | cons hd rest IH =>
    obtain ⟨nc, nr⟩ := hd
    intro hwf hp hps hun hside
    have hxin : inB s0 (nc, nr) := hps (nc, nr) (List.mem_cons_self _ _)
    have hside1 : (cellAt s0 (nc, nr)).visited = false ∨ unvis s0 < n := by
      rcases hside with h | h
      · exact Or.inl (h (nc, nr) (List.mem_cons_self _ _))
      · exact Or.inr h
    have hcond1 : unvis s0 < n ∨
        (unvis s0 ≤ n ∧ (cellAt s0 (nc, nr)).visited = false) := by
      rcases hside1 with h | h
      · exact Or.inr ⟨hun, h⟩
      · exact Or.inl h
    rw [Maze.solve_loop]
    have hcur : Maze.getCellE s0 col row = .ok (cellAt s0 (col, row)) :=
      getCellE_ok hwf hp
    have hnext : Maze.getCellE s0 nc nr = .ok (cellAt s0 (nc, nr)) :=
      getCellE_ok hwf hxin
    simp only [hcur, hnext]
    have hterm1 := ha s0 col row nc nr
      (decide (col < nc) && (!(cellAt s0 (col, row)).has_right_wall &&
        !(cellAt s0 (nc, nr)).has_left_wall)) hwf hp hxin (fun _ => hcond1)
    cases hat1 : Maze.attempt_move n s0 col row nc nr
        (decide (col < nc) && (!(cellAt s0 (col, row)).has_right_wall &&
          !(cellAt s0 (nc, nr)).has_left_wall)) with
    | error e =>
      simp only [hat1]
      refine ⟨?_, ?_⟩
      · intro h
        injection h with h2
        rw [h2] at hat1
        exact hterm1.1 hat1
      · intro hnw
        obtain ⟨b0, s0b, hok⟩ := hterm1.2 hnw
        rw [hok] at hat1
        cases hat1
    | ok pr1 =>
    obtain ⟨b1, t1⟩ := pr1
    cases b1 with
    | true =>
      exact ⟨fun h => Except.noConfusion h, fun _ => ⟨true, t1, rfl⟩⟩
    | false =>
    have hf1 : SFrame s0 t1 :=
      (hap s0 col row nc nr _ false t1 hat1 hwf hp hxin).1
    have hwf1 := hf1.2.1
    have hp1 : inB t1 (col, row) := (inB_iff_of_dims hf1.1 _).mpr hp
    have hx1 : inB t1 (nc, nr) := (inB_iff_of_dims hf1.1 _).mpr hxin
    have hcur1 : Maze.getCellE t1 col row = .ok (cellAt t1 (col, row)) :=
      getCellE_ok hwf1 hp1
    have hnext1 : Maze.getCellE t1 nc nr = .ok (cellAt t1 (nc, nr)) :=
      getCellE_ok hwf1 hx1
    simp only [hcur1, hnext1]
    have hterm2 := ha t1 col row nc nr
      (decide (col > nc) && (!(cellAt t1 (col, row)).has_left_wall &&
        !(cellAt t1 (nc, nr)).has_right_wall)) hwf1 hp1 hx1
      (fun _ => term_side hf1 hun hside1 hxin)
    cases hat2 : Maze.attempt_move n t1 col row nc nr
        (decide (col > nc) && (!(cellAt t1 (col, row)).has_left_wall &&
          !(cellAt t1 (nc, nr)).has_right_wall)) with
    | error e =>
      simp only [hat2]
      refine ⟨?_, ?_⟩
      · intro h
        injection h with h2
        rw [h2] at hat2
        exact hterm2.1 hat2
      · intro hnw
        obtain ⟨b0, s0b, hok⟩ := hterm2.2 (hf1.nowin hnw)
        rw [hok] at hat2
        cases hat2
    | ok pr2 =>
    obtain ⟨b2, t2⟩ := pr2
    cases b2 with
    | true =>
      exact ⟨fun h => Except.noConfusion h, fun _ => ⟨true, t2, rfl⟩⟩
    | false =>
    have hf2 : SFrame t1 t2 :=
      (hap t1 col row nc nr _ false t2 hat2 hwf1 hp1 hx1).1
    have hacc2 : SFrame s0 t2 := hf1.ftrans hf2
    have hwf2 := hf2.2.1
    have hp2 : inB t2 (col, row) := (inB_iff_of_dims hf2.1 _).mpr hp1
    have hx2 : inB t2 (nc, nr) := (inB_iff_of_dims hf2.1 _).mpr hx1
    have hcur2 : Maze.getCellE t2 col row = .ok (cellAt t2 (col, row)) :=
      getCellE_ok hwf2 hp2
    have hnext2 : Maze.getCellE t2 nc nr = .ok (cellAt t2 (nc, nr)) :=
      getCellE_ok hwf2 hx2
    simp only [hcur2, hnext2]
    have hterm3 := ha t2 col row nc nr
      (decide (row < nr) && (!(cellAt t2 (col, row)).has_bottom_wall &&
        !(cellAt t2 (nc, nr)).has_top_wall)) hwf2 hp2 hx2
      (fun _ => term_side hacc2 hun hside1 hxin)
    cases hat3 : Maze.attempt_move n t2 col row nc nr
        (decide (row < nr) && (!(cellAt t2 (col, row)).has_bottom_wall &&
          !(cellAt t2 (nc, nr)).has_top_wall)) with
    | error e =>
      simp only [hat3]
      refine ⟨?_, ?_⟩
      · intro h
        injection h with h2
        rw [h2] at hat3
        exact hterm3.1 hat3
      · intro hnw
        obtain ⟨b0, s0b, hok⟩ := hterm3.2 (hacc2.nowin hnw)
        rw [hok] at hat3
        cases hat3
    | ok pr3 =>
    obtain ⟨b3, t3⟩ := pr3
    cases b3 with
    | true =>
      exact ⟨fun h => Except.noConfusion h, fun _ => ⟨true, t3, rfl⟩⟩
    | false =>
    have hf3 : SFrame t2 t3 :=
      (hap t2 col row nc nr _ false t3 hat3 hwf2 hp2 hx2).1
    have hacc3 : SFrame s0 t3 := hacc2.ftrans hf3
    have hwf3 := hf3.2.1
    have hp3 : inB t3 (col, row) := (inB_iff_of_dims hf3.1 _).mpr hp2
    have hx3 : inB t3 (nc, nr) := (inB_iff_of_dims hf3.1 _).mpr hx2
    have hcur3 : Maze.getCellE t3 col row = .ok (cellAt t3 (col, row)) :=
      getCellE_ok hwf3 hp3
    have hnext3 : Maze.getCellE t3 nc nr = .ok (cellAt t3 (nc, nr)) :=
      getCellE_ok hwf3 hx3
    simp only [hcur3, hnext3]
    have hterm4 := ha t3 col row nc nr
      (decide (row > nr) && (!(cellAt t3 (col, row)).has_top_wall &&
        !(cellAt t3 (nc, nr)).has_bottom_wall)) hwf3 hp3 hx3
      (fun _ => term_side hacc3 hun hside1 hxin)
    cases hat4 : Maze.attempt_move n t3 col row nc nr
        (decide (row > nr) && (!(cellAt t3 (col, row)).has_top_wall &&
          !(cellAt t3 (nc, nr)).has_bottom_wall)) with
    | error e =>
      simp only [hat4]
      refine ⟨?_, ?_⟩
      · intro h
        injection h with h2
        rw [h2] at hat4
        exact hterm4.1 hat4
      · intro hnw
        obtain ⟨b0, s0b, hok⟩ := hterm4.2 (hacc3.nowin hnw)
        rw [hok] at hat4
        cases hat4
    | ok pr4 =>
    obtain ⟨b4, t4⟩ := pr4
    cases b4 with
    | true =>
      exact ⟨fun h => Except.noConfusion h, fun _ => ⟨true, t4, rfl⟩⟩
    | false =>
    have hf4 : SFrame t3 t4 :=
      (hap t3 col row nc nr _ false t4 hat4 hwf3 hp3 hx3).1
    have hacc4 : SFrame s0 t4 := hacc3.ftrans hf4
    have hun4 : unvis t4 ≤ n :=
      le_trans (unvis_le_of_subset hacc4.1 hacc4.2.2.2) hun
    have hside4 : (∀ x ∈ rest, (cellAt t4 x).visited = false) ∨
        unvis t4 < n := by
      have hle : unvis t4 ≤ unvis s0 :=
        unvis_le_of_subset hacc4.1 hacc4.2.2.2
      by_cases hlt : unvis t4 < unvis s0
      · exact Or.inr (by omega)
      · have hveq : vis t4 = vis s0 :=
          vis_eq_of_card hacc4.1 hacc4.2.2.2 (by omega)
        rcases hside with h | h
        · refine Or.inl ?_
          intro x hx
          have hxB : inB s0 x := hps x (List.mem_cons_of_mem _ hx)
          have hxB4 : inB t4 x := (inB_iff_of_dims hacc4.1 x).mpr hxB
          rw [← not_mem_vis hxB4, hveq, not_mem_vis hxB]
          exact h x (List.mem_cons_of_mem _ hx)
        · exact Or.inr (by omega)
    obtain ⟨hne, hok⟩ := IH t4 hacc4.2.1
      ((inB_iff_of_dims hacc4.1 _).mpr hp)
      (fun x hx => (inB_iff_of_dims hacc4.1 x).mpr
        (hps x (List.mem_cons_of_mem _ hx)))
      hun4 hside4
    exact ⟨hne, fun hnw => hok (hacc4.nowin hnw)⟩

theorem solve_term_succ (n : Nat) (hl : LoopTerm n) : SolveTerm (n + 1) := by
  intro s col row hwf hp hcond
  rw [Maze.solve_r]
  have hmk : Maze.markVisitedE s col row =
      .ok (updCell s (col, row) (fun c => { c with visited := true })) :=
    markVisitedE_ok hwf hp
  simp only [hmk]
  set sm := updCell s (col, row) (fun c => { c with visited := true })
    with hsm
  have hfm : SFrame s sm := SFrame.mark hwf hp
  have hvm : vis sm = insert (col, row) (vis s) := vis_mark hwf hp
  have hwfm := hfm.2.1
  have hpsm : inB sm (col, row) := (inB_iff_of_dims hfm.1 _).mpr hp
  have hunm : unvis sm ≤ n := by
    cases hv : (cellAt s (col, row)).visited with
    | false =>
      have hnv : (col, row) ∉ vis s := (not_mem_vis hp).mpr hv
      have hlt : unvis sm < unvis s := unvis_lt_of_new hfm.1 hfm.2.2.2
        (by rw [hvm]; exact Finset.mem_insert_self _ _) hnv
      rcases hcond with h | ⟨h, -⟩ <;> omega
    | true =>
      have hveq : vis sm = vis s := by
        rw [hvm]
        exact Finset.insert_eq_self.mpr (mem_vis.mpr ⟨hp, hv⟩)
      have hueq : unvis sm = unvis s := by
        have h1 := vis_card_add_unvis s
        have h2 := vis_card_add_unvis sm
        rw [allPos_eq_of_dims hfm.1, hveq] at h2
        omega
      rcases hcond with h | ⟨-, h2⟩
      · omega
      · exact Bool.noConfusion (hv.symm.trans h2)
  by_cases htc : col = sm.num_cols - 1 ∧ row = sm.num_rows - 1
  · rw [if_pos htc]
    exact ⟨fun h => Except.noConfusion h, fun _ => ⟨true, sm, rfl⟩⟩
  · rw [if_neg htc]
    have hptv : Maze.possibleToVisit sm col row =
        .ok (candList sm (col, row)) := possibleToVisit_ok hwfm hpsm
    simp only [hptv]
    by_cases hnil : (candList sm (col, row)).length = 0
    · rw [if_pos hnil]
      exact ⟨fun h => Except.noConfusion h, fun _ => ⟨false, sm, rfl⟩⟩
    · rw [if_neg hnil]
      obtain ⟨hne, hok⟩ := hl sm col row _ hwfm hpsm
        (fun x hx => (candList_mem hpsm hx).1) hunm
        (Or.inl (fun x hx => (candList_mem hpsm hx).2.1))
      exact ⟨hne, fun hnw => hok (hfm.nowin hnw)⟩

/-- The solver's fuel bound holds at every fuel. -/
theorem solve_term : ∀ n : Nat, SolveTerm n := by
  intro n
  induction n with
  | zero =>
    intro s col row hwf hp hcond
    exfalso
    rcases hcond with h | ⟨h1, h2⟩
    · omega
    · have := one_le_unvis hp h2
      omega
  | succ n IH =>
    exact solve_term_succ n (loop_term n (attempt_term n IH (solve_post n))
      (attempt_move_post n (solve_post n)))

/-! ### The claims -/

/-- C1: for every grid with `num_cols > 0` and `num_rows > 0`, after
construction completes the passage graph formed by broken interior
walls is a spanning tree over all cells: acyclic, connected across the
whole grid, and the number of broken interior wall connections (pairs
of adjacent in-bounds cells with the shared wall absent on both facing
sides; the two boundary entrance/exit breaks have no second facing side
and are not counted) equals `num_cols * num_rows - 1`. -/
theorem claim_C1_spanning_tree (x1 y1 rows cols sx sy : Int) (win : Bool)
    (g : Rng) (hr : 0 < rows) (hc : 0 < cols) :
    ∃ s gf, Maze.init x1 y1 rows cols sx sy win g
        (Maze.carveFuel rows cols) = .ok (s, gf) ∧
      s.num_rows = rows ∧ s.num_cols = cols ∧
      (mazeGraph s).IsAcyclic ∧
      (∀ a b, a ∈ allPos s → b ∈ allPos s → (mazeGraph s).Reachable a b) ∧
      (passages s).card = cols.toNat * rows.toNat - 1 := by
  obtain ⟨s, gf, hrun, hrows, hcols, hwin, hwf, hcons, hgt, hvis, hcw,
    hent, hexit, hbd⟩ := init_spec x1 y1 rows cols sx sy win g hr hc
  refine ⟨s, gf, hrun, hrows, hcols, mazeGraph_acyclic hgt,
    fun a b ha hb => mazeGraph_connected hgt ha hb, ?_⟩
  have hcard := hgt.card_eq
  have hap := allPos_card s
  rw [hcols, hrows] at hap
  omega

theorem claim_C1_spanning_tree_witness :
    (0 : Int) < 1 ∧ (0 : Int) < 2 ∧
    ∃ s gf, Maze.init 0 0 1 2 10 10 false (fun _ => 0)
        (Maze.carveFuel 1 2) = .ok (s, gf) ∧
      s.num_rows = 1 ∧ s.num_cols = 2 ∧
      (mazeGraph s).IsAcyclic ∧
      (∀ a b, a ∈ allPos s → b ∈ allPos s → (mazeGraph s).Reachable a b) ∧
      (passages s).card = (2 : Int).toNat * (1 : Int).toNat - 1 :=
  ⟨by decide, by decide,
    claim_C1_spanning_tree 0 0 1 2 10 10 false (fun _ => 0) (by decide)
      (by decide)⟩

/-- C8: after generation the entrance cell `(0,0)` has no left wall and
the exit cell `(num_cols-1, num_rows-1)` has no right wall, and these
are the only boundary walls removed: every other left flag of column 0,
right flag of the last column, and every top flag of row 0 and bottom
flag of the last row is still up. -/
theorem claim_C8_entrance_exit (x1 y1 rows cols sx sy : Int) (win : Bool)
    (g : Rng) (hr : 0 < rows) (hc : 0 < cols) :
    ∃ s gf, Maze.init x1 y1 rows cols sx sy win g
        (Maze.carveFuel rows cols) = .ok (s, gf) ∧
      (cellAt s (0, 0)).has_left_wall = false ∧
      (cellAt s (cols - 1, rows - 1)).has_right_wall = false ∧
      (∀ q, inB s q →
        (q.1 = 0 → q ≠ (0, 0) → (cellAt s q).has_left_wall = true) ∧
        (q.1 = cols - 1 → q ≠ (cols - 1, rows - 1) →
          (cellAt s q).has_right_wall = true) ∧
        (q.2 = 0 → (cellAt s q).has_top_wall = true) ∧
        (q.2 = rows - 1 → (cellAt s q).has_bottom_wall = true)) := by
  obtain ⟨s, gf, hrun, hrows, hcols, hwin, hwf, hcons, hgt, hvis, hcw,
    hent, hexit, hbd⟩ := init_spec x1 y1 rows cols sx sy win g hr hc
  exact ⟨s, gf, hrun, hent, hexit, hbd⟩

theorem claim_C8_entrance_exit_witness :
    (0 : Int) < 3 ∧ (0 : Int) < 2 ∧
    ∃ s gf, Maze.init 0 0 3 2 10 10 false (fun _ => 0)
        (Maze.carveFuel 3 2) = .ok (s, gf) ∧
      (cellAt s (0, 0)).has_left_wall = false ∧
      (cellAt s ((2 : Int) - 1, (3 : Int) - 1)).has_right_wall = false ∧
      (∀ q, inB s q →
        (q.1 = 0 → q ≠ (0, 0) → (cellAt s q).has_left_wall = true) ∧
        (q.1 = (2 : Int) - 1 → q ≠ ((2 : Int) - 1, (3 : Int) - 1) →
          (cellAt s q).has_right_wall = true) ∧
        (q.2 = 0 → (cellAt s q).has_top_wall = true) ∧
        (q.2 = (3 : Int) - 1 → (cellAt s q).has_bottom_wall = true)) :=
  ⟨by decide, by decide,
    claim_C8_entrance_exit 0 0 3 2 10 10 false (fun _ => 0) (by decide)
      (by decide)⟩

/-- C5: wall consistency after generation, and preservation by the
solver.  After construction every pair of adjacent cells has mutually
consistent facing flags (the generator clears both facing flags of a
shared wall in the same `breakPair` step, which is what the
`horizontal_view`/`vertical_view` lemmas of the carve analysis track),
and any completed solver call preserves the property because the solver
never touches a wall flag. -/
theorem claim_C5_wall_consistency (x1 y1 rows cols sx sy : Int)
    (win : Bool) (g : Rng) (hr : 0 < rows) (hc : 0 < cols) :
    ∃ s gf, Maze.init x1 y1 rows cols sx sy win g
        (Maze.carveFuel rows cols) = .ok (s, gf) ∧
      Consistent s ∧
      ∀ fuel col row b s2, Maze.solve_r fuel s col row = .ok (b, s2) →
        inB s (col, row) → Consistent s2 := by
  obtain ⟨s, gf, hrun, hrows, hcols, hwin, hwf, hcons, hgt, hvis, hcw,
    hent, hexit, hbd⟩ := init_spec x1 y1 rows cols sx sy win g hr hc
  refine ⟨s, gf, hrun, hcons, ?_⟩
  intro fuel col row b s2 hsol hp
  obtain ⟨hf, -, -, -⟩ := solve_post fuel s col row b s2 hsol hwf hp
  exact Consistent_congrW hf.1 (fun q hq => (hf.2.2.1 q hq).swalls) hcons

theorem claim_C5_wall_consistency_witness :
    (0 : Int) < 1 ∧ (0 : Int) < 2 ∧
    ∃ s gf, Maze.init 5 5 1 2 10 10 false (fun _ => 0)
        (Maze.carveFuel 1 2) = .ok (s, gf) ∧
      Consistent s ∧
      ∀ fuel col row b s2, Maze.solve_r fuel s col row = .ok (b, s2) →
        inB s (col, row) → Consistent s2 :=
  ⟨by decide, by decide,
    claim_C5_wall_consistency 5 5 1 2 10 10 false (fun _ => 0) (by decide)
      (by decide)⟩

/-- C6: every call to `solve()` terminates for every wellformed grid
state with positive dimensions and arbitrary `visited` flags: with the
canonical fuel (one unit per cell plus one) the embedding's fuel is
never exhausted, so the recursion always bottoms out — even though the
candidate list is computed once per call and a candidate may have been
visited by the time it is recursed into.  (A run may still end in a
Python exception such as the `ValueError` of `draw_move`; that is a
terminating outcome, not recursion.) -/
theorem claim_C6_termination (s : MazeState) (hwf : WF s)
    (hc : 0 < s.num_cols) (hr : 0 < s.num_rows) :
    Maze.solve (Maze.solveFuel s) s ≠ .error Err.outOfFuel := by
  have h00 : inB s (0, 0) := ⟨le_refl 0, hc, le_refl 0, hr⟩
  have hlt : unvis s < Maze.solveFuel s := by
    have h1 : unvis s ≤ (allPos s).card := Finset.card_filter_le _ _
    have h2 := allPos_card s
    unfold Maze.solveFuel
    omega
  exact ((solve_term (Maze.solveFuel s)) s 0 0 hwf h00 (Or.inl hlt)).1

/-- A one-cell headless grid state, used as a concrete instance. -/
def oneCellState : MazeState :=
  { x1 := 0, y1 := 0, num_rows := 1, num_cols := 1, cell_size_x := 10,
    cell_size_y := 10, win := false, cells := [[Cell.init false]] }

theorem claim_C6_termination_witness :
    WF oneCellState ∧ (0 : Int) < oneCellState.num_cols ∧
    (0 : Int) < oneCellState.num_rows ∧
    Maze.solve (Maze.solveFuel oneCellState) oneCellState ≠
      .error Err.outOfFuel :=
  ⟨by decide, by decide, by decide,
    claim_C6_termination oneCellState (by decide) (by decide) (by decide)⟩

/-- C7: frame property of solving.  Whenever a solver call returns —
with `True` or `False` — the four wall flags of every cell are the same
before and after the call: the solver mutates only `visited` flags. -/
theorem claim_C7_walls_frame (fuel : Nat) (s : MazeState) (b : Bool)
    (s2 : MazeState) (hwf : WF s) (hc : 0 < s.num_cols)
    (hr : 0 < s.num_rows)
    (hrun : Maze.solve fuel s = .ok (b, s2)) :
    ∀ q, inB s q → wallView s2 q = wallView s q := by
  have h00 : inB s (0, 0) := ⟨le_refl 0, hc, le_refl 0, hr⟩
  obtain ⟨hf, -, -, -⟩ := solve_post fuel s 0 0 b s2 hrun hwf h00
  intro q hq
  obtain ⟨w1, w2, w3, w4, -⟩ := hf.2.2.1 q hq
  unfold wallView
  rw [w1, w2, w3, w4]

/-- No cell of the one-cell grid state carries a window. -/
theorem oneCell_nowin : NoWin oneCellState := by
  intro q hq
  obtain ⟨h1, h2, h3, h4⟩ := hq
  have hcn : oneCellState.num_cols = 1 := rfl
  have hrn : oneCellState.num_rows = 1 := rfl
  rw [hcn] at h2
  rw [hrn] at h4
  have hq2 : q = ((0 : Int), (0 : Int)) :=
    Prod.ext_iff.mpr ⟨by omega, by omega⟩
  rw [hq2]
  rfl

theorem claim_C7_walls_frame_witness :
    ∃ b s2, Maze.solve (Maze.solveFuel oneCellState) oneCellState =
        .ok (b, s2) ∧
      ∀ q, inB oneCellState q → wallView s2 q = wallView oneCellState q := by
  obtain ⟨b, s2, hok⟩ := ((solve_term (Maze.solveFuel oneCellState))
    oneCellState 0 0 (by decide) (by decide)
    (Or.inl (by decide))).2 oneCell_nowin
  exact ⟨b, s2, hok, claim_C7_walls_frame (Maze.solveFuel oneCellState)
    oneCellState b s2 (by decide) (by decide) (by decide) hok⟩

/-- C10 (implicit): `_break_wall` called with any direction string
other than "top", "bottom", "left" or "right" is a silent no-op on wall
state: the `if`/`elif` chain falls through without clearing a flag, no
error is raised (only `_draw_cell` runs, which touches no wall or
visited flag), and every cell's wall and visited flags are unchanged. -/
theorem claim_C10_unknown_wall (s : MazeState) (p : Pos) (w : String)
    (hwf : WF s) (hp : inB s p)
    (hw : w ≠ "top" ∧ w ≠ "bottom" ∧ w ≠ "left" ∧ w ≠ "right") :
    ∃ s2, Maze.break_wall s p.1 p.2 w = .ok s2 ∧
      ∀ q, inB s q → cellWallsEq (cellAt s2 q) (cellAt s q) ∧
        (cellAt s2 q).visited = (cellAt s q).visited := by
  obtain ⟨s2, hrun, hdims, hwf2, hdesc⟩ := break_wall_spec w hwf hp
  refine ⟨s2, hrun, ?_⟩
  intro q hq
  have hd := hdesc q hq
  have hwc : wallClear w (cellAt s q) = cellAt s q := by
    unfold wallClear
    rw [if_neg hw.1, if_neg hw.2.1, if_neg hw.2.2.1, if_neg hw.2.2.2]
  by_cases hqp : q = p
  · rw [if_pos hqp, hwc] at hd
    exact ⟨hd.lwalls, hd.2.2.2.2.1⟩
  · rw [if_neg hqp] at hd
    exact ⟨hd.lwalls, hd.2.2.2.2.1⟩

theorem claim_C10_unknown_wall_witness :
    WF oneCellState ∧ inB oneCellState (0, 0) ∧
    ("north" ≠ "top" ∧ "north" ≠ "bottom" ∧ "north" ≠ "left" ∧
      "north" ≠ "right") ∧
    ∃ s2, Maze.break_wall oneCellState 0 0 "north" = .ok s2 ∧
      ∀ q, inB oneCellState q →
        cellWallsEq (cellAt s2 q) (cellAt oneCellState q) ∧
        (cellAt s2 q).visited = (cellAt oneCellState q).visited :=
  ⟨by decide, by decide, by decide,
    claim_C10_unknown_wall oneCellState (0, 0) "north" (by decide)
      (by decide) (by decide)⟩

/-- On a freshly generated headless maze the first solver call returns
`True`, certifying an open-walled route from the entrance cell to the
exit cell; moreover the run leaves the exit cell visited.  (This is the
engine behind C2 and the second-solve analysis of C4.) -/
theorem headless_first_solve (x1 y1 rows cols sx sy : Int) (g : Rng)
    (hr : 0 < rows) (hc : 0 < cols) :
    ∃ s gf s2, Maze.init x1 y1 rows cols sx sy false g
        (Maze.carveFuel rows cols) = .ok (s, gf) ∧
      Maze.solve (Maze.solveFuel s) s = .ok (true, s2) ∧
      ReachE (passages s) (0, 0) (cols - 1, rows - 1) ∧
      s.num_cols = cols ∧ s.num_rows = rows ∧ WF s2 ∧ DimsEq s s2 ∧
      NoWin s2 ∧ targetPos s2 ∈ vis s2 := by
  obtain ⟨s, gf, hrun, hrows, hcols, hwin, hwf, hcons, hgt, hvis, hcw,
    hent, hexit, hbd⟩ := init_spec x1 y1 rows cols sx sy false g hr hc
  have hcB : 0 < s.num_cols := by rw [hcols]; exact hc
  have hrB : 0 < s.num_rows := by rw [hrows]; exact hr
  have h00 : inB s (0, 0) := ⟨le_refl 0, hcB, le_refl 0, hrB⟩
  have htgtB : inB s (targetPos s) := by
    refine ⟨?_, ?_, ?_, ?_⟩
    · show (0 : Int) ≤ s.num_cols - 1
      omega
    · show s.num_cols - 1 < s.num_cols
      omega
    · show (0 : Int) ≤ s.num_rows - 1
      omega
    · show s.num_rows - 1 < s.num_rows
      omega
  have hnw : NoWin s := hcw
  have hvise : vis s = ∅ := vis_empty_of_unvisited hvis
  have hlt : unvis s < Maze.solveFuel s := by
    have h1 : unvis s ≤ (allPos s).card := Finset.card_filter_le _ _
    have h2 := allPos_card s
    unfold Maze.solveFuel
    omega
  obtain ⟨b, s2, hok⟩ := ((solve_term (Maze.solveFuel s)) s 0 0 hwf h00
    (Or.inl hlt)).2 hnw
  obtain ⟨hf, hm00, htrue, hfalse⟩ :=
    solve_post (Maze.solveFuel s) s 0 0 b s2 hok hwf h00
  cases b with
  | false =>
    exfalso
    obtain ⟨hNC, hTS⟩ := hfalse rfl
    have hcover : ∀ q, ReachE (passages s) (0, 0) q → q ∈ vis s2 := by
      intro q hq
      induction hq with
      | refl => exact hm00
      | tail hr2 hstep IH =>
        exact hNC _ IH (by rw [hvise]; exact Finset.not_mem_empty _) _
          (adjE_inB hstep) hstep
    have htv : targetPos s ∈ vis s2 := hcover _
      (hgt.connected (mem_allPos.mpr h00) (mem_allPos.mpr htgtB))
    have htv2 := hTS htv
    rw [hvise] at htv2
    exact Finset.not_mem_empty _ htv2
  | true =>
    obtain ⟨hreach, htv, -⟩ := htrue rfl
    have htEq : targetPos s = ((cols - 1 : Int), (rows - 1 : Int)) := by
      unfold targetPos
      rw [hcols, hrows]
    refine ⟨s, gf, s2, hrun, hok, ?_, hcols, hrows, hf.2.1, hf.1,
      hf.nowin hnw, ?_⟩
    · rw [← htEq]
      exact hreach
    · rw [targetPos_of_dims hf.1]
      exact htv

/-- C2: for every maze produced by the generator (any positive
dimensions, any random stream; headless, since rendering is outside the
specified core), the first call to `solve()` returns `True`, and the
success is certified by a route from `(0,0)` to
`(num_cols-1, num_rows-1)` each step of which moves between in-bounds
adjacent cells whose shared wall is absent on both facing sides
(`ReachE` over `passages`). -/
theorem claim_C2_solver_completeness (x1 y1 rows cols sx sy : Int)
    (g : Rng) (hr : 0 < rows) (hc : 0 < cols) :
    ∃ s gf s2, Maze.init x1 y1 rows cols sx sy false g
        (Maze.carveFuel rows cols) = .ok (s, gf) ∧
      Maze.solve (Maze.solveFuel s) s = .ok (true, s2) ∧
      ReachE (passages s) (0, 0) (cols - 1, rows - 1) := by
  obtain ⟨s, gf, s2, h1, h2, h3, -⟩ :=
    headless_first_solve x1 y1 rows cols sx sy g hr hc
  exact ⟨s, gf, s2, h1, h2, h3⟩

theorem claim_C2_solver_completeness_witness :
    (0 : Int) < 2 ∧ (0 : Int) < 3 ∧
    ∃ s gf s2, Maze.init 0 0 2 3 10 10 false (fun _ => 0)
        (Maze.carveFuel 2 3) = .ok (s, gf) ∧
      Maze.solve (Maze.solveFuel s) s = .ok (true, s2) ∧
      ReachE (passages s) (0, 0) ((3 : Int) - 1, (2 : Int) - 1) :=
  ⟨by decide, by decide,
    claim_C2_solver_completeness 0 0 2 3 10 10 (fun _ => 0) (by decide)
      (by decide)⟩

/-- C4 (amended): on any generated maze other than the one-cell maze, a
second `solve()` call immediately after a successful first one returns
`False`, not the same value — the solver never resets the `visited`
flags, the first call leaves the exit cell visited, visited cells are
never candidates again, and `True` only arises by entering the exit
cell. -/
theorem claim_C4_second_solve_false (x1 y1 rows cols sx sy : Int)
    (win : Bool) (g : Rng) (fuel1 fuel2 : Nat) (s s2 s3 : MazeState)
    (gf : Rng) (b : Bool)
    (hr : 0 < rows) (hc : 0 < cols) (hone : ¬(cols = 1 ∧ rows = 1))
    (hinit : Maze.init x1 y1 rows cols sx sy win g
      (Maze.carveFuel rows cols) = .ok (s, gf))
    (hs1 : Maze.solve fuel1 s = .ok (true, s2))
    (hs2 : Maze.solve fuel2 s2 = .ok (b, s3)) :
    b = false := by
  obtain ⟨s', gf', hrun, hrows, hcols, hwin, hwf, hcons, hgt, hvis, hcw,
    hent, hexit, hbd⟩ := init_spec x1 y1 rows cols sx sy win g hr hc
  rw [hinit] at hrun
  rw [Except.ok.injEq, Prod.mk.injEq] at hrun
  obtain ⟨rfl, -⟩ := hrun
  have hcB : 0 < s.num_cols := by rw [hcols]; exact hc
  have hrB : 0 < s.num_rows := by rw [hrows]; exact hr
  have h00 : inB s (0, 0) := ⟨le_refl 0, hcB, le_refl 0, hrB⟩
  obtain ⟨hf1, -, htrue1, -⟩ := solve_post fuel1 s 0 0 true s2 hs1 hwf h00
  obtain ⟨-, htv2, -⟩ := htrue1 rfl
  have hwf2 := hf1.2.1
  have h002 : inB s2 (0, 0) := (inB_iff_of_dims hf1.1 _).mpr h00
  obtain ⟨hf2, -, htrue2, -⟩ := solve_post fuel2 s2 0 0 b s3 hs2 hwf2 h002
  cases b with
  | false => rfl
  | true =>
    exfalso
    obtain ⟨-, -, hdisj⟩ := htrue2 rfl
    rcases hdisj with hEq | hnv
    · have h2 : ((0 : Int), (0 : Int)) =
          ((s2.num_cols - 1 : Int), (s2.num_rows - 1 : Int)) := hEq
      obtain ⟨e1, e2⟩ := Prod.mk.injEq .. ▸ h2
      have hc2 : s2.num_cols = s.num_cols := hf1.1.2.1
      have hr2 : s2.num_rows = s.num_rows := hf1.1.1
      refine hone ⟨?_, ?_⟩ <;> omega
    · have htp : targetPos s2 = targetPos s := targetPos_of_dims hf1.1
      rw [htp] at hnv
      exact hnv htv2

/-- C4 (counterexample to the original claim): on the concrete
two-column, one-row maze, the first `solve()` returns `True` and the
immediately following second `solve()` returns `False` — repeated
calls do not return the same success value. -/
theorem claim_C4_counterexample :
    ∃ s gf s2 s3, Maze.init 0 0 1 2 10 10 false (fun _ => 0)
        (Maze.carveFuel 1 2) = .ok (s, gf) ∧
      Maze.solve (Maze.solveFuel s) s = .ok (true, s2) ∧
      Maze.solve (Maze.solveFuel s2) s2 = .ok (false, s3) := by
  obtain ⟨s, gf, s2, hinit, hs1, hreach, hcols, hrows, hwf2, hdims, hnw2,
    htv⟩ := headless_first_solve 0 0 1 2 10 10 (fun _ => 0) (by decide)
      (by decide)
  have h002 : inB s2 (0, 0) := by
    refine ⟨le_refl 0, ?_, le_refl 0, ?_⟩
    · rw [hdims.2.1, hcols]
      decide
    · rw [hdims.1, hrows]
      decide
  have hlt2 : unvis s2 < Maze.solveFuel s2 := by
    have h1 : unvis s2 ≤ (allPos s2).card := Finset.card_filter_le _ _
    have h2 := allPos_card s2
    unfold Maze.solveFuel
    omega
  obtain ⟨b, s3, hs2⟩ := ((solve_term (Maze.solveFuel s2)) s2 0 0 hwf2
    h002 (Or.inl hlt2)).2 hnw2
  obtain ⟨hf2, -, htrue2, -⟩ :=
    solve_post (Maze.solveFuel s2) s2 0 0 b s3 hs2 hwf2 h002
  cases b with
  | false => exact ⟨s, gf, s2, s3, hinit, hs1, hs2⟩
  | true =>
    exfalso
    obtain ⟨-, -, hdisj⟩ := htrue2 rfl
    rcases hdisj with hEq | hnv
    · have h2 : ((0 : Int), (0 : Int)) =
          ((s2.num_cols - 1 : Int), (s2.num_rows - 1 : Int)) := hEq
      obtain ⟨e1, e2⟩ := Prod.mk.injEq .. ▸ h2
      have hc2 : s2.num_cols = s.num_cols := hdims.2.1
      rw [hcols] at hc2
      omega
    · exact hnv htv

theorem claim_C4_second_solve_false_witness :
    ∃ s gf s2 s3 b,
      Maze.init 0 0 1 2 10 10 false (fun _ => 0) (Maze.carveFuel 1 2) =
        .ok (s, gf) ∧
      Maze.solve (Maze.solveFuel s) s = .ok (true, s2) ∧
      Maze.solve (Maze.solveFuel s2) s2 = .ok (b, s3) ∧ b = false := by
  obtain ⟨s, gf, s2, hinit, hs1, hreach, hcols, hrows, hwf2, hdims, hnw2,
    htv⟩ := headless_first_solve 0 0 1 2 10 10 (fun _ => 0) (by decide)
      (by decide)
  have h002 : inB s2 (0, 0) := by
    refine ⟨le_refl 0, ?_, le_refl 0, ?_⟩
    · rw [hdims.2.1, hcols]
      decide
    · rw [hdims.1, hrows]
      decide
  have hlt2 : unvis s2 < Maze.solveFuel s2 := by
    have h1 : unvis s2 ≤ (allPos s2).card := Finset.card_filter_le _ _
    have h2 := allPos_card s2
    unfold Maze.solveFuel
    omega
  obtain ⟨b, s3, hs2⟩ := ((solve_term (Maze.solveFuel s2)) s2 0 0 hwf2
    h002 (Or.inl hlt2)).2 hnw2
  refine ⟨s, gf, s2, s3, b, hinit, hs1, hs2, ?_⟩
  exact claim_C4_second_solve_false 0 0 1 2 10 10 false (fun _ => 0)
    (Maze.solveFuel s) (Maze.solveFuel s2) s s2 s3 gf b (by decide)
    (by decide) (by decide) hinit hs1 hs2

/-- C3 (amended): `Maze.__init__` performs no dimension validation at
all.  With `num_rows ≤ 0` or `num_cols ≤ 0` construction fails — but
with the ordinary `IndexError` of an out-of-range list subscript
escaping from `_break_wall` (the program's error inventory has no
dedicated `InvalidDimension` kind); with positive dimensions the
allocation phase produces the `num_cols × num_rows` matrix of
all-walled unvisited cells and construction succeeds. -/
theorem claim_C3_no_validation (x1 y1 rows cols sx sy : Int) (win : Bool)
    (g : Rng) :
    ((rows ≤ 0 ∨ cols ≤ 0) → ∀ fuel,
      Maze.init x1 y1 rows cols sx sy win g fuel =
        .error Err.indexError) ∧
    (0 < rows → 0 < cols →
      (∃ s1, Maze.allocPhase
          { x1 := x1, y1 := y1, num_rows := rows, num_cols := cols,
            cell_size_x := sx, cell_size_y := sy, win := win,
            cells := [] } = .ok s1 ∧ WF s1 ∧ s1.num_rows = rows ∧
          s1.num_cols = cols ∧
          ∀ q, inB s1 q → freshCell win (cellAt s1 q)) ∧
      ∃ s gf, Maze.init x1 y1 rows cols sx sy win g
          (Maze.carveFuel rows cols) = .ok (s, gf)) := by
  obtain ⟨s1, hrun1, hdims1, hwf1, hfresh⟩ := allocPhase_spec
    { x1 := x1, y1 := y1, num_rows := rows, num_cols := cols,
      cell_size_x := sx, cell_size_y := sy, win := win, cells := [] }
  constructor
  · intro hbad fuel
    have hbw : ∀ f : Cell → Cell,
        Maze.modifyCellE s1 0 0 f = .error Err.indexError := by
      intro f
      unfold Maze.modifyCellE
      by_cases hc0 : cols ≤ 0
      · have hnil : s1.cells = [] := by
          refine List.length_eq_zero.mp ?_
          rw [hwf1.1, hdims1.2.1]
          show cols.toNat = 0
          omega
        rw [hnil]
        rfl
      · have hr0 : rows ≤ 0 := by
          rcases hbad with h | h
          · exact h
          · exact absurd h hc0
        have hlen : 0 < s1.cells.length := by
          rw [hwf1.1, hdims1.2.1]
          show 0 < cols.toNat
          omega
        have hcol : s1.cells[(0 : Int).toNat]? = some (s1.cells[0]) :=
          List.getElem?_eq_getElem hlen
        have hcolnil : s1.cells[0] = [] := by
          refine List.length_eq_zero.mp ?_
          rw [hwf1.2 _ (List.getElem_mem hlen), hdims1.1]
          show rows.toNat = 0
          omega
        rw [getListE_ok (le_refl 0) hcol, hcolnil]
        rfl
    have hbwall : Maze.break_wall s1 0 0 "left" = .error Err.indexError := by
      unfold Maze.break_wall
      rw [if_neg (by decide), if_neg (by decide), if_pos rfl]
      simp only [hbw]
    have hent : Maze.break_entrance_and_exit s1 = .error Err.indexError := by
      unfold Maze.break_entrance_and_exit
      simp only [hbwall]
    unfold Maze.init Maze.create_cells
    simp only [hrun1, hent]
  · intro hr hc
    refine ⟨⟨s1, hrun1, hwf1, hdims1.1, hdims1.2.1, hfresh⟩, ?_⟩
    obtain ⟨s, gf, hrun, -⟩ :=
      init_spec x1 y1 rows cols sx sy win g hr hc
    exact ⟨s, gf, hrun⟩

/-- C3 (counterexample to the original claim): constructing with
non-positive dimensions fails, but with `Err.indexError` — the plain
`IndexError` of a bad list subscript, the same exception kind any
out-of-range access raises — not a dedicated dimension-validation
error.  The error inventory of the program (`Err`, translated from the
exceptions the source can raise) has no `InvalidDimension`
constructor, because `Maze.__init__` (maze.py lines 163-180) never
examines its dimensions. -/
theorem claim_C3_counterexample :
    Maze.init 0 0 0 0 10 10 false (fun _ => 0) 6 =
      .error Err.indexError ∧
    Maze.init 0 0 0 5 10 10 false (fun _ => 0) 6 =
      .error Err.indexError ∧
    Maze.init 0 0 5 0 10 10 false (fun _ => 0) 6 =
      .error Err.indexError ∧
    Err.indexError ≠ Err.outOfFuel ∧ Err.indexError ≠ Err.valueError :=
  ⟨rfl, rfl, rfl, by decide, by decide⟩

/-- C9 (amended): `Cell.draw_move` with no window attached returns
silently whatever the cells' bounds — draw-before-layout is not
detected headless; with a window attached it raises
`ValueError("cell has no coordinates")` exactly when one of the eight
bounds of the two cells is Python-falsy, that is `None` (unpositioned)
or the integer `0` — so a positioned cell one of whose stored
coordinates is 0 also raises. -/
theorem claim_C9_draw_move (c d : Cell) (u : Bool) :
    (c.win = false → Cell.draw_move c d u = .ok ()) ∧
    (c.win = true →
      (Cell.draw_move c d u = .error Err.valueError ↔
        ((pyFalsy c.x1 || pyFalsy c.x2 || pyFalsy c.y1 ||
          pyFalsy c.y2) = true ∨
         (pyFalsy d.x1 || pyFalsy d.x2 || pyFalsy d.y1 ||
          pyFalsy d.y2) = true))) := by
  constructor
  · intro h
    exact draw_move_nowin d u h
  · intro h
    unfold Cell.draw_move
    rw [h]
    rw [if_neg (show ¬(true = false) by decide)]
    by_cases h1 : (pyFalsy c.x1 || pyFalsy c.x2 || pyFalsy c.y1 ||
        pyFalsy c.y2) = true
    · rw [if_pos h1]
      exact ⟨fun _ => Or.inl h1, fun _ => rfl⟩
    · rw [if_neg h1]
      by_cases h2 : (pyFalsy d.x1 || pyFalsy d.x2 || pyFalsy d.y1 ||
          pyFalsy d.y2) = true
      · rw [if_pos h2]
        exact ⟨fun _ => Or.inr h2, fun _ => rfl⟩
      · rw [if_neg h2]
        constructor
        · intro hcontra
          exact Except.noConfusion hcontra
        · intro hor
          rcases hor with hx | hx
          · exact absurd hx h1
          · exact absurd hx h2

/-- C9 (counterexample to the original claim): a cell that HAS been
assigned display bounds still raises when one stored coordinate is the
integer 0 (Python truthiness: `not self._x1` is true for 0), refuting
"does not raise when both cells have bounds"; and a draw_move on fully
unpositioned cells with no window attached raises nothing, refuting
"raises on an unpositioned cell". -/
theorem claim_C9_counterexample :
    Cell.draw_move
      { x1 := some 0, y1 := some 0, x2 := some 10, y2 := some 10,
        win := true }
      { x1 := some 20, y1 := some 20, x2 := some 30, y2 := some 30,
        win := true } false = .error Err.valueError ∧
    Cell.draw_move { win := false } { win := false } false = .ok () :=
  ⟨rfl, rfl⟩
